import Mathlib

/-!
Verification of the baobab byte-keyed radix trie.

This file gives a shallow embedding of the trie implementation
(bitset.rs, header.rs, node.rs, packed_node.rs, insert.rs, remove.rs,
iter.rs, trie.rs) and proves the behavioural claims about it.

Conventions of the embedding:
* bytes are Fin 256; 64-bit machine words are Nat values kept below 2^64
  by an explicit invariant (the operations only ever OR in bits below 64);
* Vec of child handles is rendered as the bespoke list PList so that the
  mutually inductive node structure admits structural recursion;
* the recursive trie operations consume at least one key byte per
  recursive call in the source, so they are defined here with an explicit
  fuel argument; the public wrappers instantiate the fuel with
  key length + 1, which is proved sufficient;
* in-place mutation through a mutable borrow of a child slot is rendered
  as functional replacement of that slot.
-/

namespace Baobab

/-! ## Bitset (bitset.rs)

The source stores bits: [u64; 4].  We store the four words as a list of
Nat; all operations keep each word below 2^64.
-/

/-- Popcount of the low 64 bits of a word.  On the invariant domain
(words below 2^64) this is exactly u64::count_ones. -/
def countOnes (w : Nat) : Nat :=
  ((List.range 64).filter (fun j => w.testBit j)).length

/-- Bitset::new: four zero words. -/
def bsNew : List Nat := [0, 0, 0, 0]

/-- Bitset::set: bits[byte / 64] |= 1 << (byte % 64). -/
def bsSet (bs : List Nat) (b : Fin 256) : List Nat :=
  bs.set (b.val / 64) ((bs.getD (b.val / 64) 0) ||| (1 <<< (b.val % 64)))

/-- Membership test used by query's first line and by iter:
bits[byte / 64] & (1 << (byte % 64)) != 0. -/
def bsTest (bs : List Nat) (b : Fin 256) : Bool :=
  (bs.getD (b.val / 64) 0) &&& (1 <<< (b.val % 64)) != 0

/-- Bitset::query: if the bit is set, the number of set bits strictly
below it (three fully preceding words plus the masked current word). -/
def bsQuery (bs : List Nat) (b : Fin 256) : Option Nat :=
  if (bs.getD (b.val / 64) 0) &&& (1 <<< (b.val % 64)) = 0 then none
  else
    let rank := (List.range 4).foldl
      (fun acc i => acc + countOnes (bs.getD i 0) * (if i < b.val / 64 then 1 else 0)) 0
    let mask := (1 <<< (b.val % 64)) - 1
    let blockRank := countOnes ((bs.getD (b.val / 64) 0) &&& mask)
    some (rank + blockRank)

/-- Bitset::iter: ascending enumeration of the set bits.  The source
iterates word index i in 0..4 and then bit j in 0..64, which enumerates
bit indices 64*i+j in ascending order; filtering 0..=255 in ascending
order produces the same list. -/
def bsIter (bs : List Nat) : List (Fin 256) :=
  (List.finRange 256).filter (fun b => bsTest bs b)

/-- Well-formedness of a bitset value: four words, each below 2^64. -/
def bsWF (bs : List Nat) : Prop := bs.length = 4 ∧ ∀ w ∈ bs, w < 2 ^ 64

/-- Building a bitset from a list of bytes by repeated set. -/
def bsBuild (l : List (Fin 256)) : List Nat := l.foldl bsSet bsNew

theorem bsWF_new : bsWF bsNew := by
  constructor
  · rfl
  · intro w hw
    simp [bsNew] at hw
    simp [hw]

theorem bsSet_length (bs : List Nat) (b : Fin 256) :
    (bsSet bs b).length = bs.length := by
  simp [bsSet]

theorem bsWF_set {bs : List Nat} (h : bsWF bs) (b : Fin 256) : bsWF (bsSet bs b) := by
  obtain ⟨hlen, hws⟩ := h
  refine ⟨by simp [bsSet, hlen], ?_⟩
  intro w hw
  rcases List.mem_or_eq_of_mem_set hw with h | h
  · exact hws _ h
  · subst h
    have h1 : (1 <<< (b.val % 64)) < 2 ^ 64 := by
      rw [Nat.shiftLeft_eq, one_mul]
      exact Nat.pow_lt_pow_right (by norm_num) (Nat.mod_lt _ (by norm_num))
    have h2 : bs.getD (b.val / 64) 0 < 2 ^ 64 := by
      rcases Nat.lt_or_ge (b.val / 64) bs.length with hl | hl
      · rw [List.getD_eq_getElem _ _ hl]
        exact hws _ (List.getElem_mem hl)
      · rw [List.getD_eq_default _ _ hl]
        norm_num
    exact Nat.or_lt_two_pow h2 h1

theorem bsWF_build (l : List (Fin 256)) : bsWF (bsBuild l) := by
  suffices h : ∀ bs, bsWF bs → bsWF (l.foldl bsSet bs) from h _ bsWF_new
  induction l with
  | nil => intro bs h; exact h
  | cons b t ih => intro bs h; exact ih _ (bsWF_set h b)

theorem shiftLeft_one_eq (k : Nat) : 1 <<< k = 2 ^ k := by
  rw [Nat.shiftLeft_eq, one_mul]

theorem and_two_pow_eq_zero_iff (w k : Nat) :
    w &&& 2 ^ k = 0 ↔ w.testBit k = false := by
  constructor
  · intro h
    have h2 := congrArg (fun x => x.testBit k) h
    simpa [Nat.testBit_and, Nat.testBit_two_pow_self] using h2
  · intro h
    apply Nat.eq_of_testBit_eq
    intro i
    rcases eq_or_ne k i with rfl | hne
    · simp [Nat.testBit_and, h]
    · simp [Nat.testBit_and, Nat.testBit_two_pow_of_ne hne]

theorem bsTest_eq_testBit (bs : List Nat) (b : Fin 256) :
    bsTest bs b = (bs.getD (b.val / 64) 0).testBit (b.val % 64) := by
  unfold bsTest
  by_cases hz : (bs.getD (b.val / 64) 0) &&& (1 <<< (b.val % 64)) = 0
  · have h := (and_two_pow_eq_zero_iff _ _).mp (by rwa [shiftLeft_one_eq] at hz)
    rw [hz, h]
    rfl
  · have h : (bs.getD (b.val / 64) 0).testBit (b.val % 64) = true := by
      by_contra hc
      exact hz (by
        rw [shiftLeft_one_eq]
        exact (and_two_pow_eq_zero_iff _ _).mpr (Bool.eq_false_iff.mpr hc))
    rw [h]
    exact bne_iff_ne.mpr hz

theorem fin256_eq_iff_divmod (b b' : Fin 256) :
    b = b' ↔ (b.val / 64 = b'.val / 64 ∧ b.val % 64 = b'.val % 64) := by
  constructor
  · rintro rfl; exact ⟨rfl, rfl⟩
  · rintro ⟨h1, h2⟩
    apply Fin.ext
    have ha := Nat.div_add_mod b.val 64
    have hb := Nat.div_add_mod b'.val 64
    omega

theorem bsTest_set (bs : List Nat) (hlen : bs.length = 4) (b' b : Fin 256) :
    bsTest (bsSet bs b') b = (decide (b = b') || bsTest bs b) := by
  have hb' : b'.val < 256 := b'.isLt
  have hidx : b'.val / 64 < bs.length := by
    rw [hlen]; omega
  rw [bsTest_eq_testBit, bsTest_eq_testBit, bsSet]
  by_cases hw : b.val / 64 = b'.val / 64
  · rw [hw]
    have hget : (bs.set (b'.val / 64) ((bs.getD (b'.val / 64) 0) ||| (1 <<< (b'.val % 64)))).getD
        (b'.val / 64) 0 = (bs.getD (b'.val / 64) 0) ||| (1 <<< (b'.val % 64)) := by
      rw [List.getD_eq_getElem _ _ (by simpa using hidx)]
      simp
    rw [hget, shiftLeft_one_eq, Nat.testBit_or, Nat.testBit_two_pow]
    by_cases hm : b.val % 64 = b'.val % 64
    · have he : b = b' := (fin256_eq_iff_divmod b b').mpr ⟨hw, hm⟩
      simp [he, Bool.or_comm]
    · have hne : b ≠ b' := fun hc => hm ((fin256_eq_iff_divmod b b').mp hc).2
      have h1 : decide (b'.val % 64 = b.val % 64) = false :=
        decide_eq_false (fun hc => hm hc.symm)
      have h2 : decide (b = b') = false := decide_eq_false hne
      rw [h1, h2, Bool.or_false, Bool.false_or]
  · have hget : (bs.set (b'.val / 64) ((bs.getD (b'.val / 64) 0) ||| (1 <<< (b'.val % 64)))).getD
        (b.val / 64) 0 = bs.getD (b.val / 64) 0 := by
      rcases Nat.lt_or_ge (b.val / 64) bs.length with hlt | hge
      · rw [List.getD_eq_getElem _ _ (by simpa using hlt), List.getD_eq_getElem _ _ hlt]
        exact List.getElem_set_ne (fun hc => hw hc.symm) _
      · rw [List.getD_eq_default _ _ (by simpa using hge), List.getD_eq_default _ _ hge]
    have hne : b ≠ b' := fun hc => hw ((fin256_eq_iff_divmod b b').mp hc).1
    have h2 : decide (b = b') = false := decide_eq_false hne
    rw [hget, h2, Bool.false_or]

theorem bsTest_new (b : Fin 256) : bsTest bsNew b = false := by
  have h : bsNew.getD (b.val / 64) 0 = 0 := by
    match hi : b.val / 64 with
    | 0 => rfl
    | 1 => rfl
    | 2 => rfl
    | 3 => rfl
    | n + 4 => rfl
  rw [bsTest_eq_testBit, h]
  simp

theorem bsTest_build (l : List (Fin 256)) (b : Fin 256) :
    bsTest (bsBuild l) b = decide (b ∈ l) := by
  suffices h : ∀ bs, bs.length = 4 →
      bsTest (l.foldl bsSet bs) b = (decide (b ∈ l) || bsTest bs b) by
    rw [bsBuild, h bsNew rfl, bsTest_new]
    simp
  induction l with
  | nil => intro bs _; simp
  | cons x t ih =>
    intro bs hbs
    rw [List.foldl_cons, ih _ (by rw [bsSet_length, hbs]), bsTest_set bs hbs]
    simp [List.mem_cons]
    cases Decidable.em (b = x) <;> cases Decidable.em (b ∈ t) <;>
      simp_all [Bool.or_comm, Bool.or_assoc, Bool.or_left_comm]

/-! ### The rank law for bsQuery -/

theorem countOnes_eq_countP (w : Nat) :
    countOnes w = (List.range 64).countP (fun j => w.testBit j) := by
  rw [countOnes, List.countP_eq_length_filter]

theorem countP_congr_eq {α : Type} {l : List α} {p q : α → Bool}
    (h : ∀ a ∈ l, p a = q a) : l.countP p = l.countP q :=
  List.countP_congr (fun a ha => by rw [h a ha])

set_option maxRecDepth 10000 in
theorem range256_eq_blocks :
    List.range 256 =
      (List.range 64).map (fun j => 64 * 0 + j) ++ (List.range 64).map (fun j => 64 * 1 + j)
      ++ (List.range 64).map (fun j => 64 * 2 + j) ++ (List.range 64).map (fun j => 64 * 3 + j) := by
  decide

theorem countP_range256_blocks (p : Nat → Bool) :
    (List.range 256).countP p =
      (List.range 64).countP (fun j => p (64 * 0 + j))
      + (List.range 64).countP (fun j => p (64 * 1 + j))
      + (List.range 64).countP (fun j => p (64 * 2 + j))
      + (List.range 64).countP (fun j => p (64 * 3 + j)) := by
  rw [range256_eq_blocks, List.countP_append, List.countP_append, List.countP_append,
    List.countP_map, List.countP_map, List.countP_map, List.countP_map]
  rfl

theorem block_count (w : Nat) (i bv : Nat) (hi : i < 4) (hbv : bv < 256) :
    (List.range 64).countP (fun j => w.testBit j && decide (64 * i + j < bv)) =
      countOnes w * (if i < bv / 64 then 1 else 0)
      + (if i = bv / 64 then countOnes (w &&& ((1 <<< (bv % 64)) - 1)) else 0) := by
  rcases Nat.lt_trichotomy i (bv / 64) with hlt | heq | hgt
  · have hall : ∀ j ∈ List.range 64,
        (w.testBit j && decide (64 * i + j < bv)) = w.testBit j := by
      intro j hj
      rw [List.mem_range] at hj
      have : 64 * i + j < bv := by omega
      simp [this]
    rw [countP_congr_eq hall, ← countOnes_eq_countP,
      if_pos hlt, if_neg (Nat.ne_of_lt hlt), Nat.mul_one, Nat.add_zero]
  · have hall : ∀ j ∈ List.range 64,
        (w.testBit j && decide (64 * i + j < bv))
          = (w &&& ((1 <<< (bv % 64)) - 1)).testBit j := by
      intro j hj
      rw [List.mem_range] at hj
      rw [shiftLeft_one_eq, Nat.testBit_and, Nat.testBit_two_pow_sub_one]
      have hcond : (64 * i + j < bv) ↔ (j < bv % 64) := by omega
      simp [hcond]
    rw [countP_congr_eq hall, ← countOnes_eq_countP]
    simp [heq, Nat.lt_irrefl]
  · have hall : ∀ j ∈ List.range 64,
        (w.testBit j && decide (64 * i + j < bv)) = false := by
      intro j hj
      rw [List.mem_range] at hj
      have : ¬(64 * i + j < bv) := by omega
      simp [this]
    rw [countP_congr_eq hall]
    simp [Nat.lt_asymm hgt, Nat.ne_of_gt hgt]

theorem bsBuild_getD_lt (l : List (Fin 256)) (i : Nat) :
    (bsBuild l).getD i 0 < 2 ^ 64 := by
  obtain ⟨hlen, hws⟩ := bsWF_build l
  rcases Nat.lt_or_ge i (bsBuild l).length with hlt | hge
  · rw [List.getD_eq_getElem _ _ hlt]
    exact hws _ (List.getElem_mem hlt)
  · rw [List.getD_eq_default _ _ hge]
    norm_num

/-- Core correctness of Bitset::query on an arbitrary bitset value: when
the bit for b is set it returns the number of set bits strictly below b,
otherwise none. -/
theorem bsQuery_spec (bs : List Nat) (b : Fin 256) :
    bsQuery bs b =
      if bsTest bs b then
        some ((List.finRange 256).countP (fun x => bsTest bs x && decide (x.val < b.val)))
      else none := by
  by_cases hmem : bsTest bs b = true
  · have hbit : (bs.getD (b.val / 64) 0).testBit (b.val % 64) = true := by
      rw [← bsTest_eq_testBit]; exact hmem
    have hnz : ¬(bs.getD (b.val / 64) 0) &&& (1 <<< (b.val % 64)) = 0 := by
      rw [shiftLeft_one_eq]
      intro hc
      rw [(and_two_pow_eq_zero_iff _ _).mp hc] at hbit
      exact Bool.false_ne_true hbit
    rw [bsQuery, if_neg hnz, if_pos hmem]
    have hcnt : (List.finRange 256).countP
          (fun x => bsTest bs x && decide (x.val < b.val))
        = (List.range 256).countP
          (fun n => (bs.getD (n / 64) 0).testBit (n % 64) && decide (n < b.val)) := by
      rw [← List.map_coe_finRange 256, List.countP_map]
      exact countP_congr_eq (fun x _ => by rw [bsTest_eq_testBit]; rfl)
    rw [hcnt, countP_range256_blocks]
    have hb4 : ∀ (i : Nat), i < 4 → ∀ j ∈ List.range 64,
        ((bs.getD ((64 * i + j) / 64) 0).testBit ((64 * i + j) % 64)
            && decide (64 * i + j < b.val))
          = ((bs.getD i 0).testBit j && decide (64 * i + j < b.val)) := by
      intro i hi j hj
      rw [List.mem_range] at hj
      have hd : (64 * i + j) / 64 = i := by omega
      have hm : (64 * i + j) % 64 = j := by omega
      rw [hd, hm]
    have hblk : ∀ (i : Nat), i < 4 →
        (List.range 64).countP
            (fun j => (bs.getD ((64 * i + j) / 64) 0).testBit ((64 * i + j) % 64)
              && decide (64 * i + j < b.val))
          = countOnes (bs.getD i 0) * (if i < b.val / 64 then 1 else 0)
            + (if i = b.val / 64
                then countOnes ((bs.getD i 0) &&& ((1 <<< (b.val % 64)) - 1)) else 0) := by
      intro i hi
      rw [countP_congr_eq (hb4 i hi)]
      exact block_count _ i b.val hi b.isLt
    have h0 := hblk 0 (by norm_num)
    have h1 := hblk 1 (by norm_num)
    have h2 := hblk 2 (by norm_num)
    have h3 := hblk 3 (by norm_num)
    have hrank : (List.range 4).foldl
        (fun acc i => acc + countOnes (bs.getD i 0)
          * (if i < b.val / 64 then 1 else 0)) 0 =
        countOnes (bs.getD 0 0) * (if 0 < b.val / 64 then 1 else 0)
        + countOnes (bs.getD 1 0) * (if 1 < b.val / 64 then 1 else 0)
        + countOnes (bs.getD 2 0) * (if 2 < b.val / 64 then 1 else 0)
        + countOnes (bs.getD 3 0) * (if 3 < b.val / 64 then 1 else 0) := by
      show List.foldl _ 0 [0, 1, 2, 3] = _
      simp [List.foldl]
    have hc4 : b.val / 64 < 4 := by
      have := b.isLt
      omega
    simp only [Option.some.injEq]
    rw [hrank, h0, h1, h2, h3]
    have hc : b.val / 64 = 0 ∨ b.val / 64 = 1 ∨ b.val / 64 = 2 ∨ b.val / 64 = 3 := by omega
    rcases hc with hc | hc | hc | hc <;> rw [hc] <;> simp <;> try omega
  · have hbit : (bs.getD (b.val / 64) 0).testBit (b.val % 64) = false := by
      rw [← bsTest_eq_testBit]
      exact Bool.eq_false_iff.mpr hmem
    have hz : (bs.getD (b.val / 64) 0) &&& (1 <<< (b.val % 64)) = 0 := by
      rw [shiftLeft_one_eq]
      exact (and_two_pow_eq_zero_iff _ _).mpr hbit
    rw [bsQuery, if_pos hz, if_neg hmem]

/-- Specialization to a bitset built from a list of bytes: for a member
byte, query returns the number of distinct members strictly below it. -/
theorem bsQuery_build (l : List (Fin 256)) (b : Fin 256) :
    bsQuery (bsBuild l) b =
      if b ∈ l then
        some ((List.finRange 256).countP (fun x => decide (x ∈ l) && decide (x.val < b.val)))
      else none := by
  rw [bsQuery_spec]
  by_cases hmem : b ∈ l
  · rw [if_pos (by rw [bsTest_build]; simp [hmem]), if_pos hmem]
    exact congrArg some (countP_congr_eq (fun x _ => by rw [bsTest_build l x]))
  · rw [if_neg (by rw [bsTest_build]; simp [hmem]), if_neg hmem]

/-! ## Node structure (node.rs, packed_node.rs)

PNode renders PackedNode<T>: either the empty handle (ptr: None) or one
packed node with its prefix bytes, children table and optional value.
NodeChildren renders the four children variants of node.rs.  PList
renders Vec<PackedNode<T>> and the Dense child table; it is a bespoke
list type so that the nested inductive admits structural recursion.
The Rust field name prefix is a reserved token in Lean, so it is
rendered pfx throughout.
-/

mutual
inductive PNode (V : Type) : Type where
  | empty : PNode V
  | node (pfx : List (Fin 256)) (children : NodeChildren V) (value : Option V) : PNode V
inductive NodeChildren (V : Type) : Type where
  | emptyC : NodeChildren V
  | pairs (keys : List (Fin 256)) (values : PList V) : NodeChildren V
  | sparse (bitset : List Nat) (values : PList V) : NodeChildren V
  | dense (table : PList V) : NodeChildren V
inductive PList (V : Type) : Type where
  | nil : PList V
  | cons (head : PNode V) (tail : PList V) : PList V
end

variable {V : Type}

def PList.length : PList V → Nat
  | .nil => 0
  | .cons _ t => t.length + 1

def PList.get? : PList V → Nat → Option (PNode V)
  | .nil, _ => none
  | .cons h _, 0 => some h
  | .cons _ t, n + 1 => t.get? n

def PList.set : PList V → Nat → PNode V → PList V
  | .nil, _, _ => .nil
  | .cons _ t, 0, x => .cons x t
  | .cons h t, n + 1, x => .cons h (t.set n x)

def PList.toList : PList V → List (PNode V)
  | .nil => []
  | .cons h t => h :: t.toList

def PList.ofList : List (PNode V) → PList V
  | [] => .nil
  | h :: t => .cons h (PList.ofList t)

/-- PackedNode::is_empty (the handle holds no allocation). -/
def PNode.isEmptyN : PNode V → Bool
  | .empty => true
  | .node _ _ _ => false

/-- PackedNode::prefix (the empty handle exposes an empty slice). -/
def PNode.pfxOf : PNode V → List (Fin 256)
  | .empty => []
  | .node p _ _ => p

/-- PackedNode::value. -/
def PNode.valueOf : PNode V → Option V
  | .empty => none
  | .node _ _ v => v

/-- PackedNode::has_value. -/
def PNode.hasValue (t : PNode V) : Bool := t.valueOf.isSome

/-- PackedNode::take: an empty handle yields the empty logical node. -/
def takeN : PNode V → List (Fin 256) × NodeChildren V × Option V
  | .empty => ([], .emptyC, none)
  | .node p c v => (p, c, v)

/-- NodeChildren::one. -/
def NodeChildren.one (k : Fin 256) (ptr : PNode V) : NodeChildren V :=
  .pairs [k] (.cons ptr .nil)

/-- NodeChildren::two. -/
def NodeChildren.two (k1 : Fin 256) (p1 : PNode V) (k2 : Fin 256) (p2 : PNode V) :
    NodeChildren V :=
  .pairs [k1, k2] (.cons p1 (.cons p2 .nil))

/-! ### Canonical ordered map (BTreeMap u8 PackedNode) as a sorted
association list, and the into_pairs / from_pairs conversions. -/

/-- BTreeMap::insert rendered on a key-sorted association list. -/
def btInsert {α : Type} : List (Fin 256 × α) → Fin 256 → α → List (Fin 256 × α)
  | [], k, v => [(k, v)]
  | (k', v') :: t, k, v =>
    if k < k' then (k, v) :: (k', v') :: t
    else if k = k' then (k, v) :: t
    else (k', v') :: btInsert t k v

/-- BTreeMap::get. -/
def btLookup {α : Type} : List (Fin 256 × α) → Fin 256 → Option α
  | [], _ => none
  | (k', v') :: t, k => if k = k' then some v' else btLookup t k

/-- Iterator::zip of a key list with a child vector. -/
def zipKV : List (Fin 256) → PList V → List (Fin 256 × PNode V)
  | [], _ => []
  | _ :: _, .nil => []
  | k :: ks, .cons v vs => (k, v) :: zipKV ks vs

/-- NodeChildren::into_pairs: drain the variant into the canonical
ordered map, inserting only the non-empty children (Pairs in key order,
Sparse in ascending set-bit order, Dense in slot order). -/
def intoPairs : NodeChildren V → List (Fin 256 × PNode V)
  | .emptyC => []
  | .pairs keys values =>
    (zipKV keys values).foldl
      (fun m kv => if kv.2.isEmptyN then m else btInsert m kv.1 kv.2) []
  | .sparse bs values =>
    (zipKV (bsIter bs) values).foldl
      (fun m kv => if kv.2.isEmptyN then m else btInsert m kv.1 kv.2) []
  | .dense table =>
    (zipKV (List.finRange 256) table).foldl
      (fun m kv => if kv.2.isEmptyN then m else btInsert m kv.1 kv.2) []

/-- The zeroed Dense table written over by the map entries. -/
def denseOf (m : List (Fin 256 × PNode V)) : PList V :=
  m.foldl (fun t kv => t.set kv.1.val kv.2) (PList.ofList (List.replicate 256 PNode.empty))

/-- NodeChildren::from_pairs.  The source match arms are
0, 1..=32, 33..=192, 192..=256 and a panic; the overlapping 192 is taken
by the Sparse arm because match arms apply in order, so the effective
buckets are 0, 1..=32, 33..=192, 193..=256.  Lengths above 256 panic in
the source; the total model returns emptyC there (unreachable from the
trie operations). -/
def fromPairs (m : List (Fin 256 × PNode V)) : NodeChildren V :=
  if m.length = 0 then .emptyC
  else if m.length ≤ 32 then
    .pairs (m.map Prod.fst) (PList.ofList (m.map Prod.snd))
  else if m.length ≤ 192 then
    .sparse (m.foldl (fun bs kv => bsSet bs kv.1) bsNew) (PList.ofList (m.map Prod.snd))
  else if m.length ≤ 256 then
    .dense (denseOf m)
  else .emptyC

/-! ### Child lookup inside a packed node (packed_node.rs lookup) -/

/-- The per-variant child lookup of PackedNode::lookup.  Pairs scans the
key bytes for the first match; Sparse queries the bitset rank; Dense
indexes directly (always a hit on a well-formed 256-slot table; on a
malformed shorter table the source would read out of bounds, modeled as
none). -/
def lookupC : NodeChildren V → Fin 256 → Option (PNode V)
  | .emptyC, _ => none
  | .pairs keys values, b =>
    match keys.findIdx? (fun k => k == b) with
    | none => none
    | some i => values.get? i
  | .sparse bs values, b =>
    match bsQuery bs b with
    | none => none
    | some rank => values.get? rank
  | .dense table, b => table.get? b.val

/-- PackedNode::lookup. -/
def PNode.lookupN : PNode V → Fin 256 → Option (PNode V)
  | .empty, _ => none
  | .node _ c _, b => lookupC c b

/-- Writing a new child through the slot returned by lookup_mut:
functional rendering of the in-place replacement of the child handle at
branch byte b. -/
def updateChild : NodeChildren V → Fin 256 → PNode V → NodeChildren V
  | .emptyC, _, _ => .emptyC
  | .pairs keys values, b, ch =>
    match keys.findIdx? (fun k => k == b) with
    | none => .pairs keys values
    | some i => .pairs keys (values.set i ch)
  | .sparse bs values, b, ch =>
    match bsQuery bs b with
    | none => .sparse bs values
    | some rank => .sparse bs (values.set rank ch)
  | .dense table, b, ch => .dense (table.set b.val ch)

/-- The parent node with the child slot at b replaced (the effect that a
recursive call through lookup_mut has on the parent's buffer). -/
def replaceChild (t : PNode V) (b : Fin 256) (ch : PNode V) : PNode V :=
  match t with
  | .empty => .empty
  | .node p c v => .node p (updateChild c b ch) v

/-! ## Trie operations (trie.rs get, insert.rs, remove.rs)

The prefix-scanning loop common to get, insert and remove is rendered as
walk: it pairs key bytes against prefix bytes and reports either that
the whole prefix was consumed (with the remaining key), or the loop
outcome at the first divergence, carrying the pieces that
Vec::split_at / split_first would produce there. -/

inductive WalkRes : Type where
  | through (rest : List (Fin 256))
  | keyEnded (par : List (Fin 256)) (branch : Fin 256) (childPfx : List (Fin 256))
  | mismatch (par : List (Fin 256)) (oldBranch : Fin 256) (oldRest : List (Fin 256))
      (keyBranch : Fin 256) (keyRest : List (Fin 256))

def WalkRes.consPar (b : Fin 256) : WalkRes → WalkRes
  | .through r => .through r
  | .keyEnded par br cp => .keyEnded (b :: par) br cp
  | .mismatch par ob orr kb kr => .mismatch (b :: par) ob orr kb kr

def walk : List (Fin 256) → List (Fin 256) → WalkRes
  | [], key => .through key
  | p :: ps, [] => .keyEnded [] p ps
  | p :: ps, k :: ks => if k = p then (walk ps ks).consPar p else .mismatch [] p ps k ks

/-- Trie::get rendered with fuel; each recursive step consumes the
branch byte, so fuel exceeding the key length never runs out. -/
def getF : Nat → PNode V → List (Fin 256) → Option V
  | 0, _, _ => none
  | fuel + 1, t, key =>
    match walk t.pfxOf key with
    | .through [] => t.valueOf
    | .through (b :: rest) =>
      match t.lookupN b with
      | none => none
      | some child => getF fuel child rest
    | .keyEnded _ _ _ => none
    | .mismatch _ _ _ _ _ => none

/-- Trie::get. -/
def trieGet (t : PNode V) (key : List (Fin 256)) : Option V :=
  getF (key.length + 1) t key

/-- PackedNode::split_prefix.  The walk already carries prefix.take i,
the branch byte at i, and the rest of the prefix, i.e. exactly the
pieces split_at / split_first produce. -/
def splitPrefixAt (t : PNode V) (par : List (Fin 256)) (branch : Fin 256)
    (childPfx : List (Fin 256)) (newValue : V) : PNode V :=
  let (_, oldChildren, oldValue) := takeN t
  let newChild := PNode.node childPfx oldChildren oldValue
  PNode.node par (NodeChildren.one branch newChild) (some newValue)

/-- PackedNode::branch_prefix. -/
def branchPrefixAt (t : PNode V) (par : List (Fin 256)) (oldBranch : Fin 256)
    (oldRest : List (Fin 256)) (keyBranch : Fin 256) (keyRest : List (Fin 256))
    (newValue : V) : PNode V :=
  let (_, oldChildren, oldValue) := takeN t
  let firstChild := PNode.node oldRest oldChildren oldValue
  let secondChild := PNode.node keyRest NodeChildren.emptyC (some newValue)
  PNode.node par (NodeChildren.two oldBranch firstChild keyBranch secondChild) none

/-- PackedNode::set_value: returns the previous value and the repacked
node. -/
def setValue (t : PNode V) (newValue : Option V) : Option V × PNode V :=
  let (p, c, oldValue) := takeN t
  (oldValue, PNode.node p c newValue)

/-- PackedNode::add_child: take, insert into the canonical map, rebuild
through from_pairs (this is where the child table can promote). -/
def addChild (t : PNode V) (key : Fin 256) (child : PNode V) : PNode V :=
  let (p, c, v) := takeN t
  PNode.node p (fromPairs (btInsert (intoPairs c) key child)) v

/-- PackedNode::insert (insert.rs) rendered with fuel. -/
def insertF : Nat → PNode V → List (Fin 256) → V → Option V × PNode V
  | 0, t, _, _ => (none, t)
  | fuel + 1, t, key, v =>
    match walk t.pfxOf key with
    | .mismatch par ob orest kb krest => (none, branchPrefixAt t par ob orest kb krest v)
    | .keyEnded par br cp => (none, splitPrefixAt t par br cp v)
    | .through [] => setValue t (some v)
    | .through (b :: rest) =>
      match t.lookupN b with
      | none => (none, addChild t b (PNode.node rest NodeChildren.emptyC (some v)))
      | some child =>
        let rc := insertF fuel child rest v
        (rc.1, replaceChild t b rc.2)

/-- Trie::insert. -/
def trieInsert (t : PNode V) (key : List (Fin 256)) (v : V) : Option V × PNode V :=
  insertF (key.length + 1) t key v

/-- PackedNode::remove (remove.rs) rendered with fuel.  The recursive
call acts on the child slot in place, rendered as replaceChild. -/
def removeF : Nat → PNode V → List (Fin 256) → Option V × PNode V
  | 0, t, _ => (none, t)
  | fuel + 1, t, key =>
    match walk t.pfxOf key with
    | .through [] =>
      match takeN t with
      | (p, c, some v) =>
        match intoPairs c with
        | [] => (some v, PNode.empty)
        | [(cb, pc)] =>
          let (cp, cc, cv) := takeN pc
          (some v, PNode.node (p ++ cb :: cp) cc cv)
        | prs => (some v, PNode.node p (fromPairs prs) none)
      | (_, _, none) => (none, t)
    | .through (b :: rest) =>
      match t.lookupN b with
      | none => (none, t)
      | some child =>
        match removeF fuel child rest with
        | (none, child2) => (none, replaceChild t b child2)
        | (some rv, child2) =>
          if child2.isEmptyN = false then (some rv, replaceChild t b child2)
          else
            match takeN (replaceChild t b child2) with
            | (p, c, vOpt) =>
              match vOpt.isSome, intoPairs c with
              | false, [] => (some rv, PNode.empty)
              | false, [(cb, pc)] =>
                let (cp, cc, cv) := takeN pc
                (some rv, PNode.node (p ++ cb :: cp) cc cv)
              | _, prs => (some rv, PNode.node p (fromPairs prs) vOpt)
    | .keyEnded _ _ _ => (none, t)
    | .mismatch _ _ _ _ _ => (none, t)

/-- Trie::remove. -/
def trieRemove (t : PNode V) (key : List (Fin 256)) : Option V × PNode V :=
  removeF (key.length + 1) t key

/-! ## Structural measures over the node family -/

mutual
/-- Tree depth: bounds the recursion depth of iteration. -/
def depthN : PNode V → Nat
  | .empty => 0
  | .node _ c _ => depthC c + 1
def depthC : NodeChildren V → Nat
  | .emptyC => 0
  | .pairs _ vs => depthL vs
  | .sparse _ vs => depthL vs
  | .dense tb => depthL tb
def depthL : PList V → Nat
  | .nil => 0
  | .cons h t => max (depthN h) (depthL t)
end

/-- The exact number of iterator-loop steps a frame for this node
takes, including all frames pushed beneath it: one Start, one loop
iteration per branch byte (plus the push and the pop around each hit's
subtree), and one final Recurse(None). -/
def iterStepsF : Nat → PNode V → Nat
  | 0, _ => 0
  | fuel + 1, t =>
    2 + ((List.finRange 256).map (fun b =>
      match t.lookupN b with
      | none => 1
      | some ch => iterStepsF fuel ch + 2)).sum

/-! ## Iteration (iter.rs)

The TreeIterator state machine.  The frame stack is a Lean list whose
head is the top of the Vec; the key path is the growable byte buffer. -/

inductive FrameState : Type where
  | start
  | recurse (i : Option (Fin 256))
  | popByte (i : Option (Fin 256))

structure MState (V : Type) : Type where
  key : List (Fin 256)
  stack : List (PNode V × FrameState)

/-- One iteration of the loop inside TreeIterator::next.  none means the
stack is empty and the iterator is exhausted; some (s, e) is the next
machine state together with the emission if this step returned. -/
def stepIter : MState V → Option (MState V × Option (List (Fin 256) × V))
  | ⟨_, []⟩ => none
  | ⟨key, (nd, st) :: rest⟩ =>
    match st with
    | .start =>
      let key2 := key ++ nd.pfxOf
      let stack2 := (nd, FrameState.recurse (some 0)) :: rest
      match nd.valueOf with
      | some v => some (⟨key2, stack2⟩, some (key2, v))
      | none => some (⟨key2, stack2⟩, none)
    | .recurse (some i) =>
      let nextIx : Option (Fin 256) := if h : i.val + 1 < 256 then some ⟨i.val + 1, h⟩ else none
      match nd.lookupN i with
      | some child =>
        some (⟨key ++ [i], (child, .start) :: (nd, .popByte nextIx) :: rest⟩, none)
      | none => some (⟨key, (nd, .recurse nextIx) :: rest⟩, none)
    | .popByte nextIx =>
      some (⟨key.dropLast, (nd, .recurse nextIx) :: rest⟩, none)
    | .recurse none =>
      some (⟨key.take (key.length - nd.pfxOf.length), rest⟩, none)

/-- Driving the iterator with fuel, collecting every emission. -/
def runIter : Nat → MState V → List (List (Fin 256) × V) × MState V
  | 0, s => ([], s)
  | fuel + 1, s =>
    match stepIter s with
    | none => ([], s)
    | some (s', eOpt) =>
      let r := runIter fuel s'
      (eOpt.toList ++ r.1, r.2)

/-- Trie::iter's initial state. -/
def initState (t : PNode V) : MState V := ⟨[], [(t, .start)]⟩

/-- Fuel sufficient to drain the iterator (proved below). -/
def iterFuel (t : PNode V) : Nat := iterStepsF (depthN t + 1) t + 1

/-- The full output of Trie::iter. -/
def trieIter (t : PNode V) : List (List (Fin 256) × V) :=
  (runIter (iterFuel t) (initState t)).1

/-! ## Recursive description of the iterator output

entriesF lists the key/value pairs of the subtree in the order the
machine emits them: the node's own value first, then the children in
ascending branch-byte order. -/

def entriesF : Nat → PNode V → List (List (Fin 256) × V)
  | 0, _ => []
  | _ + 1, .empty => []
  | fuel + 1, .node p c v =>
    (match v with | some w => [(p, w)] | none => []) ++
    (List.finRange 256).flatMap (fun b =>
      match lookupC c b with
      | none => []
      | some ch => (entriesF fuel ch).map (fun kv => (p ++ b :: kv.1, kv.2)))

def entries (t : PNode V) : List (List (Fin 256) × V) := entriesF (depthN t) t

/-! ## Well-formedness of reachable packed nodes -/

/-- No duplicate key bytes. -/
def nodupB : List (Fin 256) → Bool
  | [] => true
  | k :: ks => !ks.contains k && nodupB ks

mutual
/-- Well-formedness of a node: children table well-formed, and I1 (a
value or at least one live child). -/
def wfN : PNode V → Bool
  | .empty => true
  | .node _ c v => wfC c && (v.isSome || !(intoPairs c).isEmpty)
/-- Well-formedness of a children table: lengths agree, Pairs keys are
distinct, Pairs and Sparse hold no empty handles, Dense has 256 slots. -/
def wfC : NodeChildren V → Bool
  | .emptyC => true
  | .pairs keys vs =>
    (keys.length == vs.length) && nodupB keys && allNonEmptyWf vs
  | .sparse bs vs =>
    (bs.length == 4) && bs.all (fun w => decide (w < 2 ^ 64))
      && ((bsIter bs).length == vs.length) && allNonEmptyWf vs
  | .dense tb => (tb.length == 256) && allWf tb
def allNonEmptyWf : PList V → Bool
  | .nil => true
  | .cons h t => !h.isEmptyN && wfN h && allNonEmptyWf t
def allWf : PList V → Bool
  | .nil => true
  | .cons h t => wfN h && allWf t
end

/-! ## PList and List bridging -/

theorem PList.toList_ofList (l : List (PNode V)) : (PList.ofList l).toList = l := by
  induction l with
  | nil => rfl
  | cons h t ih => simp [PList.ofList, PList.toList, ih]

theorem PList.length_toList : ∀ (pl : PList V), pl.toList.length = pl.length
  | .nil => rfl
  | .cons _ t => by simp [PList.toList, PList.length, PList.length_toList t]

theorem PList.get?_eq : ∀ (pl : PList V) (i : Nat), pl.get? i = pl.toList[i]?
  | .nil, i => by simp [PList.get?, PList.toList]
  | .cons h t, 0 => by simp [PList.get?, PList.toList]
  | .cons h t, n + 1 => by simp [PList.get?, PList.toList, PList.get?_eq t n]

theorem PList.set_toList : ∀ (pl : PList V) (i : Nat) (x : PNode V),
    (pl.set i x).toList = pl.toList.set i x
  | .nil, _, _ => by simp [PList.set, PList.toList]
  | .cons h t, 0, x => by simp [PList.set, PList.toList]
  | .cons h t, n + 1, x => by simp [PList.set, PList.toList, PList.set_toList t n x]

theorem allWf_iff : ∀ (pl : PList V), allWf pl = true ↔ ∀ x ∈ pl.toList, wfN x = true
  | .nil => by simp [allWf, PList.toList]
  | .cons h t => by
    simp only [allWf, PList.toList, Bool.and_eq_true, List.mem_cons, allWf_iff t]
    constructor
    · rintro ⟨hh, ht⟩ x hx
      rcases hx with rfl | hx
      · exact hh
      · exact ht x hx
    · intro hall
      exact ⟨hall _ (Or.inl rfl), fun x hx => hall x (Or.inr hx)⟩

theorem allNonEmptyWf_iff : ∀ (pl : PList V),
    allNonEmptyWf pl = true ↔ ∀ x ∈ pl.toList, x.isEmptyN = false ∧ wfN x = true
  | .nil => by simp [allNonEmptyWf, PList.toList]
  | .cons h t => by
    simp only [allNonEmptyWf, PList.toList, Bool.and_eq_true, List.mem_cons,
      Bool.not_eq_true', allNonEmptyWf_iff t]
    constructor
    · rintro ⟨⟨he, hw⟩, ht⟩ x hx
      rcases hx with rfl | hx
      · exact ⟨he, hw⟩
      · exact ht x hx
    · intro hall
      exact ⟨⟨(hall _ (Or.inl rfl)).1, (hall _ (Or.inl rfl)).2⟩,
        fun x hx => hall x (Or.inr hx)⟩

theorem nodupB_iff (l : List (Fin 256)) : nodupB l = true ↔ l.Nodup := by
  induction l with
  | nil => simp [nodupB]
  | cons k ks ih =>
    simp [nodupB, Bool.and_eq_true, ih, List.nodup_cons]

/-! ## Sorted association lists (the canonical BTreeMap) -/

def btSorted {α : Type} (m : List (Fin 256 × α)) : Prop :=
  m.Pairwise (fun a b => a.1 < b.1)

theorem btLookup_btInsert {α : Type} (m : List (Fin 256 × α)) (k : Fin 256) (v : α)
    (k' : Fin 256) :
    btLookup (btInsert m k v) k' = if k' = k then some v else btLookup m k' := by
  induction m with
  | nil =>
    by_cases h : k' = k <;> simp [btInsert, btLookup, h]
  | cons hd t ih =>
    obtain ⟨k0, v0⟩ := hd
    by_cases h1 : k < k0
    · by_cases h : k' = k <;> simp [btInsert, btLookup, h1, h]
    · by_cases h2 : k = k0
      · subst h2
        by_cases h : k' = k <;> simp [btInsert, btLookup, h1, h]
      · by_cases h : k' = k0
        · subst h
          have hne : ¬(k' = k) := fun hc => h2 hc.symm
          simp [btInsert, btLookup, h1, h2, hne]
        · simp [btInsert, btLookup, h1, h2, h, ih]

theorem btInsert_mem {α : Type} : ∀ (m : List (Fin 256 × α)) (k : Fin 256) (v : α)
    (x : Fin 256 × α), x ∈ btInsert m k v → x = (k, v) ∨ x ∈ m
  | [], k, v, x => by simp [btInsert]
  | (k0, v0) :: t, k, v, x => by
    rw [btInsert]
    by_cases h1 : k < k0
    · simp only [if_pos h1, List.mem_cons]
      tauto
    · by_cases h2 : k = k0
      · simp only [if_neg h1, if_pos h2, List.mem_cons]
        tauto
      · simp only [if_neg h1, if_neg h2, List.mem_cons]
        intro hx
        rcases hx with he | hm
        · exact Or.inr (Or.inl he)
        · rcases btInsert_mem t k v x hm with h | h
          · exact Or.inl h
          · exact Or.inr (Or.inr h)

theorem btInsert_sorted {α : Type} : ∀ {m : List (Fin 256 × α)}, btSorted m →
    ∀ (k : Fin 256) (v : α), btSorted (btInsert m k v) := by
  intro m
  induction m with
  | nil => intro _ k v; simp [btInsert, btSorted]
  | cons hd t ih =>
    obtain ⟨k0, v0⟩ := hd
    intro hs k v
    rw [btSorted, List.pairwise_cons] at hs
    obtain ⟨hall, ht⟩ := hs
    rw [btInsert]
    by_cases h1 : k < k0
    · rw [if_pos h1, btSorted, List.pairwise_cons]
      refine ⟨?_, ?_⟩
      · rintro ⟨k1, v1⟩ hmem
        rcases List.mem_cons.mp hmem with he | hm
        · rw [show (k1, v1).1 = k0 from congrArg Prod.fst he]
          exact h1
        · exact lt_trans h1 (hall _ hm)
      · rw [List.pairwise_cons]
        exact ⟨hall, ht⟩
    · by_cases h2 : k = k0
      · rw [if_neg h1, if_pos h2, btSorted, List.pairwise_cons]
        refine ⟨?_, ht⟩
        intro a ha
        rw [show (k, v).1 = k0 from h2]
        exact hall a ha
      · rw [if_neg h1, if_neg h2, btSorted, List.pairwise_cons]
        have hk0k : k0 < k := by
          rcases lt_trichotomy k k0 with h | h | h
          · exact absurd h h1
          · exact absurd h h2
          · exact h
        refine ⟨?_, ih ht k v⟩
        intro x hx
        rcases btInsert_mem t k v x hx with he | hm
        · rw [show x.1 = k from congrArg Prod.fst he]
          exact hk0k
        · exact hall _ hm

/-! ## Sorted lists, find, and the bsIter enumeration -/

/-- Lookup miss below every key of a sorted tail. -/
theorem btLookup_none_of_lt {α : Type} (m : List (Fin 256 × α)) (k : Fin 256)
    (h : ∀ x ∈ m, k < x.1) : btLookup m k = none := by
  induction m with
  | nil => rfl
  | cons hd t ih =>
    obtain ⟨k0, v0⟩ := hd
    rw [btLookup, if_neg (Fin.ne_of_lt (h _ (List.mem_cons_self _ _)))]
    exact ih (fun x hx => h x (List.mem_cons_of_mem _ hx))

theorem btSorted_ext {α : Type} : ∀ {m1 m2 : List (Fin 256 × α)}, btSorted m1 → btSorted m2 →
    (∀ k, btLookup m1 k = btLookup m2 k) → m1 = m2 := by
  intro m1
  induction m1 with
  | nil =>
    intro m2 _ hs2 hext
    cases m2 with
    | nil => rfl
    | cons hd t =>
      obtain ⟨k0, v0⟩ := hd
      have := hext k0
      simp [btLookup] at this
  | cons hd1 t1 ih =>
    intro m2 hs1 hs2 hext
    obtain ⟨k1, v1⟩ := hd1
    cases m2 with
    | nil =>
      have := hext k1
      simp [btLookup] at this
    | cons hd2 t2 =>
      obtain ⟨k2, v2⟩ := hd2
      rw [btSorted, List.pairwise_cons] at hs1 hs2
      obtain ⟨hall1, ht1⟩ := hs1
      obtain ⟨hall2, ht2⟩ := hs2
      have hk : k1 = k2 := by
        by_contra hne
        rcases lt_trichotomy k1 k2 with hlt | heq | hgt
        · have hthis := hext k1
          rw [btLookup, if_pos rfl, btLookup, if_neg (Fin.ne_of_lt hlt)] at hthis
          rw [btLookup_none_of_lt t2 k1
            (fun x hx => lt_trans hlt (hall2 x hx))] at hthis
          exact Option.noConfusion hthis
        · exact hne heq
        · have hthis := hext k2
          rw [btLookup, if_neg (fun hc => hne hc.symm), btLookup, if_pos rfl] at hthis
          rw [btLookup_none_of_lt t1 k2
            (fun x hx => lt_trans hgt (hall1 x hx))] at hthis
          exact Option.noConfusion hthis
      subst hk
      have hv : v1 = v2 := by
        have hthis := hext k1
        rw [btLookup, if_pos rfl, btLookup, if_pos rfl] at hthis
        exact Option.some.inj hthis
      subst hv
      have htail : t1 = t2 := by
        apply ih ht1 ht2
        intro k
        by_cases hk : k = k1
        · subst hk
          rw [btLookup_none_of_lt t1 k (fun x hx => hall1 x hx),
            btLookup_none_of_lt t2 k (fun x hx => hall2 x hx)]
        · have hthis := hext k
          rw [btLookup, if_neg hk, btLookup, if_neg hk] at hthis
          exact hthis
      rw [htail]

theorem sorted_findIdx?_aux (L : List (Fin 256)) (hs : L.Pairwise (· < ·)) (b : Fin 256) :
    ∀ i : Nat, L.findIdx? (fun x => x == b) i =
      if b ∈ L then some (i + L.countP (fun x => decide (x < b))) else none := by
  induction L with
  | nil => intro i; simp
  | cons a t ih =>
    intro i
    rw [List.pairwise_cons] at hs
    obtain ⟨hall, ht⟩ := hs
    rw [List.findIdx?_cons]
    by_cases hab : a = b
    · subst hab
      have hcnt : (a :: t).countP (fun x => decide (x < a)) = 0 := by
        rw [List.countP_eq_zero]
        intro x hx
        rcases List.mem_cons.mp hx with rfl | hm
        · simp
        · simp [Fin.lt_asymm (hall _ hm)]
      simp [hcnt]
    · have hne : (a == b) = false := by simp [hab]
      rw [hne]
      simp only [Bool.false_eq_true, if_false]
      rw [ih ht (i + 1)]
      by_cases hmem : b ∈ t
      · have hcnt : (a :: t).countP (fun x => decide (x < b)) =
            t.countP (fun x => decide (x < b)) + 1 := by
          rw [List.countP_cons]
          simp [hall _ hmem]
        rw [if_pos hmem, if_pos (List.mem_cons_of_mem _ hmem), hcnt]
        congr 1
        omega
      · have hmem2 : ¬ b ∈ (a :: t) := by
          rw [List.mem_cons]
          rintro (rfl | hm)
          · exact hab rfl
          · exact hmem hm
        rw [if_neg hmem, if_neg hmem2]

theorem sorted_findIdx? (L : List (Fin 256)) (hs : L.Pairwise (· < ·)) (b : Fin 256) :
    L.findIdx? (fun x => x == b) =
      if b ∈ L then some (L.countP (fun x => decide (x < b))) else none := by
  have := sorted_findIdx?_aux L hs b 0
  simpa using this

theorem bsIter_mem (bs : List Nat) (b : Fin 256) : b ∈ bsIter bs ↔ bsTest bs b = true := by
  rw [bsIter, List.mem_filter]
  simp [List.mem_finRange]

theorem bsIter_sorted (bs : List Nat) : (bsIter bs).Pairwise (· < ·) :=
  (List.pairwise_lt_finRange 256).filter _

/-- countP over range n of x < c (c within bounds) is c. -/
theorem countP_range_lt (c n : Nat) (h : c ≤ n) :
    (List.range n).countP (fun x => decide (x < c)) = c := by
  induction n with
  | zero =>
    have hc0 : c = 0 := by omega
    subst hc0
    rfl
  | succ m ih =>
    rw [List.range_succ, List.countP_append]
    rcases Nat.lt_or_ge c (m + 1) with hlt | hge
    · rw [ih (by omega)]
      have hnm : ¬ (m < c) := by omega
      simp [hnm]
    · have hc : c = m + 1 := by omega
      subst hc
      have hcg : ∀ a ∈ List.range m, (decide (a < m + 1)) = true := by
        intro a ha
        rw [List.mem_range] at ha
        simp
        omega
      rw [countP_congr_eq hcg, List.countP_true, List.length_range]
      simp

theorem countP_finRange_lt (b : Fin 256) :
    (List.finRange 256).countP (fun x => decide (x < b)) = b.val := by
  have h := countP_range_lt b.val 256 (le_of_lt b.isLt)
  rw [← List.map_coe_finRange 256, List.countP_map] at h
  rw [← h]
  apply countP_congr_eq
  intro x _
  show decide (x < b) = decide (x.val < b.val)
  exact decide_eq_decide.mpr (by rw [Fin.lt_def])

/-- bsQuery through the ascending enumeration: a hit returns the index
of b inside bsIter. -/
theorem bsQuery_eq_findIdx (bs : List Nat) (b : Fin 256) :
    bsQuery bs b = (bsIter bs).findIdx? (fun x => x == b) := by
  rw [bsQuery_spec, sorted_findIdx? _ (bsIter_sorted bs)]
  by_cases hmem : bsTest bs b = true
  · rw [if_pos hmem, if_pos ((bsIter_mem bs b).mpr hmem)]
    refine congrArg some ?_
    rw [bsIter, List.countP_filter]
    apply countP_congr_eq
    intro x _
    rw [Bool.and_comm]
    show (decide (x.val < b.val) && bsTest bs x) = (decide (x < b) && bsTest bs x)
    congr 1
  · rw [if_neg hmem, if_neg (fun hc => hmem ((bsIter_mem bs b).mp hc))]

/-! ## zip and fold lemmas for into_pairs -/

theorem zipKV_eq_zip : ∀ (keys : List (Fin 256)) (vs : PList V),
    zipKV keys vs = keys.zip vs.toList
  | [], _ => by simp [zipKV]
  | k :: ks, .nil => by simp [zipKV, PList.toList]
  | k :: ks, .cons v vt => by
    simp [zipKV, PList.toList, zipKV_eq_zip ks vt]

theorem zip_find?_eq : ∀ (keys : List (Fin 256)) (l : List (PNode V)),
    keys.length = l.length → ∀ (b : Fin 256),
    (keys.zip l).find? (fun kv => kv.1 == b) =
      match keys.findIdx? (fun k => k == b) with
      | some i => (l[i]?).map (fun ch => (b, ch))
      | none => none
  | [], [], _, b => by simp
  | [], _ :: _, h, b => by simp at h
  | _ :: _, [], h, b => by simp at h
  | k :: ks, v :: vs, h, b => by
    by_cases hkb : k = b
    · subst hkb
      rw [List.zip_cons_cons, List.find?_cons_of_pos _ (by simp), List.findIdx?_cons]
      simp
    · rw [List.zip_cons_cons, List.find?_cons_of_neg _ (by simp [hkb]), List.findIdx?_cons]
      have h2 : (k == b) = false := by simp [hkb]
      rw [h2]
      simp only [Bool.false_eq_true, if_false, Nat.zero_add]
      rw [zip_find?_eq ks vs (by simpa using h) b]
      simp only [List.findIdx?_start_succ]
      rcases hfi : ks.findIdx? (fun k => k == b) with _ | i
      · simp only [hfi, Option.map_none']
      · simp only [hfi, Option.map_some']
        simp [List.getElem?_cons_succ]

theorem btLookup_fold (kvs : List (Fin 256 × PNode V)) :
    ∀ (m0 : List (Fin 256 × PNode V)) (b : Fin 256),
    (kvs.map Prod.fst).Nodup →
    btLookup (kvs.foldl (fun m kv => if kv.2.isEmptyN then m else btInsert m kv.1 kv.2) m0) b
      = match kvs.find? (fun kv => kv.1 == b) with
        | some kv => if kv.2.isEmptyN then btLookup m0 b else some kv.2
        | none => btLookup m0 b := by
  induction kvs with
  | nil => intro m0 b _; simp
  | cons hd t ih =>
    intro m0 b hnd
    obtain ⟨k0, v0⟩ := hd
    rw [List.map_cons, List.nodup_cons] at hnd
    obtain ⟨hk0, hndt⟩ := hnd
    rw [List.foldl_cons, List.find?_cons]
    by_cases hkb : k0 = b
    · subst hkb
      have hnone : t.find? (fun kv => kv.1 == k0) = none := by
        rw [List.find?_eq_none]
        intro kv hkv hc
        have hmm := List.mem_map_of_mem Prod.fst hkv
        rw [beq_iff_eq] at hc
        rw [hc] at hmm
        exact hk0 hmm
      rw [ih _ _ hndt, hnone]
      simp only [beq_self_eq_true]
      by_cases hemp : v0.isEmptyN <;> simp [hemp, btLookup_btInsert]
    · have h1 : ((k0, v0).1 == b) = false := by simp [hkb]
      rw [h1]
      simp only [Bool.false_eq_true, if_false]
      rw [ih _ _ hndt]
      have hm0 : btLookup (if v0.isEmptyN then m0 else btInsert m0 k0 v0) b
          = btLookup m0 b := by
        by_cases hemp : v0.isEmptyN
        · rw [if_pos hemp]
        · rw [if_neg hemp, btLookup_btInsert, if_neg (fun hc => hkb hc.symm)]
      rcases hf : t.find? (fun kv => kv.1 == b) with _ | kv
      · simp only [hf]
        exact hm0
      · simp only [hf]
        by_cases hkv : kv.2.isEmptyN <;> simp [hkv, hm0]

theorem fold_sorted (kvs : List (Fin 256 × PNode V)) :
    ∀ (m0 : List (Fin 256 × PNode V)), btSorted m0 →
    btSorted (kvs.foldl (fun m kv => if kv.2.isEmptyN then m else btInsert m kv.1 kv.2) m0) := by
  induction kvs with
  | nil => intro m0 h; exact h
  | cons hd t ih =>
    intro m0 h
    rw [List.foldl_cons]
    apply ih
    by_cases hemp : hd.2.isEmptyN
    · rw [if_pos hemp]; exact h
    · rw [if_neg hemp]; exact btInsert_sorted h _ _

theorem intoPairs_sorted (c : NodeChildren V) : btSorted (intoPairs c) := by
  cases c with
  | emptyC => simp [intoPairs, btSorted]
  | pairs keys vs => exact fold_sorted _ _ (by simp [btSorted])
  | sparse bs vs => exact fold_sorted _ _ (by simp [btSorted])
  | dense tb => exact fold_sorted _ _ (by simp [btSorted])

/-! ## Lookup coherence between the packed variants and the canonical map -/

/-- The shape part of children well-formedness: lengths agree and Pairs
keys are distinct (no condition on the stored children themselves). -/
def wfShape : NodeChildren V → Bool
  | .emptyC => true
  | .pairs keys vs => (keys.length == vs.length) && nodupB keys
  | .sparse bs vs =>
    (bs.length == 4) && bs.all (fun w => decide (w < 2 ^ 64))
      && ((bsIter bs).length == vs.length)
  | .dense tb => tb.length == 256

theorem wfC_imp_shape (c : NodeChildren V) (h : wfC c = true) : wfShape c = true := by
  cases c with
  | emptyC => rfl
  | pairs keys vs =>
    rw [wfC] at h
    rw [wfShape]
    simp only [Bool.and_eq_true] at h ⊢
    exact ⟨h.1.1, h.1.2⟩
  | sparse bs vs =>
    rw [wfC] at h
    rw [wfShape]
    simp only [Bool.and_eq_true] at h ⊢
    exact ⟨⟨h.1.1.1, h.1.1.2⟩, h.1.2⟩
  | dense tb =>
    rw [wfC] at h
    rw [wfShape]
    simp only [Bool.and_eq_true] at h
    exact h.1

theorem findIdx?_finRange (b : Fin 256) :
    (List.finRange 256).findIdx? (fun x => x == b) = some b.val := by
  rw [sorted_findIdx? _ (List.pairwise_lt_finRange 256), if_pos (List.mem_finRange b),
    countP_finRange_lt]

theorem lookup_zip_fold (keys : List (Fin 256)) (vs : PList V) (hnd : keys.Nodup)
    (hlen : keys.length = vs.length) (b : Fin 256) :
    btLookup ((zipKV keys vs).foldl
        (fun m kv => if kv.2.isEmptyN then m else btInsert m kv.1 kv.2) []) b
      = (match keys.findIdx? (fun k => k == b) with
         | none => none
         | some i => vs.get? i).bind
          (fun ch => if ch.isEmptyN then none else some ch) := by
  have hlen' : keys.length = vs.toList.length := by rw [PList.length_toList]; exact hlen
  have hnd' : (((keys.zip vs.toList)).map Prod.fst).Nodup := by
    rw [List.map_fst_zip _ _ (le_of_eq hlen')]
    exact hnd
  rw [zipKV_eq_zip, btLookup_fold _ [] b hnd', zip_find?_eq keys vs.toList hlen' b]
  rcases hfi : keys.findIdx? (fun k => k == b) with _ | i
  · simp [btLookup]
  · have hi : i < keys.length := (List.findIdx?_eq_some_iff_findIdx_eq.mp hfi).1
    have hi' : i < vs.toList.length := by omega
    obtain ⟨ch, hch⟩ : ∃ ch, vs.toList[i]? = some ch :=
      ⟨vs.toList[i], List.getElem?_eq_getElem hi'⟩
    simp only [hch, Option.map_some', PList.get?_eq]
    by_cases hemp : ch.isEmptyN <;> simp [hemp, btLookup]

/-- into_pairs agrees pointwise with the packed lookup: the canonical
map holds exactly the non-empty children that lookup reaches. -/
theorem intoPairs_lookup (c : NodeChildren V) (h : wfShape c = true) (b : Fin 256) :
    btLookup (intoPairs c) b
      = (lookupC c b).bind (fun ch => if ch.isEmptyN then none else some ch) := by
  cases c with
  | emptyC => rfl
  | pairs keys vs =>
    rw [wfShape, Bool.and_eq_true] at h
    have hlen : keys.length = vs.length := by
      have := h.1; simpa using this
    have hnd : keys.Nodup := (nodupB_iff keys).mp h.2
    rw [intoPairs, lookup_zip_fold keys vs hnd hlen b, lookupC]
  | sparse bs vs =>
    rw [wfShape, Bool.and_eq_true, Bool.and_eq_true] at h
    have hlen : (bsIter bs).length = vs.length := by
      have := h.2; simpa using this
    have hnd : (bsIter bs).Nodup :=
      (bsIter_sorted bs).imp (fun hlt => Fin.ne_of_lt hlt)
    rw [intoPairs, lookup_zip_fold _ vs hnd hlen b, lookupC, bsQuery_eq_findIdx]
  | dense tb =>
    rw [wfShape] at h
    have hlen : (List.finRange 256).length = tb.length := by
      rw [List.length_finRange]
      have h256 : tb.length = 256 := by simpa using h
      omega
    have hnd : (List.finRange 256).Nodup := List.nodup_finRange 256
    rw [intoPairs, lookup_zip_fold _ tb hnd hlen b, lookupC, findIdx?_finRange]

/-! ## Updating a child slot -/

theorem PList.length_set : ∀ (pl : PList V) (i : Nat) (x : PNode V),
    (pl.set i x).length = pl.length
  | .nil, _, _ => rfl
  | .cons h t, 0, x => rfl
  | .cons h t, n + 1, x => by
    simp [PList.set, PList.length, PList.length_set t n x]

theorem findIdx?_beq_getElem : ∀ (L : List (Fin 256)) (b : Fin 256) (r : Nat),
    L.findIdx? (fun x => x == b) = some r → L[r]? = some b
  | [], b, r, h => by simp at h
  | a :: t, b, r, h => by
    rw [List.findIdx?_cons] at h
    by_cases hab : a = b
    · subst hab
      simp at h
      subst h
      simp
    · have h2 : (a == b) = false := by simp [hab]
      rw [h2] at h
      simp only [Bool.false_eq_true, if_false, Nat.zero_add, List.findIdx?_start_succ] at h
      rcases hfi : t.findIdx? (fun x => x == b) with _ | k
      · rw [hfi] at h
        simp at h
      · rw [hfi] at h
        simp at h
        subst h
        rw [List.getElem?_cons_succ]
        exact findIdx?_beq_getElem t b k hfi

theorem lookupC_updateChild (c : NodeChildren V) (h : wfShape c = true) (b : Fin 256)
    (ch0 : PNode V) (hhit : lookupC c b = some ch0) (ch : PNode V) (b' : Fin 256) :
    lookupC (updateChild c b ch) b' = if b' = b then some ch else lookupC c b' := by
  cases c with
  | emptyC => rw [lookupC] at hhit; exact Option.noConfusion hhit
  | pairs keys vs =>
    rw [wfShape, Bool.and_eq_true] at h
    have hlen : keys.length = vs.length := by have := h.1; simpa using this
    rw [lookupC] at hhit
    rcases hfi : keys.findIdx? (fun k => k == b) with _ | i
    · rw [hfi] at hhit; exact Option.noConfusion hhit
    · rw [hfi] at hhit
      have hi : i < keys.length := (List.findIdx?_eq_some_iff_findIdx_eq.mp hfi).1
      have hib : keys[i]? = some b := findIdx?_beq_getElem keys b i hfi
      have hupd : updateChild (NodeChildren.pairs keys vs) b ch
          = NodeChildren.pairs keys (vs.set i ch) := by
        rw [updateChild, hfi]
      rw [hupd]
      by_cases hbb : b' = b
      · subst hbb
        rw [if_pos rfl, lookupC, hfi]
        show (vs.set i ch).get? i = some ch
        rw [PList.get?_eq, PList.set_toList,
          List.getElem?_set_self (by rw [PList.length_toList]; omega)]
      · rw [if_neg hbb, lookupC, lookupC]
        rcases hfi' : keys.findIdx? (fun k => k == b') with _ | j
        · rfl
        · have hjb : keys[j]? = some b' := findIdx?_beq_getElem keys b' j hfi'
          have hij : i ≠ j := by
            intro hc
            subst hc
            rw [hib] at hjb
            exact hbb (Option.some.inj hjb).symm
          show (vs.set i ch).get? j = vs.get? j
          rw [PList.get?_eq, PList.get?_eq, PList.set_toList,
            List.getElem?_set_ne hij]
  | sparse bs vs =>
    rw [lookupC] at hhit
    rcases hq : bsQuery bs b with _ | r
    · rw [hq] at hhit; exact Option.noConfusion hhit
    · rw [hq] at hhit
      have hfi : (bsIter bs).findIdx? (fun x => x == b) = some r := by
        rw [← bsQuery_eq_findIdx]; exact hq
      have hrb : (bsIter bs)[r]? = some b := findIdx?_beq_getElem _ b r hfi
      have hr : r < (bsIter bs).length := (List.findIdx?_eq_some_iff_findIdx_eq.mp hfi).1
      rw [wfShape, Bool.and_eq_true, Bool.and_eq_true] at h
      have hlen : (bsIter bs).length = vs.length := by have := h.2; simpa using this
      have hupd : updateChild (NodeChildren.sparse bs vs) b ch
          = NodeChildren.sparse bs (vs.set r ch) := by
        rw [updateChild, hq]
      rw [hupd]
      by_cases hbb : b' = b
      · subst hbb
        rw [if_pos rfl, lookupC, hq]
        show (vs.set r ch).get? r = some ch
        rw [PList.get?_eq, PList.set_toList,
          List.getElem?_set_self (by rw [PList.length_toList]; omega)]
      · rw [if_neg hbb, lookupC, lookupC]
        rcases hq' : bsQuery bs b' with _ | r'
        · rfl
        · have hfi' : (bsIter bs).findIdx? (fun x => x == b') = some r' := by
            rw [← bsQuery_eq_findIdx]; exact hq'
          have hrb' : (bsIter bs)[r']? = some b' := findIdx?_beq_getElem _ b' r' hfi'
          have hrr : r ≠ r' := by
            intro hc
            subst hc
            rw [hrb] at hrb'
            exact hbb (Option.some.inj hrb').symm
          show (vs.set r ch).get? r' = vs.get? r'
          rw [PList.get?_eq, PList.get?_eq, PList.set_toList,
            List.getElem?_set_ne hrr]
  | dense tb =>
    rw [wfShape] at h
    have hlen : tb.length = 256 := by simpa using h
    show lookupC (NodeChildren.dense (tb.set b.val ch)) b' = _
    by_cases hbb : b' = b
    · subst hbb
      rw [if_pos rfl, lookupC, PList.get?_eq, PList.set_toList,
        List.getElem?_set_self
          (by rw [PList.length_toList]; omega)]
    · have hne : b.val ≠ b'.val := fun hc => hbb (Fin.ext hc.symm)
      rw [if_neg hbb, lookupC, lookupC, PList.get?_eq, PList.get?_eq, PList.set_toList,
        List.getElem?_set_ne hne]

theorem wfShape_updateChild (c : NodeChildren V) (b : Fin 256) (ch : PNode V) :
    wfShape (updateChild c b ch) = wfShape c := by
  cases c with
  | emptyC => rfl
  | pairs keys vs =>
    rw [updateChild]
    rcases keys.findIdx? (fun k => k == b) with _ | i
    · rfl
    · rw [wfShape, wfShape, PList.length_set]
  | sparse bs vs =>
    rw [updateChild]
    rcases bsQuery bs b with _ | r
    · rfl
    · rw [wfShape, wfShape, PList.length_set]
  | dense tb =>
    rw [updateChild, wfShape, wfShape, PList.length_set]

theorem mem_toList_set : ∀ (pl : PList V) (i : Nat) (x y : PNode V),
    y ∈ (pl.set i x).toList → y = x ∨ y ∈ pl.toList := by
  intro pl i x y hy
  rw [PList.set_toList] at hy
  rcases List.mem_or_eq_of_mem_set hy with h | h
  · exact Or.inr h
  · exact Or.inl h

theorem allNonEmptyWf_set (vs : PList V) (i : Nat) (ch : PNode V)
    (hvs : allNonEmptyWf vs = true) (hne : ch.isEmptyN = false) (hwf : wfN ch = true) :
    allNonEmptyWf (vs.set i ch) = true := by
  rw [allNonEmptyWf_iff]
  intro x hx
  rcases mem_toList_set vs i ch x hx with rfl | hm
  · exact ⟨hne, hwf⟩
  · exact ((allNonEmptyWf_iff vs).mp hvs) x hm

theorem allWf_set (vs : PList V) (i : Nat) (ch : PNode V)
    (hvs : allWf vs = true) (hwf : wfN ch = true) :
    allWf (vs.set i ch) = true := by
  rw [allWf_iff]
  intro x hx
  rcases mem_toList_set vs i ch x hx with rfl | hm
  · exact hwf
  · exact ((allWf_iff vs).mp hvs) x hm

theorem wfC_updateChild (c : NodeChildren V) (h : wfC c = true) (b : Fin 256)
    (ch : PNode V) (hne : ch.isEmptyN = false) (hwf : wfN ch = true) :
    wfC (updateChild c b ch) = true := by
  cases c with
  | emptyC => rfl
  | pairs keys vs =>
    rw [wfC, Bool.and_eq_true, Bool.and_eq_true] at h
    rw [updateChild]
    rcases keys.findIdx? (fun k => k == b) with _ | i
    · rw [wfC, Bool.and_eq_true, Bool.and_eq_true]
      exact h
    · rw [wfC, Bool.and_eq_true, Bool.and_eq_true]
      refine ⟨⟨?_, h.1.2⟩, allNonEmptyWf_set vs i ch h.2 hne hwf⟩
      have := h.1.1
      simp only [beq_iff_eq] at this ⊢
      rw [PList.length_set]
      exact this
  | sparse bs vs =>
    rw [wfC, Bool.and_eq_true, Bool.and_eq_true] at h
    rw [updateChild]
    rcases bsQuery bs b with _ | r
    · rw [wfC, Bool.and_eq_true, Bool.and_eq_true]
      exact h
    · rw [wfC, Bool.and_eq_true, Bool.and_eq_true]
      refine ⟨⟨h.1.1, ?_⟩, allNonEmptyWf_set vs r ch h.2 hne hwf⟩
      have := h.1.2
      simp only [beq_iff_eq] at this ⊢
      rw [PList.length_set]
      exact this
  | dense tb =>
    rw [wfC, Bool.and_eq_true] at h
    rw [updateChild, wfC, Bool.and_eq_true]
    refine ⟨?_, allWf_set tb b.val ch h.2 hwf⟩
    have := h.1
    simp only [beq_iff_eq] at this ⊢
    rw [PList.length_set]
    exact this

/-- A child reached by lookup in a well-formed table is well-formed. -/
theorem lookupC_wf (c : NodeChildren V) (h : wfC c = true) (b : Fin 256)
    (ch : PNode V) (hl : lookupC c b = some ch) : wfN ch = true := by
  cases c with
  | emptyC => rw [lookupC] at hl; exact Option.noConfusion hl
  | pairs keys vs =>
    rw [wfC, Bool.and_eq_true, Bool.and_eq_true] at h
    rw [lookupC] at hl
    rcases hfi : keys.findIdx? (fun k => k == b) with _ | i
    · rw [hfi] at hl; exact Option.noConfusion hl
    · rw [hfi] at hl
      have hl2 : vs.get? i = some ch := hl
      rw [PList.get?_eq] at hl2
      have hm : ch ∈ vs.toList := by
        obtain ⟨hlt, he⟩ := List.getElem?_eq_some_iff.mp hl2
        rw [← he]
        exact List.getElem_mem hlt
      exact (((allNonEmptyWf_iff vs).mp h.2) ch hm).2
  | sparse bs vs =>
    rw [wfC, Bool.and_eq_true, Bool.and_eq_true] at h
    rw [lookupC] at hl
    rcases hq : bsQuery bs b with _ | r
    · rw [hq] at hl; exact Option.noConfusion hl
    · rw [hq] at hl
      have hl2 : vs.get? r = some ch := hl
      rw [PList.get?_eq] at hl2
      have hm : ch ∈ vs.toList := by
        obtain ⟨hlt, he⟩ := List.getElem?_eq_some_iff.mp hl2
        rw [← he]
        exact List.getElem_mem hlt
      exact (((allNonEmptyWf_iff vs).mp h.2) ch hm).2
  | dense tb =>
    rw [wfC, Bool.and_eq_true] at h
    rw [lookupC] at hl
    have hl2 : tb.get? b.val = some ch := hl
    rw [PList.get?_eq] at hl2
    have hm : ch ∈ tb.toList := by
      obtain ⟨hlt, he⟩ := List.getElem?_eq_some_iff.mp hl2
      rw [← he]
      exact List.getElem_mem hlt
    exact ((allWf_iff tb).mp h.2) ch hm

/-! ## from_pairs: variant choice and the round trip with into_pairs -/

/-- NodeChildrenType of header.rs. -/
inductive NodeChildrenType : Type where
  | Empty
  | Pairs
  | Sparse
  | Dense
deriving DecidableEq

/-- NodeChildrenType::from_count; the source panics outside 0..=256,
modeled as none. -/
def fromCount (n : Nat) : Option NodeChildrenType :=
  if n = 0 then some .Empty
  else if n ≤ 32 then some .Pairs
  else if n ≤ 192 then some .Sparse
  else if n ≤ 256 then some .Dense
  else none

/-- NodeChildren::structure_type. -/
def structureTypeOf : NodeChildren V → NodeChildrenType
  | .emptyC => .Empty
  | .pairs _ _ => .Pairs
  | .sparse _ _ => .Sparse
  | .dense _ => .Dense

theorem btInsert_append {α : Type} : ∀ (m : List (Fin 256 × α)) (k : Fin 256) (v : α),
    (∀ x ∈ m, x.1 < k) → btInsert m k v = m ++ [(k, v)]
  | [], k, v, _ => rfl
  | (k0, v0) :: t, k, v, h => by
    have hk0 : k0 < k := h _ (List.mem_cons_self _ _)
    rw [btInsert, if_neg (by intro hc; exact absurd hk0 (Fin.lt_asymm hc)),
      if_neg (by intro hc; subst hc; exact lt_irrefl _ hk0)]
    rw [btInsert_append t k v (fun x hx => h x (List.mem_cons_of_mem _ hx))]
    rfl

theorem fold_insert_sorted : ∀ (m m0 : List (Fin 256 × PNode V)),
    btSorted (m0 ++ m) → (∀ kv ∈ m, kv.2.isEmptyN = false) →
    m.foldl (fun acc kv => if kv.2.isEmptyN then acc else btInsert acc kv.1 kv.2) m0
      = m0 ++ m
  | [], m0, _, _ => by simp
  | (k, v) :: t, m0, hs, hne => by
    rw [List.foldl_cons, if_neg (by
      rw [hne (k, v) (List.mem_cons_self _ _)]
      exact Bool.false_ne_true)]
    have hlt : ∀ x ∈ m0, x.1 < k := by
      intro x hx
      rw [btSorted] at hs
      exact (List.pairwise_append.mp hs).2.2 x hx (k, v)
        (List.mem_cons_self (k, v) t)
    rw [btInsert_append m0 k v hlt]
    have hs2 : btSorted ((m0 ++ [(k, v)]) ++ t) := by
      rw [List.append_assoc]
      exact (by simpa using hs)
    rw [fold_insert_sorted t (m0 ++ [(k, v)]) hs2
      (fun kv hkv => hne kv (List.mem_cons_of_mem _ hkv))]
    simp

/-- Two strictly ascending byte lists with the same members are equal. -/
theorem sorted_eq_of_mem_iff : ∀ (L1 L2 : List (Fin 256)),
    L1.Pairwise (· < ·) → L2.Pairwise (· < ·) → (∀ x, x ∈ L1 ↔ x ∈ L2) → L1 = L2
  | [], [], _, _, _ => rfl
  | [], b :: t, _, _, hmem => by
    have := (hmem b).mpr (List.mem_cons_self _ _)
    simp at this
  | a :: s, [], _, _, hmem => by
    have := (hmem a).mp (List.mem_cons_self _ _)
    simp at this
  | a :: s, b :: t, h1, h2, hmem => by
    rw [List.pairwise_cons] at h1 h2
    have hab : a = b := by
      by_contra hne
      rcases lt_trichotomy a b with hlt | heq | hgt
      · have ha2 := (hmem a).mp (List.mem_cons_self _ _)
        rcases List.mem_cons.mp ha2 with he | hm
        · exact hne he
        · exact absurd hlt (Fin.lt_asymm (h2.1 a hm))
      · exact hne heq
      · have hb1 := (hmem b).mpr (List.mem_cons_self _ _)
        rcases List.mem_cons.mp hb1 with he | hm
        · exact hne he.symm
        · exact absurd hgt (Fin.lt_asymm (h1.1 b hm))
    subst hab
    have htail : s = t := by
      apply sorted_eq_of_mem_iff s t h1.2 h2.2
      intro x
      constructor
      · intro hx
        have := (hmem x).mp (List.mem_cons_of_mem _ hx)
        rcases List.mem_cons.mp this with he | hm
        · subst he
          exact absurd (h1.1 x hx) (lt_irrefl _)
        · exact hm
      · intro hx
        have := (hmem x).mpr (List.mem_cons_of_mem _ hx)
        rcases List.mem_cons.mp this with he | hm
        · subst he
          exact absurd (h2.1 x hx) (lt_irrefl _)
        · exact hm
    rw [htail]

/-- bsIter of a bitset built from an ascending byte list recovers it. -/
theorem bsIter_build_sorted (keys : List (Fin 256)) (hs : keys.Pairwise (· < ·)) :
    bsIter (bsBuild keys) = keys := by
  apply sorted_eq_of_mem_iff _ _ (bsIter_sorted _) hs
  intro x
  rw [bsIter_mem, bsTest_build]
  simp

theorem denseOf_length (m : List (Fin 256 × PNode V)) : (denseOf m).length = 256 := by
  rw [denseOf]
  have h0 : (PList.ofList (List.replicate 256 (PNode.empty : PNode V))).length = 256 := by
    rw [← PList.length_toList, PList.toList_ofList, List.length_replicate]
  suffices hgen : ∀ (t0 : PList V),
      (m.foldl (fun t kv => t.set kv.1.val kv.2) t0).length = t0.length by
    rw [hgen, h0]
  induction m with
  | nil => intro t0; rfl
  | cons hd tl ih =>
    intro t0
    rw [List.foldl_cons, ih, PList.length_set]

theorem btLookup_some_mem {α : Type} : ∀ (m : List (Fin 256 × α)) (k : Fin 256) (v : α),
    btLookup m k = some v → k ∈ m.map Prod.fst
  | [], k, v, h => by rw [btLookup] at h; exact Option.noConfusion h
  | (k0, v0) :: t, k, v, h => by
    rw [btLookup] at h
    rw [List.map_cons]
    by_cases hk : k = k0
    · subst hk
      exact List.mem_cons_self _ _
    · rw [if_neg hk] at h
      exact List.mem_cons_of_mem _ (btLookup_some_mem t k v h)

theorem denseFold_get? : ∀ (m : List (Fin 256 × PNode V)) (t0 : PList V),
    (m.map Prod.fst).Nodup → t0.length = 256 → ∀ (j : Fin 256),
    (m.foldl (fun t kv => t.set kv.1.val kv.2) t0).get? j.val
      = match btLookup m j with
        | some ch => some ch
        | none => t0.get? j.val
  | [], t0, _, _, j => by rw [List.foldl_nil]; rfl
  | (k, v) :: tl, t0, hnd, hlen, j => by
    rw [List.map_cons, List.nodup_cons] at hnd
    rw [List.foldl_cons]
    have hlen' : (t0.set k.val v).length = 256 := by rw [PList.length_set]; exact hlen
    rw [denseFold_get? tl (t0.set k.val v) hnd.2 hlen' j]
    by_cases hjk : j = k
    · subst hjk
      have hnone : btLookup tl j = none := by
        rcases hl : btLookup tl j with _ | ch
        · rfl
        · exact absurd (btLookup_some_mem tl j ch hl) hnd.1
      rw [hnone, btLookup, if_pos rfl]
      show (t0.set j.val v).get? j.val = some v
      rw [PList.get?_eq, PList.set_toList,
        List.getElem?_set_self (by rw [PList.length_toList]; omega)]
    · rw [btLookup, if_neg hjk]
      rcases btLookup tl j with _ | ch
      · show (t0.set k.val v).get? j.val = t0.get? j.val
        rw [PList.get?_eq, PList.get?_eq, PList.set_toList,
          List.getElem?_set_ne (fun hc => hjk (Fin.ext hc.symm))]
      · rfl

theorem denseOf_get? (m : List (Fin 256 × PNode V)) (hnd : (m.map Prod.fst).Nodup)
    (j : Fin 256) :
    (denseOf m).get? j.val = some (match btLookup m j with
      | some ch => ch
      | none => PNode.empty) := by
  rw [denseOf]
  have hlen0 : (PList.ofList (List.replicate 256 (PNode.empty : PNode V))).length = 256 := by
    rw [← PList.length_toList, PList.toList_ofList, List.length_replicate]
  have hbase : (PList.ofList (List.replicate 256 (PNode.empty : PNode V))).get? j.val
      = some PNode.empty := by
    rw [PList.get?_eq, PList.toList_ofList, List.getElem?_replicate]
    simp [j.isLt]
  rw [denseFold_get? m _ hnd hlen0 j]
  rcases btLookup m j with _ | ch
  · rw [hbase]
  · rfl

theorem zip_fst_snd {α β : Type} : ∀ (m : List (α × β)),
    (m.map Prod.fst).zip (m.map Prod.snd) = m
  | [] => rfl
  | (a, b) :: t => by
    rw [List.map_cons, List.map_cons, List.zip_cons_cons, zip_fst_snd t]

theorem btSorted_keys_pairwise {α : Type} (m : List (Fin 256 × α)) (hs : btSorted m) :
    (m.map Prod.fst).Pairwise (· < ·) := by
  rw [List.pairwise_map]
  exact hs

theorem btSorted_keys_nodup {α : Type} (m : List (Fin 256 × α)) (hs : btSorted m) :
    (m.map Prod.fst).Nodup :=
  (btSorted_keys_pairwise m hs).imp (fun hlt => Fin.ne_of_lt hlt)

theorem btSorted_length_le {α : Type} (m : List (Fin 256 × α)) (hs : btSorted m) :
    m.length ≤ 256 := by
  have h1 : (m.map Prod.fst).Nodup := btSorted_keys_nodup m hs
  have h2 := List.Nodup.length_le_card h1
  rw [List.length_map, Fintype.card_fin] at h2
  exact h2

theorem foldInsert_mem : ∀ (kvs m0 : List (Fin 256 × PNode V)) (x : Fin 256 × PNode V),
    x ∈ kvs.foldl (fun m kv => if kv.2.isEmptyN then m else btInsert m kv.1 kv.2) m0 →
    x ∈ m0 ∨ ((x.1, x.2) ∈ kvs ∧ x.2.isEmptyN = false)
  | [], m0, x, h => Or.inl h
  | (k, v) :: t, m0, x, h => by
    rw [List.foldl_cons] at h
    by_cases hemp : v.isEmptyN
    · rw [if_pos (by simpa using hemp)] at h
      rcases foldInsert_mem t m0 x h with h1 | h1
      · exact Or.inl h1
      · exact Or.inr ⟨List.mem_cons_of_mem _ h1.1, h1.2⟩
    · rw [if_neg (by simpa using hemp)] at h
      rcases foldInsert_mem t (btInsert m0 k v) x h with h1 | h1
      · rcases btInsert_mem m0 k v x h1 with h2 | h2
        · subst h2
          exact Or.inr ⟨List.mem_cons_self _ _, by simpa using hemp⟩
        · exact Or.inl h2
      · exact Or.inr ⟨List.mem_cons_of_mem _ h1.1, h1.2⟩

/-- Members of into_pairs are non-empty stored children; under wfC they
are well-formed. -/
theorem intoPairs_mem (c : NodeChildren V) (kv : Fin 256 × PNode V)
    (h : kv ∈ intoPairs c) :
    kv.2.isEmptyN = false ∧ (wfC c = true → wfN kv.2 = true) := by
  cases c with
  | emptyC => rw [intoPairs] at h; exact absurd h (List.not_mem_nil kv)
  | pairs keys vs =>
    rw [intoPairs] at h
    rcases foldInsert_mem _ [] kv h with h1 | h1
    · exact absurd h1 (List.not_mem_nil kv)
    · have hsnd : kv.2 ∈ vs.toList := by
        have := h1.1
        rw [zipKV_eq_zip] at this
        exact (List.of_mem_zip this).2
      refine ⟨h1.2, ?_⟩
      intro hwf
      rw [wfC, Bool.and_eq_true, Bool.and_eq_true] at hwf
      exact (((allNonEmptyWf_iff vs).mp hwf.2) _ hsnd).2
  | sparse bs vs =>
    rw [intoPairs] at h
    rcases foldInsert_mem _ [] kv h with h1 | h1
    · exact absurd h1 (List.not_mem_nil kv)
    · have hsnd : kv.2 ∈ vs.toList := by
        have := h1.1
        rw [zipKV_eq_zip] at this
        exact (List.of_mem_zip this).2
      refine ⟨h1.2, ?_⟩
      intro hwf
      rw [wfC, Bool.and_eq_true, Bool.and_eq_true] at hwf
      exact (((allNonEmptyWf_iff vs).mp hwf.2) _ hsnd).2
  | dense tb =>
    rw [intoPairs] at h
    rcases foldInsert_mem _ [] kv h with h1 | h1
    · exact absurd h1 (List.not_mem_nil kv)
    · have hsnd : kv.2 ∈ tb.toList := by
        have := h1.1
        rw [zipKV_eq_zip] at this
        exact (List.of_mem_zip this).2
      refine ⟨h1.2, ?_⟩
      intro hwf
      rw [wfC, Bool.and_eq_true] at hwf
      exact ((allWf_iff tb).mp hwf.2) _ hsnd

theorem foldSet_mem : ∀ (m : List (Fin 256 × PNode V)) (t0 : PList V) (x : PNode V),
    x ∈ (m.foldl (fun t kv => t.set kv.1.val kv.2) t0).toList →
    x ∈ t0.toList ∨ ∃ kv ∈ m, x = kv.2
  | [], t0, x, h => Or.inl h
  | (k, v) :: t, t0, x, h => by
    rw [List.foldl_cons] at h
    rcases foldSet_mem t (t0.set k.val v) x h with h1 | h1
    · rcases mem_toList_set t0 k.val v x h1 with h2 | h2
      · exact Or.inr ⟨(k, v), List.mem_cons_self _ _, h2⟩
      · exact Or.inl h2
    · obtain ⟨kv, hkv, he⟩ := h1
      exact Or.inr ⟨kv, List.mem_cons_of_mem _ hkv, he⟩

/-- The effective variant buckets of from_pairs: 0, 1..=32, 33..=192,
193..=256 (the overlapping 192 arm resolves to Sparse), matching
NodeChildrenType::from_count. -/
theorem structureTypeOf_fromPairs (m : List (Fin 256 × PNode V)) (hle : m.length ≤ 256) :
    some (structureTypeOf (fromPairs m)) = fromCount m.length := by
  rw [fromPairs, fromCount]
  by_cases h0 : m.length = 0
  · rw [if_pos h0, if_pos h0]
    rfl
  · rw [if_neg h0, if_neg h0]
    by_cases h32 : m.length ≤ 32
    · rw [if_pos h32, if_pos h32]
      rfl
    · rw [if_neg h32, if_neg h32]
      by_cases h192 : m.length ≤ 192
      · rw [if_pos h192, if_pos h192]
        rfl
      · rw [if_neg h192, if_neg h192, if_pos hle, if_pos hle]
        rfl

/-- into_pairs recovers the map from_pairs was built from. -/
theorem intoPairs_fromPairs (m : List (Fin 256 × PNode V)) (hs : btSorted m)
    (hne : ∀ kv ∈ m, kv.2.isEmptyN = false) :
    intoPairs (fromPairs m) = m := by
  have hle : m.length ≤ 256 := btSorted_length_le m hs
  have hpairs : zipKV (m.map Prod.fst) (PList.ofList (m.map Prod.snd)) = m := by
    rw [zipKV_eq_zip, PList.toList_ofList, zip_fst_snd]
  rw [fromPairs]
  by_cases h0 : m.length = 0
  · rw [if_pos h0]
    have : m = [] := List.length_eq_zero.mp h0
    subst this
    rfl
  · rw [if_neg h0]
    by_cases h32 : m.length ≤ 32
    · rw [if_pos h32, intoPairs, hpairs]
      have := fold_insert_sorted m [] (by simpa using hs) hne
      simpa using this
    · rw [if_neg h32]
      by_cases h192 : m.length ≤ 192
      · rw [if_pos h192, intoPairs]
        have hfold : m.foldl (fun bs kv => bsSet bs kv.1) bsNew = bsBuild (m.map Prod.fst) := by
          rw [bsBuild, List.foldl_map]
        rw [hfold, bsIter_build_sorted _ (btSorted_keys_pairwise m hs), hpairs]
        have := fold_insert_sorted m [] (by simpa using hs) hne
        simpa using this
      · rw [if_neg h192, if_pos hle]
        -- Dense: compare pointwise through the canonical lookup
        apply btSorted_ext (intoPairs_sorted _) hs
        intro b
        have hshape : wfShape (NodeChildren.dense (denseOf m)) = true := by
          rw [wfShape]
          simp [denseOf_length]
        rw [intoPairs_lookup _ hshape b]
        have hget := denseOf_get? m (btSorted_keys_nodup m hs) b
        rw [lookupC, hget]
        rcases hl : btLookup m b with _ | ch
        · rfl
        · have hmem : (b, ch) ∈ m := by
            clear hget hs hle hne hpairs h0 h32 h192 hshape
            induction m with
            | nil => rw [btLookup] at hl; exact Option.noConfusion hl
            | cons hd t ih =>
              obtain ⟨k0, v0⟩ := hd
              rw [btLookup] at hl
              by_cases hk : b = k0
              · subst hk
                rw [if_pos rfl] at hl
                have he := Option.some.inj hl
                subst he
                exact List.mem_cons_self _ _
              · rw [if_neg hk] at hl
                exact List.mem_cons_of_mem _ (ih hl)
          have hchne : ch.isEmptyN = false := hne (b, ch) hmem
          show (if ch.isEmptyN = true then none else some ch) = some ch
          rw [hchne]
          simp

/-- from_pairs of a canonical map is well-formed. -/
theorem wfC_fromPairs (m : List (Fin 256 × PNode V)) (hs : btSorted m)
    (hne : ∀ kv ∈ m, kv.2.isEmptyN = false) (hwf : ∀ kv ∈ m, wfN kv.2 = true) :
    wfC (fromPairs m) = true := by
  have hle : m.length ≤ 256 := btSorted_length_le m hs
  have hlenv : (PList.ofList (m.map Prod.snd)).length = m.length := by
    rw [← PList.length_toList, PList.toList_ofList, List.length_map]
  have hanem : allNonEmptyWf (PList.ofList (m.map Prod.snd)) = true := by
    rw [allNonEmptyWf_iff]
    intro x hx
    rw [PList.toList_ofList] at hx
    obtain ⟨kv, hkv, he⟩ := List.mem_map.mp hx
    subst he
    exact ⟨hne kv hkv, hwf kv hkv⟩
  rw [fromPairs]
  by_cases h0 : m.length = 0
  · rw [if_pos h0]
    rfl
  · rw [if_neg h0]
    by_cases h32 : m.length ≤ 32
    · rw [if_pos h32, wfC]
      simp only [Bool.and_eq_true]
      refine ⟨⟨?_, ?_⟩, hanem⟩
      · simp [hlenv, List.length_map]
      · rw [nodupB_iff]
        exact btSorted_keys_nodup m hs
    · rw [if_neg h32]
      by_cases h192 : m.length ≤ 192
      · rw [if_pos h192, wfC]
        have hfold : m.foldl (fun bs kv => bsSet bs kv.1) bsNew = bsBuild (m.map Prod.fst) := by
          rw [bsBuild, List.foldl_map]
        simp only [Bool.and_eq_true]
        obtain ⟨hwlen, hwords⟩ := bsWF_build (m.map Prod.fst)
        refine ⟨⟨⟨?_, ?_⟩, ?_⟩, hanem⟩
        · rw [hfold]
          simp [hwlen]
        · rw [hfold]
          rw [List.all_eq_true]
          intro w hw
          simpa using hwords w hw
        · rw [hfold, bsIter_build_sorted _ (btSorted_keys_pairwise m hs)]
          simp [hlenv, List.length_map]
      · rw [if_neg h192, if_pos hle, wfC]
        simp only [Bool.and_eq_true]
        refine ⟨by simp [denseOf_length], ?_⟩
        rw [allWf_iff]
        intro x hx
        rw [denseOf] at hx
        rcases foldSet_mem m _ x hx with h1 | h1
        · rw [PList.toList_ofList] at h1
          have := List.eq_of_mem_replicate h1
          subst this
          rfl
        · obtain ⟨kv, hkv, he⟩ := h1
          subst he
          exact hwf kv hkv

/-! ## walk characterization and get decomposition -/

/-- Complete inversion of walk: exactly one of the three loop outcomes,
together with the shapes of prefix and key it implies. -/
theorem walk_cases : ∀ (p key : List (Fin 256)),
    (∃ rest, walk p key = .through rest ∧ key = p ++ rest) ∨
    (∃ par br cp, walk p key = .keyEnded par br cp ∧ p = par ++ br :: cp ∧ key = par) ∨
    (∃ par ob orr kb kr, walk p key = .mismatch par ob orr kb kr ∧
      p = par ++ ob :: orr ∧ key = par ++ kb :: kr ∧ kb ≠ ob)
  | [], key => Or.inl ⟨key, rfl, rfl⟩
  | p :: ps, [] => Or.inr (Or.inl ⟨[], p, ps, rfl, rfl, rfl⟩)
  | p :: ps, k :: ks => by
    by_cases hkp : k = p
    · subst hkp
      rcases walk_cases ps ks with ⟨rest, hw, hk⟩ | ⟨par, br, cp, hw, hp, hk⟩ |
        ⟨par, ob, orr, kb, kr, hw, hp, hk, hne⟩
      · refine Or.inl ⟨rest, ?_, ?_⟩
        · rw [walk, if_pos rfl, hw]
          rfl
        · rw [hk, List.cons_append]
      · refine Or.inr (Or.inl ⟨k :: par, br, cp, ?_, ?_, ?_⟩)
        · rw [walk, if_pos rfl, hw]
          rfl
        · rw [hp, List.cons_append]
        · rw [hk]
      · refine Or.inr (Or.inr ⟨k :: par, ob, orr, kb, kr, ?_, ?_, ?_, hne⟩)
        · rw [walk, if_pos rfl, hw]
          rfl
        · rw [hp, List.cons_append]
        · rw [hk, List.cons_append]
    · refine Or.inr (Or.inr ⟨[], p, ps, k, ks, ?_, rfl, rfl, hkp⟩)
      rw [walk, if_neg hkp]

/-- Fuel irrelevance for get: any fuel above the key length computes the
same result. -/
theorem getF_congr : ∀ (f1 f2 : Nat) (t : PNode V) (key : List (Fin 256)),
    key.length < f1 → key.length < f2 → getF f1 t key = getF f2 t key
  | 0, _, _, _, h1, _ => absurd h1 (by omega)
  | _ + 1, 0, _, _, _, h2 => absurd h2 (by omega)
  | f1 + 1, f2 + 1, t, key, h1, h2 => by
    rw [getF, getF]
    rcases hw : walk t.pfxOf key with rest | ⟨par, br, cp⟩ | ⟨par, ob, orr, kb, kr⟩
    · rcases walk_cases t.pfxOf key with ⟨rest', hw', hk⟩ | ⟨_, _, _, hw', _, _⟩ |
        ⟨_, _, _, _, _, hw', _, _, _⟩
      · rw [hw] at hw'
        have : rest = rest' := WalkRes.through.inj hw'
        subst this
        cases rest with
        | nil => rfl
        | cons b r =>
          show (match t.lookupN b with
            | none => none
            | some child => getF f1 child r)
            = (match t.lookupN b with
            | none => none
            | some child => getF f2 child r)
          rcases hl : t.lookupN b with _ | child
          · rfl
          · have hlen : r.length < key.length := by
              rw [hk, List.length_append, List.length_cons]
              omega
            exact getF_congr f1 f2 child r (by omega) (by omega)
      · rw [hw] at hw'; exact WalkRes.noConfusion hw'
      · rw [hw] at hw'; exact WalkRes.noConfusion hw'
    · rfl
    · rfl

/-- Unfolding of get on an empty handle. -/
theorem trieGet_empty (key : List (Fin 256)) : trieGet (PNode.empty : PNode V) key = none := by
  cases key with
  | nil => rfl
  | cons b ks => rfl

/-- Peeling one prefix byte off a node. -/
theorem trieGet_cons_pfx (a : Fin 256) (p : List (Fin 256)) (c : NodeChildren V)
    (v : Option V) (key : List (Fin 256)) :
    trieGet (PNode.node (a :: p) c v) key
      = match key with
        | [] => none
        | x :: ks => if x = a then trieGet (PNode.node p c v) ks else none := by
  cases key with
  | nil => rfl
  | cons x ks =>
    show getF (ks.length + 1 + 1) (PNode.node (a :: p) c v) (x :: ks)
      = if x = a then trieGet (PNode.node p c v) ks else none
    rw [getF]
    by_cases hxa : x = a
    · subst hxa
      have hw : walk (PNode.node (x :: p) c v).pfxOf (x :: ks) = (walk p ks).consPar x := by
        show walk (x :: p) (x :: ks) = _
        rw [walk, if_pos rfl]
      rw [hw, if_pos rfl]
      show _ = getF (ks.length + 1) (PNode.node p c v) ks
      rw [getF]
      rcases hw2 : walk p ks with rest | ⟨par, br, cp⟩ | ⟨par, ob, orr, kb, kr⟩
    
      · have hpfx : (PNode.node p c v).pfxOf = p := rfl
        rw [hpfx, hw2]
        show (match WalkRes.through rest with
          | WalkRes.through [] => (PNode.node (x :: p) c v).valueOf
          | WalkRes.through (b :: rest) =>
            match (PNode.node (x :: p) c v).lookupN b with
            | none => none
            | some child => getF (ks.length + 1) child rest
          | WalkRes.keyEnded _ _ _ => none
          | WalkRes.mismatch _ _ _ _ _ => none) = _
        cases rest with
        | nil => rfl
        | cons b r =>
          show (match lookupC c b with
            | none => none
            | some child => getF (ks.length + 1) child r)
            = (match lookupC c b with
              | none => none
              | some child => getF ks.length child r)
          rcases hl : lookupC c b with _ | child
          · rfl
          · rcases walk_cases p ks with ⟨rest', hw', hk⟩ | ⟨_, _, _, hw', _, _⟩ |
              ⟨_, _, _, _, _, hw', _, _, _⟩
            · rw [hw2] at hw'
              have he : (b :: r) = rest' := WalkRes.through.inj hw'
              subst he
              have hlen : r.length < ks.length := by
                rw [hk, List.length_append, List.length_cons]
                omega
              exact getF_congr _ _ child r (by omega) (by omega)
            · rw [hw2] at hw'; exact WalkRes.noConfusion hw'
            · rw [hw2] at hw'; exact WalkRes.noConfusion hw'
      · have hpfx : (PNode.node p c v).pfxOf = p := rfl
        rw [hpfx, hw2]
        rfl
      · have hpfx : (PNode.node p c v).pfxOf = p := rfl
        rw [hpfx, hw2]
        rfl
    · have hw : walk (PNode.node (a :: p) c v).pfxOf (x :: ks)
          = .mismatch [] a p x ks := by
        show walk (a :: p) (x :: ks) = _
        rw [walk, if_neg hxa]
      rw [hw, if_neg hxa]

/-- A node with consumed prefix: value at the empty key, child dispatch
otherwise. -/
theorem trieGet_nil_pfx (c : NodeChildren V) (v : Option V) (key : List (Fin 256)) :
    trieGet (PNode.node [] c v) key
      = match key with
        | [] => v
        | b :: ks =>
          match lookupC c b with
          | none => none
          | some child => trieGet child ks := by
  cases key with
  | nil => rfl
  | cons b ks =>
    show getF (ks.length + 1 + 1) (PNode.node [] c v) (b :: ks)
      = (match lookupC c b with
         | none => none
         | some child => trieGet child ks)
    rw [getF]
    show (match lookupC c b with
      | none => none
      | some child => getF (ks.length + 1) child ks)
      = (match lookupC c b with
         | none => none
         | some child => trieGet child ks)
    rcases hl : lookupC c b with _ | child
    · rfl
    · rfl

/-- stripPfx: the prefix-matching portion of the descent. -/
def stripPfx : List (Fin 256) → List (Fin 256) → Option (List (Fin 256))
  | [], key => some key
  | _ :: _, [] => none
  | p :: ps, k :: ks => if k = p then stripPfx ps ks else none

theorem stripPfx_eq_some_iff : ∀ (p key rest : List (Fin 256)),
    stripPfx p key = some rest ↔ key = p ++ rest
  | [], key, rest => by
    rw [stripPfx]
    constructor
    · intro h
      rw [Option.some.inj h]
      rfl
    · intro h
      rw [List.nil_append] at h
      rw [h]
  | p :: ps, [], rest => by
    rw [stripPfx]
    constructor
    · intro h; exact Option.noConfusion h
    · intro h; exact absurd h (by simp)
  | p :: ps, k :: ks, rest => by
    rw [stripPfx]
    by_cases hkp : k = p
    · subst hkp
      rw [if_pos rfl]
      rw [stripPfx_eq_some_iff ps ks rest, List.cons_append]
      constructor
      · intro h; rw [h]
      · intro h; injection h
    · rw [if_neg hkp]
      constructor
      · intro h; exact Option.noConfusion h
      · intro h
        rw [List.cons_append] at h
        injection h with h1 _
        exact absurd h1 hkp

/-- get through an appended prefix factors through stripPfx. -/
theorem trieGet_append_pfx : ∀ (p1 p2 : List (Fin 256)) (c : NodeChildren V)
    (v : Option V) (key : List (Fin 256)),
    trieGet (PNode.node (p1 ++ p2) c v) key
      = (stripPfx p1 key).bind (fun r => trieGet (PNode.node p2 c v) r)
  | [], p2, c, v, key => by
    rw [List.nil_append, stripPfx]
    rfl
  | a :: p1, p2, c, v, key => by
    rw [List.cons_append, trieGet_cons_pfx]
    cases key with
    | nil => rfl
    | cons x ks =>
      show (if x = a then trieGet (PNode.node (p1 ++ p2) c v) ks else none)
        = ((if x = a then stripPfx p1 ks else none).bind
            fun r => trieGet (PNode.node p2 c v) r)
      by_cases hxa : x = a
      · rw [if_pos hxa, if_pos hxa]
        exact trieGet_append_pfx p1 p2 c v ks
      · rw [if_neg hxa, if_neg hxa]
        rfl

/-- get on a leaf node: only its exact prefix is bound. -/
theorem trieGet_leaf (pfx : List (Fin 256)) (v : V) (key : List (Fin 256)) :
    trieGet (PNode.node pfx NodeChildren.emptyC (some v)) key
      = if key = pfx then some v else none := by
  have h := trieGet_append_pfx pfx [] NodeChildren.emptyC (some v) key
  rw [List.append_nil] at h
  rw [h]
  rcases hs : stripPfx pfx key with _ | rest
  · rw [if_neg (by
      intro hc
      subst hc
      have : stripPfx key key = some [] := by
        rw [stripPfx_eq_some_iff]
        simp
      rw [this] at hs
      exact Option.noConfusion hs)]
    rfl
  · have hk : key = pfx ++ rest := (stripPfx_eq_some_iff pfx key rest).mp hs
    cases rest with
    | nil =>
      rw [Option.some_bind]
      rw [if_pos (by rw [hk, List.append_nil])]
      rfl
    | cons b r =>
      rw [Option.some_bind]
      have : trieGet (PNode.node [] NodeChildren.emptyC (some v)) (b :: r) = none := by
        rw [trieGet_nil_pfx]
        rfl
      rw [this, if_neg (by
        intro hc
        rw [hc] at hk
        have : pfx.length = pfx.length + (r.length + 1) := by
          have := congrArg List.length hk
          rw [List.length_append, List.length_cons] at this
          omega
        omega)]

/-! ## Fuel irrelevance for insert and remove -/

theorem insertF_congr : ∀ (f1 f2 : Nat) (t : PNode V) (key : List (Fin 256)) (v : V),
    key.length < f1 → key.length < f2 → insertF f1 t key v = insertF f2 t key v
  | 0, _, _, _, _, h1, _ => absurd h1 (by omega)
  | _ + 1, 0, _, _, _, _, h2 => absurd h2 (by omega)
  | f1 + 1, f2 + 1, t, key, v, h1, h2 => by
    rw [insertF, insertF]
    rcases hw : walk t.pfxOf key with rest | ⟨par, br, cp⟩ | ⟨par, ob, orr, kb, kr⟩
    · rcases walk_cases t.pfxOf key with ⟨rest', hw', hk⟩ | ⟨_, _, _, hw', _, _⟩ |
        ⟨_, _, _, _, _, hw', _, _, _⟩
      · rw [hw] at hw'
        have he : rest = rest' := WalkRes.through.inj hw'
        subst he
        cases rest with
        | nil => rfl
        | cons b r =>
          show (match t.lookupN b with
            | none => (none, addChild t b (PNode.node r NodeChildren.emptyC (some v)))
            | some child =>
              let rc := insertF f1 child r v
              (rc.1, replaceChild t b rc.2))
            = (match t.lookupN b with
            | none => (none, addChild t b (PNode.node r NodeChildren.emptyC (some v)))
            | some child =>
              let rc := insertF f2 child r v
              (rc.1, replaceChild t b rc.2))
          rcases hl : t.lookupN b with _ | child
          · rfl
          · have hlen : r.length < key.length := by
              rw [hk, List.length_append, List.length_cons]
              omega
            exact congrArg (fun rc => (rc.1, replaceChild t b rc.2))
              (insertF_congr f1 f2 child r v (by omega) (by omega))
      · rw [hw] at hw'; exact WalkRes.noConfusion hw'
      · rw [hw] at hw'; exact WalkRes.noConfusion hw'
    · rfl
    · rfl

theorem removeF_congr : ∀ (f1 f2 : Nat) (t : PNode V) (key : List (Fin 256)),
    key.length < f1 → key.length < f2 → removeF f1 t key = removeF f2 t key
  | 0, _, _, _, h1, _ => absurd h1 (by omega)
  | _ + 1, 0, _, _, _, h2 => absurd h2 (by omega)
  | f1 + 1, f2 + 1, t, key, h1, h2 => by
    rw [removeF, removeF]
    rcases hw : walk t.pfxOf key with rest | ⟨par, br, cp⟩ | ⟨par, ob, orr, kb, kr⟩
    · rcases walk_cases t.pfxOf key with ⟨rest', hw', hk⟩ | ⟨_, _, _, hw', _, _⟩ |
        ⟨_, _, _, _, _, hw', _, _, _⟩
      · rw [hw] at hw'
        have he : rest = rest' := WalkRes.through.inj hw'
        subst he
        cases rest with
        | nil => rfl
        | cons b r =>
          show (match t.lookupN b with
            | none => (none, t)
            | some child =>
              match removeF f1 child r with
              | (none, child2) => (none, replaceChild t b child2)
              | (some rv, child2) =>
                if child2.isEmptyN = false then (some rv, replaceChild t b child2)
                else
                  match takeN (replaceChild t b child2) with
                  | (p, c, vOpt) =>
                    match vOpt.isSome, intoPairs c with
                    | false, [] => (some rv, PNode.empty)
                    | false, [(cb, pc)] =>
                      let (cp, cc, cv) := takeN pc
                      (some rv, PNode.node (p ++ cb :: cp) cc cv)
                    | _, prs => (some rv, PNode.node p (fromPairs prs) vOpt))
            = (match t.lookupN b with
            | none => (none, t)
            | some child =>
              match removeF f2 child r with
              | (none, child2) => (none, replaceChild t b child2)
              | (some rv, child2) =>
                if child2.isEmptyN = false then (some rv, replaceChild t b child2)
                else
                  match takeN (replaceChild t b child2) with
                  | (p, c, vOpt) =>
                    match vOpt.isSome, intoPairs c with
                    | false, [] => (some rv, PNode.empty)
                    | false, [(cb, pc)] =>
                      let (cp, cc, cv) := takeN pc
                      (some rv, PNode.node (p ++ cb :: cp) cc cv)
                    | _, prs => (some rv, PNode.node p (fromPairs prs) vOpt))
          rcases hl : t.lookupN b with _ | child
          · rfl
          · have hlen : r.length < key.length := by
              rw [hk, List.length_append, List.length_cons]
              omega
            show (match removeF f1 child r with
              | (none, child2) => (none, replaceChild t b child2)
              | (some rv, child2) =>
                if child2.isEmptyN = false then (some rv, replaceChild t b child2)
                else
                  match takeN (replaceChild t b child2) with
                  | (p, c, vOpt) =>
                    match vOpt.isSome, intoPairs c with
                    | false, [] => (some rv, PNode.empty)
                    | false, [(cb, pc)] =>
                      let (cp, cc, cv) := takeN pc
                      (some rv, PNode.node (p ++ cb :: cp) cc cv)
                    | _, prs => (some rv, PNode.node p (fromPairs prs) vOpt))
              = (match removeF f2 child r with
              | (none, child2) => (none, replaceChild t b child2)
              | (some rv, child2) =>
                if child2.isEmptyN = false then (some rv, replaceChild t b child2)
                else
                  match takeN (replaceChild t b child2) with
                  | (p, c, vOpt) =>
                    match vOpt.isSome, intoPairs c with
                    | false, [] => (some rv, PNode.empty)
                    | false, [(cb, pc)] =>
                      let (cp, cc, cv) := takeN pc
                      (some rv, PNode.node (p ++ cb :: cp) cc cv)
                    | _, prs => (some rv, PNode.node p (fromPairs prs) vOpt))
            rw [removeF_congr f1 f2 child r (by omega) (by omega)]
      · rw [hw] at hw'; exact WalkRes.noConfusion hw'
      · rw [hw] at hw'; exact WalkRes.noConfusion hw'
    · rfl
    · rfl

/-! ## Helper lemmas for the insert and remove specifications -/

theorem stripPfx_append (p r : List (Fin 256)) : stripPfx p (p ++ r) = some r := by
  rw [stripPfx_eq_some_iff]

theorem stripPfx_self (p : List (Fin 256)) : stripPfx p p = some [] := by
  have h := stripPfx_append p []
  rwa [List.append_nil] at h

theorem stripPfx_none_ne {p k z : List (Fin 256)} (hs : stripPfx p k = none) :
    k ≠ p ++ z := by
  intro h
  rw [h, stripPfx_append] at hs
  exact Option.noConfusion hs

theorem append_cons_ne (p : List (Fin 256)) (b : Fin 256) (r : List (Fin 256)) :
    p ++ b :: r ≠ p := by
  intro h
  have := congrArg List.length h
  rw [List.length_append, List.length_cons] at this
  omega

theorem append_key_eq (p x y : List (Fin 256)) : p ++ x = p ++ y ↔ x = y := by
  constructor
  · intro h
    exact List.append_cancel_left h
  · intro h
    rw [h]

/-- A node with an empty prefix keeps the same get result on a nonempty
key whatever its value slot holds. -/
theorem trieGet_value_irrel (c : NodeChildren V) (v1 v2 : Option V) (b : Fin 256)
    (ks : List (Fin 256)) :
    trieGet (PNode.node [] c v1) (b :: ks) = trieGet (PNode.node [] c v2) (b :: ks) := rfl

/-- get through a standalone prefix factors through stripPfx. -/
theorem trieGet_pfx (p : List (Fin 256)) (c : NodeChildren V) (v : Option V)
    (key : List (Fin 256)) :
    trieGet (PNode.node p c v) key
      = (stripPfx p key).bind (fun r => trieGet (PNode.node [] c v) r) := by
  have h := trieGet_append_pfx p [] c v key
  rwa [List.append_nil] at h

/-- Child lookup on a one-entry Pairs table. -/
theorem lookupC_one (k : Fin 256) (ch : PNode V) (b : Fin 256) :
    lookupC (NodeChildren.one k ch) b = if b = k then some ch else none := by
  show (match [k].findIdx? (fun x => x == b) with
    | none => none
    | some i => (PList.cons ch PList.nil).get? i)
    = if b = k then some ch else none
  rw [List.findIdx?_cons]
  by_cases hbk : b = k
  · subst hbk
    simp [PList.get?]
  · have h1 : (k == b) = false := by simp [Ne.symm hbk]
    rw [h1]
    simp [hbk]

/-- Child lookup on a two-entry Pairs table (first match wins). -/
theorem lookupC_two (k1 k2 : Fin 256) (c1 c2 : PNode V) (b : Fin 256) :
    lookupC (NodeChildren.two k1 c1 k2 c2) b
      = if b = k1 then some c1 else if b = k2 then some c2 else none := by
  show (match [k1, k2].findIdx? (fun x => x == b) with
    | none => none
    | some i => (PList.cons c1 (PList.cons c2 PList.nil)).get? i)
    = if b = k1 then some c1 else if b = k2 then some c2 else none
  rw [List.findIdx?_cons]
  by_cases h1 : b = k1
  · subst h1
    simp [PList.get?]
  · have hk : (k1 == b) = false := by simp [Ne.symm h1]
    rw [hk]
    rw [List.findIdx?_cons]
    by_cases h2 : b = k2
    · subst h2
      simp [PList.get?, h1]
    · have hk2 : (k2 == b) = false := by simp [Ne.symm h2]
      rw [hk2]
      simp [h1, h2]

/-- Descent through the canonical map: one step of get on a node with an
empty prefix reads the child off into_pairs. -/
theorem trieGet_node_key (c : NodeChildren V) (v : Option V) (h : wfShape c = true)
    (b : Fin 256) (ks : List (Fin 256)) :
    trieGet (PNode.node [] c v) (b :: ks)
      = (btLookup (intoPairs c) b).bind (fun ch => trieGet ch ks) := by
  show (match lookupC c b with
    | none => none
    | some child => trieGet child ks)
    = (btLookup (intoPairs c) b).bind (fun ch => trieGet ch ks)
  rw [intoPairs_lookup c h b]
  rcases hl : lookupC c b with _ | ch
  · rfl
  · cases ch with
    | empty => simp [PNode.isEmptyN, trieGet_empty]
    | node p cc vv => simp [PNode.isEmptyN]

theorem btLookup_isEmpty {α : Type} {m : List (Fin 256 × α)} {b : Fin 256} {x : α}
    (h : btLookup m b = some x) : m.isEmpty = false := by
  cases m with
  | nil => exact Option.noConfusion h
  | cons y ys => rfl

/-- Unpacking wfN on a node. -/
theorem wfN_node_iff (p : List (Fin 256)) (c : NodeChildren V) (v : Option V) :
    wfN (PNode.node p c v) = true
      ↔ wfC c = true ∧ (v.isSome = true ∨ (intoPairs c).isEmpty = false) := by
  rw [wfN, Bool.and_eq_true, Bool.or_eq_true, Bool.not_eq_true']

/-! ## The node built by branch_prefix (insert, prefix-mismatch case) -/

theorem insert_branch_spec (par orr kr : List (Fin 256)) (ob kb : Fin 256)
    (c : NodeChildren V) (w : Option V) (v : V) (hne : kb ≠ ob)
    (hWF : wfN (PNode.node (par ++ ob :: orr) c w) = true) :
    wfN (PNode.node par (NodeChildren.two ob (PNode.node orr c w)
        (kb : Fin 256) (PNode.node kr NodeChildren.emptyC (some v))) none) = true
    ∧ ∀ key', trieGet (PNode.node par (NodeChildren.two ob (PNode.node orr c w)
        kb (PNode.node kr NodeChildren.emptyC (some v))) none) key'
      = if key' = par ++ kb :: kr then some v
        else trieGet (PNode.node (par ++ ob :: orr) c w) key' := by
  have hWFc := (wfN_node_iff _ c w).mp hWF
  have hfcwf : wfN (PNode.node orr c w) = true := (wfN_node_iff _ c w).mpr hWFc
  have hscwf : wfN (PNode.node kr (NodeChildren.emptyC : NodeChildren V) (some v))
      = true := (wfN_node_iff _ _ _).mpr ⟨rfl, Or.inl rfl⟩
  have hnd : nodupB [ob, kb] = true := by
    rw [nodupB_iff]
    simp [Ne.symm hne]
  have hsh : wfShape (NodeChildren.two ob (PNode.node orr c w)
      kb (PNode.node kr NodeChildren.emptyC (some v))) = true := by
    show (([ob, kb].length == (2 : Nat)) && nodupB [ob, kb]) = true
    rw [hnd]
    rfl
  constructor
  · rw [wfN_node_iff]
    constructor
    · show wfC (NodeChildren.pairs [ob, kb]
        (PList.cons (PNode.node orr c w)
          (PList.cons (PNode.node kr NodeChildren.emptyC (some v)) PList.nil))) = true
      rw [wfC]
      rw [hnd]
      show (true && true &&
        (!(PNode.node orr c w).isEmptyN && wfN (PNode.node orr c w) &&
          (!(PNode.node kr NodeChildren.emptyC (some v)).isEmptyN &&
            wfN (PNode.node kr NodeChildren.emptyC (some v)) && true))) = true
      rw [hfcwf, hscwf]
      rfl
    · right
      have hl2 : lookupC (NodeChildren.two ob (PNode.node orr c w)
          kb (PNode.node kr NodeChildren.emptyC (some v))) ob
          = some (PNode.node orr c w) := by
        rw [lookupC_two, if_pos rfl]
      have hbt := intoPairs_lookup _ hsh ob
      rw [hl2] at hbt
      simp only [Option.some_bind, PNode.isEmptyN, Bool.false_eq_true, if_false] at hbt
      exact btLookup_isEmpty hbt
  · intro key'
    rw [trieGet_pfx par _ none key', trieGet_append_pfx par (ob :: orr) c w key']
    rcases hs : stripPfx par key' with _ | r
    · rw [if_neg (stripPfx_none_ne hs)]
      rfl
    · have hkey' : key' = par ++ r := (stripPfx_eq_some_iff _ _ _).mp hs
      subst hkey'
      cases r with
      | nil =>
        rw [if_neg (by rw [append_key_eq]; exact fun h => List.noConfusion h)]
        rfl
      | cons b' ks' =>
        rw [Option.some_bind, Option.some_bind]
        show (match lookupC (NodeChildren.two ob (PNode.node orr c w)
            kb (PNode.node kr NodeChildren.emptyC (some v))) b' with
          | none => none
          | some child => trieGet child ks')
          = if par ++ b' :: ks' = par ++ kb :: kr then some v
            else trieGet (PNode.node (ob :: orr) c w) (b' :: ks')
        rw [lookupC_two]
        by_cases hob : b' = ob
        · subst hob
          rw [if_pos rfl]
          rw [if_neg (by
            rw [append_key_eq]
            intro h
            injection h with h1 h2
            exact hne h1.symm)]
          show trieGet (PNode.node orr c w) ks'
            = trieGet (PNode.node (b' :: orr) c w) (b' :: ks')
          rw [trieGet_cons_pfx]
          show trieGet (PNode.node orr c w) ks'
            = if b' = b' then trieGet (PNode.node orr c w) ks' else none
          rw [if_pos rfl]
        · rw [if_neg hob]
          by_cases hkb : b' = kb
          · subst hkb
            rw [if_pos rfl]
            rw [trieGet_cons_pfx]
            show trieGet (PNode.node kr NodeChildren.emptyC (some v)) ks'
              = if par ++ b' :: ks' = par ++ b' :: kr then some v
                else if b' = ob then trieGet (PNode.node orr c w) ks' else none
            rw [if_neg hob]
            rw [trieGet_leaf]
            by_cases hks : ks' = kr
            · subst hks
              rw [if_pos rfl, if_pos rfl]
            · rw [if_neg hks, if_neg (by
                rw [append_key_eq]
                intro h
                injection h with h1 h2
                exact hks h2)]
          · rw [if_neg hkb]
            rw [if_neg (by
              rw [append_key_eq]
              intro h
              injection h with h1 h2
              exact hkb h1)]
            rw [trieGet_cons_pfx]
            show (none : Option V)
              = if b' = ob then trieGet (PNode.node orr c w) ks' else none
            rw [if_neg hob]

/-- get on a value-less childless node finds nothing. -/
theorem trieGet_trivial (key : List (Fin 256)) :
    trieGet (PNode.node [] (NodeChildren.emptyC : NodeChildren V) none) key = none := by
  cases key with
  | nil => rfl
  | cons b ks => rfl

/-! ## The node built by split_prefix (insert, key-ended case) -/

theorem insert_split_spec (par cp : List (Fin 256)) (br : Fin 256)
    (c : NodeChildren V) (w : Option V) (v : V)
    (hWF : wfN (PNode.node (par ++ br :: cp) c w) = true) :
    wfN (PNode.node par (NodeChildren.one br (PNode.node cp c w)) (some v)) = true
    ∧ ∀ key', trieGet (PNode.node par (NodeChildren.one br (PNode.node cp c w))
        (some v)) key'
      = if key' = par then some v
        else trieGet (PNode.node (par ++ br :: cp) c w) key' := by
  have hWFc := (wfN_node_iff _ c w).mp hWF
  have hcwf : wfN (PNode.node cp c w) = true := (wfN_node_iff _ c w).mpr hWFc
  constructor
  · rw [wfN_node_iff]
    refine ⟨?_, Or.inl rfl⟩
    show wfC (NodeChildren.pairs [br] (PList.cons (PNode.node cp c w) PList.nil)) = true
    rw [wfC]
    show (true && nodupB [br] &&
      (!(PNode.node cp c w).isEmptyN && wfN (PNode.node cp c w) && true)) = true
    rw [hcwf]
    rfl
  · intro key'
    rw [trieGet_pfx par _ (some v) key', trieGet_append_pfx par (br :: cp) c w key']
    rcases hs : stripPfx par key' with _ | r
    · rw [if_neg (by
        intro h
        subst h
        rw [stripPfx_self] at hs
        exact Option.noConfusion hs)]
      rfl
    · have hkey' : key' = par ++ r := (stripPfx_eq_some_iff _ _ _).mp hs
      subst hkey'
      rw [Option.some_bind, Option.some_bind]
      cases r with
      | nil =>
        rw [List.append_nil, if_pos rfl]
        rfl
      | cons b' ks' =>
        rw [if_neg (append_cons_ne par b' ks')]
        show (match lookupC (NodeChildren.one br (PNode.node cp c w)) b' with
          | none => none
          | some child => trieGet child ks')
          = trieGet (PNode.node (br :: cp) c w) (b' :: ks')
        rw [lookupC_one, trieGet_cons_pfx]
        by_cases hbr : b' = br
        · subst hbr
          rw [if_pos rfl]
          show trieGet (PNode.node cp c w) ks'
            = if b' = b' then trieGet (PNode.node cp c w) ks' else none
          rw [if_pos rfl]
        · rw [if_neg hbr]
          show (none : Option V)
            = if b' = br then trieGet (PNode.node cp c w) ks' else none
          rw [if_neg hbr]

/-! ## The node built by add_child (insert, absent-branch case) -/

theorem insert_addChild_spec (p r : List (Fin 256)) (b : Fin 256)
    (c : NodeChildren V) (w : Option V) (v : V)
    (hsC : wfC c = true) (hl : lookupC c b = none) :
    wfN (PNode.node p (fromPairs (btInsert (intoPairs c) b
        (PNode.node r NodeChildren.emptyC (some v)))) w) = true
    ∧ ∀ key', trieGet (PNode.node p (fromPairs (btInsert (intoPairs c) b
        (PNode.node r NodeChildren.emptyC (some v)))) w) key'
      = if key' = p ++ b :: r then some v else trieGet (PNode.node p c w) key' := by
  have hsh : wfShape c = true := wfC_imp_shape c hsC
  have hncwf : wfN (PNode.node r (NodeChildren.emptyC : NodeChildren V) (some v)) = true :=
    (wfN_node_iff _ _ _).mpr ⟨rfl, Or.inl rfl⟩
  have hsorted : btSorted (btInsert (intoPairs c) b
      (PNode.node r NodeChildren.emptyC (some v))) :=
    btInsert_sorted (intoPairs_sorted c) b _
  have hmem_ne : ∀ kv ∈ btInsert (intoPairs c) b
      (PNode.node r NodeChildren.emptyC (some v)), kv.2.isEmptyN = false := by
    intro kv hkv
    rcases btInsert_mem _ b _ kv hkv with he | hm
    · rw [he]
      rfl
    · exact (intoPairs_mem c kv hm).1
  have hmem_wf : ∀ kv ∈ btInsert (intoPairs c) b
      (PNode.node r NodeChildren.emptyC (some v)), wfN kv.2 = true := by
    intro kv hkv
    rcases btInsert_mem _ b _ kv hkv with he | hm
    · rw [he]
      exact hncwf
    · exact (intoPairs_mem c kv hm).2 hsC
  have hip : intoPairs (fromPairs (btInsert (intoPairs c) b
        (PNode.node r NodeChildren.emptyC (some v))))
      = btInsert (intoPairs c) b (PNode.node r NodeChildren.emptyC (some v)) :=
    intoPairs_fromPairs _ hsorted hmem_ne
  have hwfc2 : wfC (fromPairs (btInsert (intoPairs c) b
      (PNode.node r NodeChildren.emptyC (some v)))) = true :=
    wfC_fromPairs _ hsorted hmem_ne hmem_wf
  have hbtb : btLookup (btInsert (intoPairs c) b
        (PNode.node r NodeChildren.emptyC (some v))) b
      = some (PNode.node r NodeChildren.emptyC (some v)) := by
    rw [btLookup_btInsert, if_pos rfl]
  have hbtc : btLookup (intoPairs c) b = none := by
    rw [intoPairs_lookup c hsh b, hl]
    rfl
  constructor
  · rw [wfN_node_iff]
    refine ⟨hwfc2, Or.inr ?_⟩
    rw [hip]
    exact btLookup_isEmpty hbtb
  · intro key'
    rw [trieGet_pfx p _ w key', trieGet_pfx p c w key']
    rcases hs : stripPfx p key' with _ | rr
    · rw [if_neg (stripPfx_none_ne hs)]
      rfl
    · have hkey' : key' = p ++ rr := (stripPfx_eq_some_iff _ _ _).mp hs
      subst hkey'
      rw [Option.some_bind, Option.some_bind]
      cases rr with
      | nil =>
        rw [if_neg (by rw [append_key_eq]; exact fun h => List.noConfusion h)]
        rfl
      | cons b' ks' =>
        rw [trieGet_node_key _ w (wfC_imp_shape _ hwfc2) b' ks',
          trieGet_node_key c w hsh b' ks', hip, btLookup_btInsert]
        by_cases hbb : b' = b
        · subst hbb
          rw [if_pos rfl, Option.some_bind, trieGet_leaf, hbtc, Option.none_bind]
          by_cases hks : ks' = r
          · subst hks
            rw [if_pos rfl, if_pos rfl]
          · rw [if_neg hks, if_neg (by
              rw [append_key_eq]
              intro h
              injection h with h1 h2
              exact hks h2)]
        · rw [if_neg hbb, if_neg (by
            rw [append_key_eq]
            intro h
            injection h with h1 h2
            exact hbb h1)]

/-! ## Pointwise correctness of insert -/

/-- insert returns the previous binding at the key, keeps the tree
non-empty and well-formed, and updates get exactly at the inserted
key. -/
theorem insert_spec (key : List (Fin 256)) (t : PNode V) (v : V)
    (hWF : wfN t = true) :
    (trieInsert t key v).1 = trieGet t key
    ∧ (trieInsert t key v).2.isEmptyN = false
    ∧ wfN (trieInsert t key v).2 = true
    ∧ ∀ key', trieGet (trieInsert t key v).2 key'
        = if key' = key then some v else trieGet t key' := by
  rcases walk_cases t.pfxOf key with ⟨rest, hw, hk⟩ | ⟨par, br, cp, hw, hp, hk⟩ |
    ⟨par, ob, orr, kb, kr, hw, hp, hk, hne⟩
  · cases rest with
    | nil =>
      cases t with
      | empty =>
        have hk2 : key = [] := by simpa using hk
        subst hk2
        refine ⟨rfl, rfl, rfl, ?_⟩
        intro key'
        show trieGet (PNode.node [] NodeChildren.emptyC (some v)) key'
          = if key' = [] then some v else trieGet (PNode.empty : PNode V) key'
        rw [trieGet_leaf, trieGet_empty]
      | node p c w =>
        have hk2 : p = key := by simpa [PNode.pfxOf] using hk.symm
        subst hk2
        have heq : trieInsert (PNode.node p c w) p v = (w, PNode.node p c (some v)) := by
          show insertF (p.length + 1) (PNode.node p c w) p v = _
          rw [insertF, hw]
          rfl
        rw [heq]
        refine ⟨?_, rfl, ?_, ?_⟩
        · rw [trieGet_pfx p c w, stripPfx_self, Option.some_bind]
          rfl
        · rw [wfN_node_iff]
          exact ⟨((wfN_node_iff _ _ _).mp hWF).1, Or.inl rfl⟩
        · intro key'
          rw [trieGet_pfx p c (some v) key', trieGet_pfx p c w key']
          rcases hs : stripPfx p key' with _ | r
          · rw [if_neg (by
              intro h
              subst h
              rw [stripPfx_self] at hs
              exact Option.noConfusion hs)]
            rfl
          · have hkey' : key' = p ++ r := (stripPfx_eq_some_iff _ _ _).mp hs
            subst hkey'
            rw [Option.some_bind, Option.some_bind]
            cases r with
            | nil =>
              rw [List.append_nil, if_pos rfl]
              rfl
            | cons b' ks' =>
              rw [if_neg (append_cons_ne p b' ks')]
              exact trieGet_value_irrel c (some v) w b' ks'
    | cons b r =>
      cases t with
      | empty =>
        have hk2 : key = b :: r := by simpa using hk
        subst hk2
        have heq : trieInsert (PNode.empty : PNode V) (b :: r) v
            = (none, PNode.node []
                (fromPairs (btInsert (intoPairs (NodeChildren.emptyC : NodeChildren V)) b
                  (PNode.node r NodeChildren.emptyC (some v)))) none) := rfl
        obtain ⟨hwf2, hgets⟩ := insert_addChild_spec [] r b NodeChildren.emptyC none v rfl rfl
        rw [heq]
        refine ⟨by rw [trieGet_empty], rfl, hwf2, ?_⟩
        intro key'
        rw [hgets key', List.nil_append, trieGet_trivial, trieGet_empty]
      | node p c w =>
        have hsC : wfC c = true := ((wfN_node_iff _ _ _).mp hWF).1
        have hsh : wfShape c = true := wfC_imp_shape c hsC
        have hk2 : p ++ b :: r = key := hk.symm
        subst hk2
        rcases hl : lookupC c b with _ | child
        · have heq : trieInsert (PNode.node p c w) (p ++ b :: r) v
              = (none, PNode.node p (fromPairs (btInsert (intoPairs c) b
                  (PNode.node r NodeChildren.emptyC (some v)))) w) := by
            show insertF ((p ++ b :: r).length + 1) (PNode.node p c w) (p ++ b :: r) v = _
            rw [insertF, hw]
            show (match lookupC c b with
              | none => (none, addChild (PNode.node p c w) b
                  (PNode.node r NodeChildren.emptyC (some v)))
              | some child2 =>
                let rc := insertF (p ++ b :: r).length child2 r v
                (rc.1, replaceChild (PNode.node p c w) b rc.2))
              = _
            rw [hl]
            rfl
          obtain ⟨hwf2, hgets⟩ := insert_addChild_spec p r b c w v hsC hl
          rw [heq]
          refine ⟨?_, rfl, hwf2, ?_⟩
          · rw [trieGet_pfx p c w, stripPfx_append, Option.some_bind]
            show (none : Option V) = match lookupC c b with
              | none => none
              | some child2 => trieGet child2 r
            rw [hl]
          · intro key'
            exact hgets key'
        · have hchildwf : wfN child = true := lookupC_wf c hsC b child hl
          obtain ⟨ih1, ih2, ih3, ih4⟩ := insert_spec r child v hchildwf
          have heq : trieInsert (PNode.node p c w) (p ++ b :: r) v
              = ((trieInsert child r v).1,
                  replaceChild (PNode.node p c w) b (trieInsert child r v).2) := by
            show insertF ((p ++ b :: r).length + 1) (PNode.node p c w) (p ++ b :: r) v = _
            rw [insertF, hw]
            show (match lookupC c b with
              | none => (none, addChild (PNode.node p c w) b
                  (PNode.node r NodeChildren.emptyC (some v)))
              | some child2 =>
                let rc := insertF (p ++ b :: r).length child2 r v
                (rc.1, replaceChild (PNode.node p c w) b rc.2))
              = _
            rw [hl]
            show ((insertF (p ++ b :: r).length child r v).1,
                replaceChild (PNode.node p c w) b (insertF (p ++ b :: r).length child r v).2)
              = _
            rw [insertF_congr (p ++ b :: r).length (r.length + 1) child r v
              (by rw [List.length_append, List.length_cons]; omega) (by omega)]
            rfl
          rw [heq]
          refine ⟨?_, rfl, ?_, ?_⟩
          · rw [ih1, trieGet_pfx p c w, stripPfx_append, Option.some_bind]
            show trieGet child r = match lookupC c b with
              | none => none
              | some child2 => trieGet child2 r
            rw [hl]
          · have hupd : wfC (updateChild c b (trieInsert child r v).2) = true :=
              wfC_updateChild c hsC b _ ih2 ih3
            show wfN (PNode.node p (updateChild c b (trieInsert child r v).2) w) = true
            rw [wfN_node_iff]
            refine ⟨hupd, Or.inr ?_⟩
            have hlu : lookupC (updateChild c b (trieInsert child r v).2) b
                = some (trieInsert child r v).2 := by
              rw [lookupC_updateChild c hsh b child hl _ b, if_pos rfl]
            have hbt := intoPairs_lookup (updateChild c b (trieInsert child r v).2)
              (by rw [wfShape_updateChild]; exact hsh) b
            rw [hlu, Option.some_bind,
              if_neg (by rw [ih2]; exact Bool.false_ne_true)] at hbt
            exact btLookup_isEmpty hbt
          · intro key'
            show trieGet (PNode.node p (updateChild c b (trieInsert child r v).2) w) key'
              = _
            rw [trieGet_pfx p _ w key', trieGet_pfx p c w key']
            rcases hs : stripPfx p key' with _ | rr
            · rw [if_neg (stripPfx_none_ne hs)]
              rfl
            · have hkey' : key' = p ++ rr := (stripPfx_eq_some_iff _ _ _).mp hs
              subst hkey'
              rw [Option.some_bind, Option.some_bind]
              cases rr with
              | nil =>
                rw [if_neg (by rw [append_key_eq]; exact fun h => List.noConfusion h)]
                rfl
              | cons b' ks' =>
                show (match lookupC (updateChild c b (trieInsert child r v).2) b' with
                  | none => none
                  | some ch => trieGet ch ks')
                  = if p ++ b' :: ks' = p ++ b :: r then some v
                    else trieGet (PNode.node [] c w) (b' :: ks')
                rw [lookupC_updateChild c hsh b child hl _ b']
                by_cases hbb : b' = b
                · subst hbb
                  rw [if_pos rfl]
                  show trieGet (trieInsert child r v).2 ks'
                    = if p ++ b' :: ks' = p ++ b' :: r then some v
                      else trieGet (PNode.node [] c w) (b' :: ks')
                  rw [ih4 ks']
                  by_cases hks : ks' = r
                  · subst hks
                    rw [if_pos rfl, if_pos rfl]
                  · rw [if_neg hks, if_neg (by
                      rw [append_key_eq]
                      intro h
                      injection h with h1 h2
                      exact hks h2)]
                    show trieGet child ks' = match lookupC c b' with
                      | none => none
                      | some ch => trieGet ch ks'
                    rw [hl]
                · rw [if_neg hbb, if_neg (by
                    rw [append_key_eq]
                    intro h
                    injection h with h1 h2
                    exact hbb h1)]
                  rfl
  · -- key ended inside the stored prefix: split_prefix
    cases t with
    | empty =>
      exfalso
      have h0 : ([] : List (Fin 256)) = par ++ br :: cp := hp
      have := congrArg List.length h0
      rw [List.length_nil, List.length_append, List.length_cons] at this
      exact absurd this (by omega)
    | node p c w =>
      have hp2 : p = par ++ br :: cp := hp
      subst hp2
      have hk2 : par = key := hk.symm
      subst hk2
      have heq : trieInsert (PNode.node (par ++ br :: cp) c w) par v
          = (none, PNode.node par (NodeChildren.one br (PNode.node cp c w)) (some v)) := by
        show insertF (par.length + 1) (PNode.node (par ++ br :: cp) c w) par v = _
        rw [insertF, hw]
        rfl
      obtain ⟨hwf2, hgets⟩ := insert_split_spec par cp br c w v hWF
      rw [heq]
      refine ⟨?_, rfl, hwf2, ?_⟩
      · rw [trieGet_append_pfx par (br :: cp) c w, stripPfx_self, Option.some_bind]
        rfl
      · intro key'
        exact hgets key'
  · -- prefix mismatch: branch_prefix
    cases t with
    | empty =>
      exfalso
      have h0 : ([] : List (Fin 256)) = par ++ ob :: orr := hp
      have := congrArg List.length h0
      rw [List.length_nil, List.length_append, List.length_cons] at this
      exact absurd this (by omega)
    | node p c w =>
      have hp2 : p = par ++ ob :: orr := hp
      subst hp2
      have hk2 : par ++ kb :: kr = key := hk.symm
      subst hk2
      have heq : trieInsert (PNode.node (par ++ ob :: orr) c w) (par ++ kb :: kr) v
          = (none, PNode.node par (NodeChildren.two ob (PNode.node orr c w)
              kb (PNode.node kr NodeChildren.emptyC (some v))) none) := by
        show insertF ((par ++ kb :: kr).length + 1)
          (PNode.node (par ++ ob :: orr) c w) (par ++ kb :: kr) v = _
        rw [insertF, hw]
        rfl
      obtain ⟨hwf2, hgets⟩ := insert_branch_spec par orr kr ob kb c w v hne hWF
      rw [heq]
      refine ⟨?_, rfl, hwf2, ?_⟩
      · rw [trieGet_append_pfx par (ob :: orr) c w, stripPfx_append, Option.some_bind,
          trieGet_cons_pfx]
        show (none : Option V)
          = if kb = ob then trieGet (PNode.node orr c w) kr else none
        rw [if_neg hne]
      · intro key'
        exact hgets key'
termination_by key.length
decreasing_by
  rw [← hk2, List.length_append, List.length_cons]
  omega

/-! ## Helper lemmas for the remove specification -/

theorem PList.set_self : ∀ (pl : PList V) (i : Nat) (x : PNode V),
    pl.get? i = some x → pl.set i x = pl
  | .nil, i, x, h => by
    rw [PList.get?] at h
    exact Option.noConfusion h
  | .cons hd tl, 0, x, h => by
    rw [PList.get?] at h
    rw [PList.set, ← Option.some.inj h]
  | .cons hd tl, i + 1, x, h => by
    rw [PList.get?] at h
    rw [PList.set, PList.set_self tl i x h]

/-- Writing back the child that lookup returned leaves the table
unchanged. -/
theorem updateChild_self (c : NodeChildren V) (b : Fin 256) (ch : PNode V)
    (hl : lookupC c b = some ch) : updateChild c b ch = c := by
  cases c with
  | emptyC => rfl
  | pairs keys vs =>
    rw [lookupC] at hl
    rw [updateChild]
    rcases hfi : keys.findIdx? (fun k => k == b) with _ | i
    · rfl
    · rw [hfi] at hl
      have hl2 : vs.get? i = some ch := hl
      show NodeChildren.pairs keys (vs.set i ch) = NodeChildren.pairs keys vs
      rw [PList.set_self vs i ch hl2]
  | sparse bs vs =>
    rw [lookupC] at hl
    rw [updateChild]
    rcases hfi : bsQuery bs b with _ | i
    · rfl
    · rw [hfi] at hl
      have hl2 : vs.get? i = some ch := hl
      show NodeChildren.sparse bs (vs.set i ch) = NodeChildren.sparse bs vs
      rw [PList.set_self vs i ch hl2]
  | dense tb =>
    rw [lookupC] at hl
    rw [updateChild, PList.set_self tb b.val ch hl]

theorem btLookup_of_mem {α : Type} : ∀ (m : List (Fin 256 × α)), btSorted m →
    ∀ kv ∈ m, btLookup m kv.1 = some kv.2
  | [], _, kv, h => absurd h (List.not_mem_nil kv)
  | (k0, v0) :: t, hs, kv, h => by
    rw [btLookup]
    rcases List.mem_cons.mp h with he | hm
    · rw [he]
      rw [if_pos rfl]
    · have hlt : k0 < kv.1 := by
        rw [btSorted, List.pairwise_cons] at hs
        exact hs.1 kv hm
      rw [if_neg (by intro hc; rw [hc] at hlt; exact lt_irrefl _ hlt)]
      exact btLookup_of_mem t (by
        rw [btSorted] at hs
        rw [btSorted]
        exact (List.pairwise_cons.mp hs).2) kv hm

/-- get on a node, described through stripPfx and the canonical map. -/
theorem trieGet_node_cases (p : List (Fin 256)) (c : NodeChildren V) (w : Option V)
    (hsh : wfShape c = true) (key' : List (Fin 256)) :
    trieGet (PNode.node p c w) key'
      = (stripPfx p key').bind (fun r =>
          match r with
          | [] => w
          | b' :: ks' => (btLookup (intoPairs c) b').bind (fun ch => trieGet ch ks')) := by
  rw [trieGet_pfx]
  rcases stripPfx p key' with _ | r
  · rfl
  · rw [Option.some_bind, Option.some_bind]
    cases r with
    | nil => rfl
    | cons b' ks' => exact trieGet_node_key c w hsh b' ks'

/-- Two children tables with the same canonical map serve the same
gets. -/
theorem node_gets_ext (p : List (Fin 256)) (c1 c2 : NodeChildren V) (w0 : Option V)
    (h1 : wfShape c1 = true) (h2 : wfShape c2 = true)
    (hmap : ∀ b, btLookup (intoPairs c1) b = btLookup (intoPairs c2) b)
    (key' : List (Fin 256)) :
    trieGet (PNode.node p c1 w0) key' = trieGet (PNode.node p c2 w0) key' := by
  rw [trieGet_node_cases p c1 w0 h1, trieGet_node_cases p c2 w0 h2]
  rcases stripPfx p key' with _ | r
  · rfl
  · rw [Option.some_bind, Option.some_bind]
    cases r with
    | nil => rfl
    | cons b' ks' =>
      show ((btLookup (intoPairs c1) b').bind fun ch => trieGet ch ks')
        = (btLookup (intoPairs c2) b').bind fun ch => trieGet ch ks'
      rw [hmap b']

/-- A value-less node over an empty canonical map binds nothing. -/
theorem empty_map_gets (p : List (Fin 256)) (c : NodeChildren V)
    (hsh : wfShape c = true) (hip : intoPairs c = []) (key' : List (Fin 256)) :
    trieGet (PNode.node p c none) key' = none := by
  rw [trieGet_node_cases p c none hsh, hip]
  rcases stripPfx p key' with _ | r
  · rfl
  · rw [Option.some_bind]
    cases r with
    | nil => rfl
    | cons b' ks' => rfl

/-- Swapping the value slot changes get exactly at the node's own
prefix. -/
theorem node_value_gets (p : List (Fin 256)) (c : NodeChildren V) (w w2 : Option V)
    (key' : List (Fin 256)) :
    trieGet (PNode.node p c w2) key'
      = if key' = p then w2 else trieGet (PNode.node p c w) key' := by
  rw [trieGet_pfx p c w2 key', trieGet_pfx p c w key']
  rcases hs : stripPfx p key' with _ | r
  · rw [if_neg (by
      intro h
      subst h
      rw [stripPfx_self] at hs
      exact Option.noConfusion hs)]
    rfl
  · have hkey' : key' = p ++ r := (stripPfx_eq_some_iff _ _ _).mp hs
    subst hkey'
    rw [Option.some_bind, Option.some_bind]
    cases r with
    | nil =>
      rw [List.append_nil, if_pos rfl]
      rfl
    | cons b' ks' =>
      rw [if_neg (append_cons_ne p b' ks')]
      exact trieGet_value_irrel c w2 w b' ks'

/-- Merging a value-less single-child node into its child preserves
gets. -/
theorem merge_gets (p cp2 : List (Fin 256)) (cb : Fin 256) (cc : NodeChildren V)
    (cv : Option V) (c2 : NodeChildren V) (hsh2 : wfShape c2 = true)
    (hip : intoPairs c2 = [(cb, PNode.node cp2 cc cv)]) (key' : List (Fin 256)) :
    trieGet (PNode.node (p ++ cb :: cp2) cc cv) key'
      = trieGet (PNode.node p c2 none) key' := by
  rw [trieGet_append_pfx p (cb :: cp2) cc cv key',
    trieGet_node_cases p c2 none hsh2, hip]
  rcases stripPfx p key' with _ | r
  · rfl
  · rw [Option.some_bind, Option.some_bind]
    cases r with
    | nil => rw [trieGet_cons_pfx]
    | cons b' ks' =>
      rw [trieGet_cons_pfx]
      show (if b' = cb then trieGet (PNode.node cp2 cc cv) ks' else none)
        = (btLookup [(cb, PNode.node cp2 cc cv)] b').bind fun ch => trieGet ch ks'
      rw [btLookup]
      by_cases hbb : b' = cb
      · rw [if_pos hbb, if_pos hbb, Option.some_bind]
      · rw [if_neg hbb, if_neg hbb]
        rfl

/-- The canonical map after a slot write: the new child (filtered if
empty) at the written byte, the old map elsewhere. -/
theorem intoPairs_updateChild_lookup (c : NodeChildren V) (hsh : wfShape c = true)
    (b : Fin 256) (child : PNode V) (hl : lookupC c b = some child)
    (ch2 : PNode V) (b' : Fin 256) :
    btLookup (intoPairs (updateChild c b ch2)) b'
      = if b' = b then (if ch2.isEmptyN then none else some ch2)
        else btLookup (intoPairs c) b' := by
  rw [intoPairs_lookup _ (by rw [wfShape_updateChild]; exact hsh) b',
    lookupC_updateChild c hsh b child hl ch2 b']
  by_cases hbb : b' = b
  · rw [if_pos hbb, if_pos hbb, Option.some_bind]
  · rw [if_neg hbb, if_neg hbb, intoPairs_lookup c hsh b']

/-- After the recursive remove writes the shrunken child back, get is
erased exactly at the removed key. -/
theorem remove_mid_gets (p rest : List (Fin 256)) (b : Fin 256)
    (c : NodeChildren V) (w : Option V) (child ch2 : PNode V)
    (hsh : wfShape c = true) (hl : lookupC c b = some child)
    (ihg : ∀ ks, trieGet ch2 ks = if ks = rest then none else trieGet child ks)
    (key' : List (Fin 256)) :
    trieGet (PNode.node p (updateChild c b ch2) w) key'
      = if key' = p ++ b :: rest then none else trieGet (PNode.node p c w) key' := by
  rw [trieGet_pfx p _ w key', trieGet_pfx p c w key']
  rcases hs : stripPfx p key' with _ | r
  · rw [if_neg (stripPfx_none_ne hs)]
    rfl
  · have hkey' : key' = p ++ r := (stripPfx_eq_some_iff _ _ _).mp hs
    subst hkey'
    rw [Option.some_bind, Option.some_bind]
    cases r with
    | nil =>
      rw [if_neg (by rw [append_key_eq]; exact fun h => List.noConfusion h)]
      rfl
    | cons b' ks' =>
      show (match lookupC (updateChild c b ch2) b' with
        | none => none
        | some ch => trieGet ch ks')
        = if p ++ b' :: ks' = p ++ b :: rest then none
          else trieGet (PNode.node [] c w) (b' :: ks')
      rw [lookupC_updateChild c hsh b child hl ch2 b']
      by_cases hbb : b' = b
      · subst hbb
        rw [if_pos rfl]
        show trieGet ch2 ks'
          = if p ++ b' :: ks' = p ++ b' :: rest then none
            else trieGet (PNode.node [] c w) (b' :: ks')
        rw [ihg ks']
        by_cases hks : ks' = rest
        · subst hks
          rw [if_pos rfl, if_pos rfl]
        · rw [if_neg hks, if_neg (by
            rw [append_key_eq]
            intro h
            injection h with h1 h2
            exact hks h2)]
          show trieGet child ks' = match lookupC c b' with
            | none => none
            | some ch => trieGet ch ks'
          rw [hl]
      · rw [if_neg hbb, if_neg (by
          rw [append_key_eq]
          intro h
          injection h with h1 h2
          exact hbb h1)]
        rfl

/-- The tail of remove.rs after the recursive call returned: write the
shrunken child back and, if it emptied, repair the parent through the
canonical map (drop, merge or repack). -/
def removeAfter (t : PNode V) (b : Fin 256) (rc : Option V × PNode V) :
    Option V × PNode V :=
  match rc with
  | (none, child2) => (none, replaceChild t b child2)
  | (some rv, child2) =>
    if child2.isEmptyN = false then (some rv, replaceChild t b child2)
    else
      match takeN (replaceChild t b child2) with
      | (p, c, vOpt) =>
        match vOpt.isSome, intoPairs c with
        | false, [] => (some rv, PNode.empty)
        | false, [(cb, pc)] =>
          let (cp, cc, cv) := takeN pc
          (some rv, PNode.node (p ++ cb :: cp) cc cv)
        | _, prs => (some rv, PNode.node p (fromPairs prs) vOpt)

/-- Repacking a children table through the canonical map preserves
well-formedness and gets. -/
theorem repack_spec (p : List (Fin 256)) (c2 : NodeChildren V) (w2 : Option V)
    (hsh2 : wfShape c2 = true)
    (hmem : ∀ kv ∈ intoPairs c2, kv.2.isEmptyN = false ∧ wfN kv.2 = true) :
    wfC (fromPairs (intoPairs c2)) = true
    ∧ intoPairs (fromPairs (intoPairs c2)) = intoPairs c2
    ∧ ∀ key', trieGet (PNode.node p (fromPairs (intoPairs c2)) w2) key'
        = trieGet (PNode.node p c2 w2) key' := by
  have hsorted := intoPairs_sorted c2
  have h1 : ∀ kv ∈ intoPairs c2, kv.2.isEmptyN = false := fun kv h => (hmem kv h).1
  have h2 : ∀ kv ∈ intoPairs c2, wfN kv.2 = true := fun kv h => (hmem kv h).2
  have hip := intoPairs_fromPairs _ hsorted h1
  have hwfc := wfC_fromPairs _ hsorted h1 h2
  refine ⟨hwfc, hip, ?_⟩
  intro key'
  exact node_gets_ext p _ c2 w2 (wfC_imp_shape _ hwfc) hsh2 (fun b0 => by rw [hip]) key'

theorem btLookup_mem_pair {α : Type} : ∀ (m : List (Fin 256 × α)) (k : Fin 256) (v : α),
    btLookup m k = some v → (k, v) ∈ m
  | [], k, v, h => by
    rw [btLookup] at h
    exact Option.noConfusion h
  | (k0, v0) :: t, k, v, h => by
    rw [btLookup] at h
    by_cases hk : k = k0
    · rw [if_pos hk] at h
      rw [hk, ← Option.some.inj h]
      exact List.mem_cons_self _ _
    · rw [if_neg hk] at h
      exact List.mem_cons_of_mem _ (btLookup_mem_pair t k v h)

/-- After writing an empty handle over the slot at b, the remaining map
entries are the old non-empty well-formed children. -/
theorem updateChild_empty_mem (c : NodeChildren V) (b : Fin 256) (child : PNode V)
    (hsC : wfC c = true) (hl : lookupC c b = some child) :
    ∀ kv ∈ intoPairs (updateChild c b PNode.empty),
      kv.2.isEmptyN = false ∧ wfN kv.2 = true := by
  intro kv hkv
  obtain ⟨k1, v1⟩ := kv
  have hsh := wfC_imp_shape c hsC
  have hlk := btLookup_of_mem _ (intoPairs_sorted _) (k1, v1) hkv
  rw [intoPairs_updateChild_lookup c hsh b child hl PNode.empty k1] at hlk
  by_cases hbb : k1 = b
  · rw [if_pos hbb] at hlk
    simp [PNode.isEmptyN] at hlk
  · rw [if_neg hbb] at hlk
    have hlk2 : btLookup (intoPairs c) k1 = some v1 := hlk
    have hm := btLookup_mem_pair _ k1 v1 hlk2
    exact ⟨(intoPairs_mem c _ hm).1, (intoPairs_mem c _ hm).2 hsC⟩

/-! ## Pointwise correctness of remove -/

/-- remove returns the binding previously at the key, keeps the tree
well-formed, leaves it untouched when nothing was removed, and erases
get exactly at the removed key. -/
theorem remove_spec (key : List (Fin 256)) (t : PNode V) (hWF : wfN t = true) :
    (trieRemove t key).1 = trieGet t key
    ∧ wfN (trieRemove t key).2 = true
    ∧ ((trieRemove t key).1 = none → (trieRemove t key).2 = t)
    ∧ ∀ key', trieGet (trieRemove t key).2 key'
        = if key' = key then none else trieGet t key' := by
  rcases walk_cases t.pfxOf key with ⟨rest, hw, hk⟩ | ⟨par, br, cp, hw, hp, hk⟩ |
    ⟨par, ob, orr, kb, kr, hw, hp, hk, hne⟩
  · cases t with
    | empty =>
      have heq : trieRemove (PNode.empty : PNode V) key = (none, PNode.empty) := by
        cases key with
        | nil => rfl
        | cons b ks => rfl
      rw [heq]
      refine ⟨(trieGet_empty key).symm, rfl, fun _ => rfl, ?_⟩
      intro key'
      rw [trieGet_empty]
      exact (ite_self (none : Option V)).symm
    | node p c w =>
      have hsC : wfC c = true := ((wfN_node_iff _ _ _).mp hWF).1
      have hsh : wfShape c = true := wfC_imp_shape c hsC
      cases rest with
      | nil =>
        have hk2 : p = key := by simpa [PNode.pfxOf] using hk.symm
        subst hk2
        cases w with
        | none =>
          have heq : trieRemove (PNode.node p c none) p = (none, PNode.node p c none) := by
            show removeF (p.length + 1) (PNode.node p c none) p = _
            rw [removeF, hw]
            rfl
          have hval : trieGet (PNode.node p c none) p = none := by
            rw [trieGet_pfx, stripPfx_self, Option.some_bind]
            rfl
          rw [heq]
          refine ⟨hval.symm, hWF, fun _ => rfl, ?_⟩
          intro key'
          by_cases hkk : key' = p
          · subst hkk
            rw [if_pos rfl, hval]
          · rw [if_neg hkk]
        | some v =>
          have hval : trieGet (PNode.node p c (some v)) p = some v := by
            rw [trieGet_pfx, stripPfx_self, Option.some_bind]
            rfl
          rcases hip : intoPairs c with _ | ⟨⟨cb, pc⟩, rest2⟩
          · have heq : trieRemove (PNode.node p c (some v)) p = (some v, PNode.empty) := by
              show removeF (p.length + 1) (PNode.node p c (some v)) p = _
              rw [removeF, hw]
              show (match intoPairs c with
                | [] => ((some v : Option V), PNode.empty)
                | [(cb, pc)] =>
                  let (cp2, cc2, cv2) := takeN pc
                  (some v, PNode.node (p ++ cb :: cp2) cc2 cv2)
                | prs => (some v, PNode.node p (fromPairs prs) none)) = _
              rw [hip]
            rw [heq]
            refine ⟨hval.symm, rfl, fun h => Option.noConfusion h, ?_⟩
            intro key'
            have hmid := node_value_gets p c (some v) none key'
            rw [empty_map_gets p c hsh hip key'] at hmid
            rw [trieGet_empty]
            exact hmid
          · cases rest2 with
            | nil =>
              have hpcmem : (cb, pc) ∈ intoPairs c := by
                rw [hip]
                exact List.mem_cons_self _ _
              have hpcne := (intoPairs_mem c _ hpcmem).1
              have hpcwf := (intoPairs_mem c _ hpcmem).2 hsC
              cases pc with
              | empty => exact absurd hpcne (by simp [PNode.isEmptyN])
              | node cp2 cc2 cv2 =>
                have heq : trieRemove (PNode.node p c (some v)) p
                    = (some v, PNode.node (p ++ cb :: cp2) cc2 cv2) := by
                  show removeF (p.length + 1) (PNode.node p c (some v)) p = _
                  rw [removeF, hw]
                  show (match intoPairs c with
                    | [] => ((some v : Option V), PNode.empty)
                    | [(cb, pc)] =>
                      let (cp3, cc3, cv3) := takeN pc
                      (some v, PNode.node (p ++ cb :: cp3) cc3 cv3)
                    | prs => (some v, PNode.node p (fromPairs prs) none)) = _
                  rw [hip]
                  rfl
                rw [heq]
                refine ⟨hval.symm, ?_, fun h => Option.noConfusion h, ?_⟩
                · rw [wfN_node_iff]
                  exact (wfN_node_iff cp2 cc2 cv2).mp hpcwf
                · intro key'
                  have hmid := node_value_gets p c (some v) none key'
                  rw [← merge_gets p cp2 cb cc2 cv2 c hsh hip key'] at hmid
                  exact hmid
            | cons kv2 rest3 =>
              have hmem : ∀ kv ∈ intoPairs c, kv.2.isEmptyN = false ∧ wfN kv.2 = true :=
                fun kv h => ⟨(intoPairs_mem c kv h).1, (intoPairs_mem c kv h).2 hsC⟩
              obtain ⟨hrwf, hrip, hrgets⟩ := repack_spec p c none hsh hmem
              have heq : trieRemove (PNode.node p c (some v)) p
                  = (some v, PNode.node p (fromPairs ((cb, pc) :: kv2 :: rest3)) none) := by
                show removeF (p.length + 1) (PNode.node p c (some v)) p = _
                rw [removeF, hw]
                show (match intoPairs c with
                  | [] => ((some v : Option V), PNode.empty)
                  | [(cb2, pc2)] =>
                    let (cp3, cc3, cv3) := takeN pc2
                    (some v, PNode.node (p ++ cb2 :: cp3) cc3 cv3)
                  | prs => (some v, PNode.node p (fromPairs prs) none)) = _
                rw [hip]
              rw [heq, ← hip]
              refine ⟨hval.symm, ?_, fun h => Option.noConfusion h, ?_⟩
              · rw [wfN_node_iff]
                refine ⟨hrwf, Or.inr ?_⟩
                rw [hrip, hip]
                rfl
              · intro key'
                rw [hrgets key']
                exact node_value_gets p c (some v) none key'
      | cons b rest =>
        have hk2 : p ++ b :: rest = key := hk.symm
        subst hk2
        rcases hl : lookupC c b with _ | child
        · have heq : trieRemove (PNode.node p c w) (p ++ b :: rest)
              = (none, PNode.node p c w) := by
            show removeF ((p ++ b :: rest).length + 1) (PNode.node p c w) (p ++ b :: rest) = _
            rw [removeF, hw]
            show (match lookupC c b with
              | none => ((none : Option V), PNode.node p c w)
              | some child2 => removeAfter (PNode.node p c w) b
                  (removeF (p ++ b :: rest).length child2 rest)) = _
            rw [hl]
          have hval : trieGet (PNode.node p c w) (p ++ b :: rest) = none := by
            rw [trieGet_pfx, stripPfx_append, Option.some_bind]
            show (match lookupC c b with
              | none => none
              | some ch => trieGet ch rest) = none
            rw [hl]
          rw [heq]
          refine ⟨hval.symm, hWF, fun _ => rfl, ?_⟩
          intro key'
          by_cases hkk : key' = p ++ b :: rest
          · subst hkk
            rw [if_pos rfl, hval]
          · rw [if_neg hkk]
        · have hchildwf : wfN child = true := lookupC_wf c hsC b child hl
          obtain ⟨ih1, ih2, ih3, ih4⟩ := remove_spec rest child hchildwf
          have hget_t : trieGet (PNode.node p c w) (p ++ b :: rest)
              = trieGet child rest := by
            rw [trieGet_pfx, stripPfx_append, Option.some_bind]
            show (match lookupC c b with
              | none => none
              | some ch => trieGet ch rest) = _
            rw [hl]
          have hrw : removeF (p ++ b :: rest).length child rest = trieRemove child rest :=
            removeF_congr _ _ child rest
              (by rw [List.length_append, List.length_cons]; omega) (by omega)
          have heq0 : trieRemove (PNode.node p c w) (p ++ b :: rest)
              = removeAfter (PNode.node p c w) b
                  (removeF (p ++ b :: rest).length child rest) := by
            show removeF ((p ++ b :: rest).length + 1) (PNode.node p c w) (p ++ b :: rest) = _
            rw [removeF, hw]
            show (match lookupC c b with
              | none => ((none : Option V), PNode.node p c w)
              | some child2 => removeAfter (PNode.node p c w) b
                  (removeF (p ++ b :: rest).length child2 rest)) = _
            rw [hl]
          rcases hpair : trieRemove child rest with ⟨or2, child2⟩
          rw [hrw, hpair] at heq0
          simp only [hpair] at ih1 ih2 ih3 ih4
          cases or2 with
          | none =>
            have hch : child2 = child := ih3 rfl
            subst hch
            have heq : trieRemove (PNode.node p c w) (p ++ b :: rest)
                = (none, replaceChild (PNode.node p c w) b child2) := heq0
            have hrc : replaceChild (PNode.node p c w) b child2 = PNode.node p c w := by
              show PNode.node p (updateChild c b child2) w = _
              rw [updateChild_self c b child2 hl]
            rw [heq, hrc]
            refine ⟨?_, hWF, fun _ => rfl, ?_⟩
            · rw [hget_t]
              exact ih1
            · intro key'
              by_cases hkk : key' = p ++ b :: rest
              · subst hkk
                rw [if_pos rfl, hget_t]
                exact ih1.symm
              · rw [if_neg hkk]
          | some rv =>
            by_cases hemp : child2.isEmptyN = false
            · have heq : trieRemove (PNode.node p c w) (p ++ b :: rest)
                  = (some rv, replaceChild (PNode.node p c w) b child2) :=
                heq0.trans (if_pos hemp)
              rw [heq]
              refine ⟨?_, ?_, fun h => Option.noConfusion h, ?_⟩
              · rw [hget_t]
                exact ih1
              · show wfN (PNode.node p (updateChild c b child2) w) = true
                rw [wfN_node_iff]
                refine ⟨wfC_updateChild c hsC b _ hemp ih2, Or.inr ?_⟩
                have hlu : lookupC (updateChild c b child2) b = some child2 := by
                  rw [lookupC_updateChild c hsh b child hl _ b, if_pos rfl]
                have hbt := intoPairs_lookup (updateChild c b child2)
                  (by rw [wfShape_updateChild]; exact hsh) b
                rw [hlu, Option.some_bind,
                  if_neg (by rw [hemp]; exact Bool.false_ne_true)] at hbt
                exact btLookup_isEmpty hbt
              · intro key'
                show trieGet (PNode.node p (updateChild c b child2) w) key' = _
                exact remove_mid_gets p rest b c w child child2 hsh hl ih4 key'
            · have hemp2 : child2.isEmptyN = true := by
                cases hb : child2.isEmptyN with
                | true => rfl
                | false => exact absurd hb hemp
              have hc2 : child2 = PNode.empty := by
                cases child2 with
                | empty => rfl
                | node p2 c2 w2 => exact Bool.noConfusion hemp2
              subst hc2
              have hmidg := remove_mid_gets p rest b c w child PNode.empty hsh hl ih4
              have hsh2 : wfShape (updateChild c b PNode.empty) = true := by
                rw [wfShape_updateChild]
                exact hsh
              have hmem2 := updateChild_empty_mem c b child hsC hl
              cases w with
              | some v0 =>
                have heq : trieRemove (PNode.node p c (some v0)) (p ++ b :: rest)
                    = (some rv, PNode.node p
                        (fromPairs (intoPairs (updateChild c b PNode.empty)))
                        (some v0)) := heq0
                obtain ⟨hrwf, hrip, hrgets⟩ :=
                  repack_spec p (updateChild c b PNode.empty) (some v0) hsh2 hmem2
                rw [heq]
                refine ⟨?_, ?_, fun h => Option.noConfusion h, ?_⟩
                · rw [hget_t]
                  exact ih1
                · rw [wfN_node_iff]
                  exact ⟨hrwf, Or.inl rfl⟩
                · intro key'
                  rw [hrgets key']
                  exact hmidg key'
              | none =>
                rcases hip2 : intoPairs (updateChild c b PNode.empty)
                  with _ | ⟨⟨cb, pc⟩, rest2⟩
                · have heq : trieRemove (PNode.node p c none) (p ++ b :: rest)
                      = (some rv, PNode.empty) := by
                    rw [heq0]
                    show (match (none : Option V).isSome,
                        intoPairs (updateChild c b PNode.empty) with
                      | false, [] => ((some rv : Option V), PNode.empty)
                      | false, [(cb2, pc2)] =>
                        let (cp3, cc3, cv3) := takeN pc2
                        (some rv, PNode.node (p ++ cb2 :: cp3) cc3 cv3)
                      | x, prs => (some rv, PNode.node p (fromPairs prs) none)) = _
                    rw [hip2]
                    rfl
                  rw [heq]
                  refine ⟨?_, rfl, fun h => Option.noConfusion h, ?_⟩
                  · rw [hget_t]
                    exact ih1
                  · intro key'
                    have hmid := hmidg key'
                    rw [empty_map_gets p _ hsh2 hip2 key'] at hmid
                    rw [trieGet_empty]
                    exact hmid
                · cases rest2 with
                  | nil =>
                    have hpcmem : (cb, pc) ∈ intoPairs (updateChild c b PNode.empty) := by
                      rw [hip2]
                      exact List.mem_cons_self _ _
                    have hpcne := (hmem2 _ hpcmem).1
                    have hpcwf := (hmem2 _ hpcmem).2
                    cases pc with
                    | empty => exact absurd hpcne (by simp [PNode.isEmptyN])
                    | node cp2 cc2 cv2 =>
                      have heq : trieRemove (PNode.node p c none) (p ++ b :: rest)
                          = (some rv, PNode.node (p ++ cb :: cp2) cc2 cv2) := by
                        rw [heq0]
                        show (match (none : Option V).isSome,
                            intoPairs (updateChild c b PNode.empty) with
                          | false, [] => ((some rv : Option V), PNode.empty)
                          | false, [(cb2, pc2)] =>
                            let (cp3, cc3, cv3) := takeN pc2
                            (some rv, PNode.node (p ++ cb2 :: cp3) cc3 cv3)
                          | x, prs => (some rv, PNode.node p (fromPairs prs) none)) = _
                        rw [hip2]
                        rfl
                      rw [heq]
                      refine ⟨?_, ?_, fun h => Option.noConfusion h, ?_⟩
                      · rw [hget_t]
                        exact ih1
                      · rw [wfN_node_iff]
                        exact (wfN_node_iff cp2 cc2 cv2).mp hpcwf
                      · intro key'
                        have hmid := hmidg key'
                        rw [← merge_gets p cp2 cb cc2 cv2
                          (updateChild c b PNode.empty) hsh2 hip2 key'] at hmid
                        exact hmid
                  | cons kv2 rest3 =>
                    obtain ⟨hrwf, hrip, hrgets⟩ :=
                      repack_spec p (updateChild c b PNode.empty) none hsh2 hmem2
                    have heq : trieRemove (PNode.node p c none) (p ++ b :: rest)
                        = (some rv, PNode.node p
                            (fromPairs ((cb, pc) :: kv2 :: rest3)) none) := by
                      rw [heq0]
                      show (match (none : Option V).isSome,
                          intoPairs (updateChild c b PNode.empty) with
                        | false, [] => ((some rv : Option V), PNode.empty)
                        | false, [(cb2, pc2)] =>
                          let (cp3, cc3, cv3) := takeN pc2
                          (some rv, PNode.node (p ++ cb2 :: cp3) cc3 cv3)
                        | x, prs => (some rv, PNode.node p (fromPairs prs) none)) = _
                      rw [hip2]
                      rfl
                    rw [heq, ← hip2]
                    refine ⟨?_, ?_, fun h => Option.noConfusion h, ?_⟩
                    · rw [hget_t]
                      exact ih1
                    · rw [wfN_node_iff]
                      refine ⟨hrwf, Or.inr ?_⟩
                      rw [hrip, hip2]
                      rfl
                    · intro key'
                      rw [hrgets key']
                      exact hmidg key'
  · -- key ended inside the stored prefix: untouched
    cases t with
    | empty =>
      exfalso
      have h0 : ([] : List (Fin 256)) = par ++ br :: cp := hp
      have := congrArg List.length h0
      rw [List.length_nil, List.length_append, List.length_cons] at this
      exact absurd this (by omega)
    | node p c w =>
      have hp2 : p = par ++ br :: cp := hp
      subst hp2
      have hk2 : par = key := hk.symm
      subst hk2
      have heq : trieRemove (PNode.node (par ++ br :: cp) c w) par
          = (none, PNode.node (par ++ br :: cp) c w) := by
        show removeF (par.length + 1) (PNode.node (par ++ br :: cp) c w) par = _
        rw [removeF, hw]
      have hval : trieGet (PNode.node (par ++ br :: cp) c w) par = none := by
        rw [trieGet_append_pfx par (br :: cp) c w, stripPfx_self, Option.some_bind]
        rfl
      rw [heq]
      refine ⟨hval.symm, hWF, fun _ => rfl, ?_⟩
      intro key'
      by_cases hkk : key' = par
      · subst hkk
        rw [if_pos rfl, hval]
      · rw [if_neg hkk]
  · -- prefix mismatch: untouched
    cases t with
    | empty =>
      exfalso
      have h0 : ([] : List (Fin 256)) = par ++ ob :: orr := hp
      have := congrArg List.length h0
      rw [List.length_nil, List.length_append, List.length_cons] at this
      exact absurd this (by omega)
    | node p c w =>
      have hp2 : p = par ++ ob :: orr := hp
      subst hp2
      have hk2 : par ++ kb :: kr = key := hk.symm
      subst hk2
      have heq : trieRemove (PNode.node (par ++ ob :: orr) c w) (par ++ kb :: kr)
          = (none, PNode.node (par ++ ob :: orr) c w) := by
        show removeF ((par ++ kb :: kr).length + 1)
          (PNode.node (par ++ ob :: orr) c w) (par ++ kb :: kr) = _
        rw [removeF, hw]
      have hval : trieGet (PNode.node (par ++ ob :: orr) c w) (par ++ kb :: kr)
          = none := by
        rw [trieGet_append_pfx par (ob :: orr) c w, stripPfx_append, Option.some_bind,
          trieGet_cons_pfx]
        show (if kb = ob then trieGet (PNode.node orr c w) kr else none) = none
        rw [if_neg hne]
      rw [heq]
      refine ⟨hval.symm, hWF, fun _ => rfl, ?_⟩
      intro key'
      by_cases hkk : key' = par ++ kb :: kr
      · subst hkk
        rw [if_pos rfl, hval]
      · rw [if_neg hkk]
termination_by key.length
decreasing_by
  rw [← hk2, List.length_append, List.length_cons]
  omega

/-! ## The iterator machine runs to the recursive entries list -/

/-- Running the machine an exact number of steps: none if the stack
empties strictly before the budget is used up. -/
def stepN : Nat → MState V → Option (List (List (Fin 256) × V) × MState V)
  | 0, s => some ([], s)
  | n + 1, s =>
    match stepIter s with
    | none => none
    | some (s', e) =>
      match stepN n s' with
      | none => none
      | some (r1, r2) => some (e.toList ++ r1, r2)

/-- The branch index Option\<u8\> as a function of the raw index. -/
def ixOpt (i : Nat) : Option (Fin 256) :=
  if h : i < 256 then some ⟨i, h⟩ else none

/-- The number of machine steps one loop iteration at branch byte b
costs, the subtree run included. -/
def branchStep (t : PNode V) (b : Fin 256) : Nat :=
  match t.lookupN b with
  | none => 1
  | some ch => iterStepsF (depthN ch + 1) ch + 2

/-- Steps left in a frame sitting at Recurse i: the remaining branch
loop plus the final Recurse None. -/
def tailCost (t : PNode V) (i : Nat) : Nat :=
  (((List.finRange 256).drop i).map (branchStep t)).sum + 1

/-- What the frame still emits from Recurse i on, keys made absolute
against the buffer contents π2. -/
def tailEmit (t : PNode V) (π2 : List (Fin 256)) (i : Nat) :
    List (List (Fin 256) × V) :=
  ((List.finRange 256).drop i).flatMap (fun b =>
    match t.lookupN b with
    | none => []
    | some ch => (entries ch).map (fun kv => ((π2 ++ [b]) ++ kv.1, kv.2)))

theorem flatMap_congr {α β : Type} : ∀ (l : List α) (f g : α → List β),
    (∀ a ∈ l, f a = g a) → l.flatMap f = l.flatMap g
  | [], _, _, _ => rfl
  | a :: l, f, g, h => by
    rw [List.flatMap_cons, List.flatMap_cons, h a (List.mem_cons_self _ _),
      flatMap_congr l f g (fun x hx => h x (List.mem_cons_of_mem _ hx))]

theorem map_flatMap_comm {α β γ : Type} : ∀ (l : List α) (f : α → List β) (g : β → γ),
    (l.flatMap f).map g = l.flatMap (fun a => (f a).map g)
  | [], _, _ => rfl
  | a :: l, f, g => by
    rw [List.flatMap_cons, List.flatMap_cons, List.map_append, map_flatMap_comm l f g]

theorem PList.get?_mem (pl : PList V) (i : Nat) (x : PNode V)
    (h : pl.get? i = some x) : x ∈ pl.toList := by
  rw [PList.get?_eq] at h
  exact List.getElem?_mem h

theorem depthL_mem : ∀ (pl : PList V) (x : PNode V), x ∈ pl.toList → depthN x ≤ depthL pl
  | .nil, x, h => absurd h (List.not_mem_nil x)
  | .cons hd tl, x, h => by
    rw [PList.toList] at h
    rw [depthL]
    rcases List.mem_cons.mp h with rfl | hm
    · exact Nat.le_max_left _ _
    · exact le_trans (depthL_mem tl x hm) (Nat.le_max_right _ _)

theorem depthC_lookup (c : NodeChildren V) (b : Fin 256) (ch : PNode V)
    (hl : lookupC c b = some ch) : depthN ch ≤ depthC c := by
  cases c with
  | emptyC => exact Option.noConfusion hl
  | pairs keys vs =>
    rw [lookupC] at hl
    rcases hfi : keys.findIdx? (fun k => k == b) with _ | i
    · rw [hfi] at hl
      exact Option.noConfusion hl
    · rw [hfi] at hl
      have hl2 : vs.get? i = some ch := hl
      rw [depthC]
      exact depthL_mem vs ch (PList.get?_mem vs i ch hl2)
  | sparse bs vs =>
    rw [lookupC] at hl
    rcases hfi : bsQuery bs b with _ | i
    · rw [hfi] at hl
      exact Option.noConfusion hl
    · rw [hfi] at hl
      have hl2 : vs.get? i = some ch := hl
      rw [depthC]
      exact depthL_mem vs ch (PList.get?_mem vs i ch hl2)
  | dense tb =>
    rw [lookupC] at hl
    rw [depthC]
    exact depthL_mem tb ch (PList.get?_mem tb b.val ch hl)

theorem depthN_lookup (t : PNode V) (b : Fin 256) (ch : PNode V)
    (hl : t.lookupN b = some ch) : depthN ch < depthN t := by
  cases t with
  | empty => exact Option.noConfusion hl
  | node p c v =>
    rw [PNode.lookupN] at hl
    rw [depthN]
    exact Nat.lt_succ_of_le (depthC_lookup c b ch hl)

theorem iterStepsF_congr : ∀ (f1 f2 : Nat) (t : PNode V),
    depthN t < f1 → depthN t < f2 → iterStepsF f1 t = iterStepsF f2 t
  | 0, _, _, h1, _ => absurd h1 (Nat.not_lt_zero _)
  | _ + 1, 0, _, _, h2 => absurd h2 (Nat.not_lt_zero _)
  | f1 + 1, f2 + 1, t, h1, h2 => by
    rw [iterStepsF, iterStepsF]
    have hmap : (List.finRange 256).map (fun b =>
        match t.lookupN b with
        | none => 1
        | some ch => iterStepsF f1 ch + 2)
        = (List.finRange 256).map (fun b =>
        match t.lookupN b with
        | none => 1
        | some ch => iterStepsF f2 ch + 2) := by
      apply List.map_congr_left
      intro b _
      rcases hl : t.lookupN b with _ | ch
      · rfl
      · have hd := depthN_lookup t b ch hl
        show iterStepsF f1 ch + 2 = iterStepsF f2 ch + 2
        rw [iterStepsF_congr f1 f2 ch (by omega) (by omega)]
    rw [hmap]

set_option maxRecDepth 4000 in
theorem entriesF_congr : ∀ (f1 f2 : Nat) (t : PNode V),
    depthN t ≤ f1 → depthN t ≤ f2 → entriesF f1 t = entriesF f2 t
  | f1, f2, .empty, _, _ => by
    cases f1 <;> cases f2 <;> rfl
  | f1, f2, .node p c v, h1, h2 => by
    have hd1 : depthC c + 1 ≤ f1 := by rw [depthN] at h1; exact h1
    have hd2 : depthC c + 1 ≤ f2 := by rw [depthN] at h2; exact h2
    clear h1 h2
    obtain ⟨f1', rfl⟩ : ∃ k, f1 = k + 1 := ⟨f1 - 1, by omega⟩
    obtain ⟨f2', rfl⟩ : ∃ k, f2 = k + 1 := ⟨f2 - 1, by omega⟩
    show ((match v with | some w => [(p, w)] | none => []) ++
      (List.finRange 256).flatMap (fun b =>
        match lookupC c b with
        | none => []
        | some ch => (entriesF f1' ch).map (fun kv => (p ++ b :: kv.1, kv.2))))
      = ((match v with | some w => [(p, w)] | none => []) ++
      (List.finRange 256).flatMap (fun b =>
        match lookupC c b with
        | none => []
        | some ch => (entriesF f2' ch).map (fun kv => (p ++ b :: kv.1, kv.2))))
    congr 1
    apply flatMap_congr
    intro b _
    rcases hl : lookupC c b with _ | ch
    · rfl
    · have hd : depthN ch ≤ depthC c := depthC_lookup c b ch hl
      show (entriesF f1' ch).map (fun kv => (p ++ b :: kv.1, kv.2))
        = (entriesF f2' ch).map (fun kv => (p ++ b :: kv.1, kv.2))
      rw [entriesF_congr f1' f2' ch (by omega) (by omega)]

theorem stepN_one (s s' : MState V) (e : Option (List (Fin 256) × V))
    (h : stepIter s = some (s', e)) : stepN 1 s = some (e.toList, s') := by
  show (match stepIter s with
    | none => none
    | some (s2, e2) =>
      match stepN 0 s2 with
      | none => none
      | some (r1, r2) => some (e2.toList ++ r1, r2)) = _
  rw [h]
  rcases e with _ | kv
  · rfl
  · rfl

theorem stepN_chain : ∀ (n m : Nat) (s s' : MState V) (E : List (List (Fin 256) × V)),
    stepN n s = some (E, s') →
    stepN (n + m) s
      = match stepN m s' with
        | none => none
        | some (E2, s'') => some (E ++ E2, s'')
  | 0, m, s, s', E, h => by
    rw [stepN] at h
    obtain ⟨hE, hs⟩ : E = [] ∧ s = s' := by
      have h2 := Option.some.inj h
      exact ⟨(congrArg Prod.fst h2).symm, congrArg Prod.snd h2⟩
    subst hE
    subst hs
    rw [Nat.zero_add]
    rcases hm : stepN m s with _ | ⟨E2, s2⟩
    · rfl
    · show some (E2, s2) = some ([] ++ E2, s2)
      rw [List.nil_append]
  | n + 1, m, s, s', E, h => by
    have h0 : (match stepIter s with
      | none => none
      | some (s2, e2) =>
        match stepN n s2 with
        | none => none
        | some (r1, r2) => some (e2.toList ++ r1, r2)) = some (E, s') := h
    rcases hsi : stepIter s with _ | ⟨s1, e⟩
    · rw [hsi] at h0
      exact Option.noConfusion h0
    · rw [hsi] at h0
      have h1 : (match stepN n s1 with
        | none => none
        | some (r1, r2) => some (e.toList ++ r1, r2)) = some (E, s') := h0
      rcases hr : stepN n s1 with _ | ⟨E1, s1'⟩
      · rw [hr] at h1
        exact Option.noConfusion h1
      · rw [hr] at h1
        have h2 := Option.some.inj h1
        have hE : E = e.toList ++ E1 := (congrArg Prod.fst h2).symm
        have hs : s1' = s' := congrArg Prod.snd h2
        have hadd : n + 1 + m = (n + m) + 1 := by omega
        rw [hadd]
        show (match stepIter s with
          | none => none
          | some (s2, e2) =>
            match stepN (n + m) s2 with
            | none => none
            | some (r1, r2) => some (e2.toList ++ r1, r2)) = _
        rw [hsi]
        show (match stepN (n + m) s1 with
          | none => none
          | some (r1, r2) => some (e.toList ++ r1, r2)) = _
        rw [stepN_chain n m s1 s1' E1 hr, hs, hE]
        show (match (match stepN m s' with
          | none => none
          | some (E2, s'') => some (E1 ++ E2, s'')) with
          | none => none
          | some (r1, r2) => some (e.toList ++ r1, r2)) = _
        rcases stepN m s' with _ | ⟨E2, s2⟩
        · rfl
        · show some (e.toList ++ (E1 ++ E2), s2) = some ((e.toList ++ E1) ++ E2, s2)
          rw [List.append_assoc]

theorem stepIter_start (t : PNode V) (π : List (Fin 256))
    (rest : List (PNode V × FrameState)) :
    stepIter ⟨π, (t, .start) :: rest⟩
      = some (⟨π ++ t.pfxOf, (t, .recurse (some 0)) :: rest⟩,
          match t.valueOf with
          | some v => some (π ++ t.pfxOf, v)
          | none => none) := by
  show (match t.valueOf with
    | some v => some ((⟨π ++ t.pfxOf, (t, FrameState.recurse (some 0)) :: rest⟩ : MState V),
        some (π ++ t.pfxOf, v))
    | none => some ((⟨π ++ t.pfxOf, (t, FrameState.recurse (some 0)) :: rest⟩ : MState V),
        (none : Option (List (Fin 256) × V)))) = _
  rcases t.valueOf with _ | v
  · rfl
  · rfl

theorem stepIter_recurse (t : PNode V) (π : List (Fin 256))
    (rest : List (PNode V × FrameState)) (i : Fin 256) :
    stepIter ⟨π, (t, .recurse (some i)) :: rest⟩
      = match t.lookupN i with
        | some child => some (⟨π ++ [i],
            (child, .start) :: (t, .popByte (ixOpt (i.val + 1))) :: rest⟩, none)
        | none => some (⟨π, (t, .recurse (ixOpt (i.val + 1))) :: rest⟩, none) := by
  show (match t.lookupN i with
    | some child => some ((⟨π ++ [i], (child, FrameState.start) ::
        (t, FrameState.popByte (if h : i.val + 1 < 256 then some ⟨i.val + 1, h⟩ else none))
        :: rest⟩ : MState V), (none : Option (List (Fin 256) × V)))
    | none => some ((⟨π, (t, FrameState.recurse
        (if h : i.val + 1 < 256 then some ⟨i.val + 1, h⟩ else none)) :: rest⟩ : MState V),
        (none : Option (List (Fin 256) × V)))) = _
  rcases t.lookupN i with _ | ch
  · rfl
  · rfl

theorem stepIter_popByte (t : PNode V) (π : List (Fin 256))
    (rest : List (PNode V × FrameState)) (ix : Option (Fin 256)) :
    stepIter ⟨π, (t, .popByte ix) :: rest⟩
      = some (⟨π.dropLast, (t, .recurse ix) :: rest⟩, none) := rfl

theorem stepIter_recurse_none (t : PNode V) (π : List (Fin 256))
    (rest : List (PNode V × FrameState)) :
    stepIter ⟨π, (t, .recurse none) :: rest⟩
      = some (⟨π.take (π.length - t.pfxOf.length), rest⟩, none) := rfl

set_option maxRecDepth 4000 in
theorem finRange_drop_cons (i : Nat) (h : i < 256) :
    (List.finRange 256).drop i = ⟨i, h⟩ :: (List.finRange 256).drop (i + 1) := by
  rw [List.drop_eq_getElem_cons (by rw [List.length_finRange]; exact h)]
  congr 1
  rw [List.getElem_finRange]
  rfl

theorem iterSteps_decomp (t : PNode V) :
    iterStepsF (depthN t + 1) t = 1 + tailCost t 0 := by
  rw [iterStepsF, tailCost, List.drop_zero]
  have hmap : (List.finRange 256).map (fun b =>
      match t.lookupN b with
      | none => 1
      | some ch => iterStepsF (depthN t) ch + 2)
      = (List.finRange 256).map (branchStep t) := by
    apply List.map_congr_left
    intro b _
    rcases hl : t.lookupN b with _ | ch
    · rw [branchStep, hl]
    · have hd := depthN_lookup t b ch hl
      rw [branchStep, hl]
      show iterStepsF (depthN t) ch + 2 = iterStepsF (depthN ch + 1) ch + 2
      rw [iterStepsF_congr (depthN t) (depthN ch + 1) ch (by omega) (by omega)]
  rw [hmap]
  omega

set_option maxRecDepth 4000 in
theorem entries_decomp (t : PNode V) (π : List (Fin 256)) :
    (entries t).map (fun kv => (π ++ kv.1, kv.2))
      = (match t.valueOf with
         | some v => [(π ++ t.pfxOf, v)]
         | none => []) ++ tailEmit t (π ++ t.pfxOf) 0 := by
  cases t with
  | empty =>
    show ([] : List (List (Fin 256) × V)) = [] ++ tailEmit PNode.empty (π ++ []) 0
    rw [tailEmit, List.drop_zero, List.nil_append]
    have : (List.finRange 256).flatMap (fun b =>
        match (PNode.empty : PNode V).lookupN b with
        | none => []
        | some ch => (entries ch).map (fun kv => (((π ++ []) ++ [b]) ++ kv.1, kv.2)))
        = (List.finRange 256).flatMap (fun _ => ([] : List (List (Fin 256) × V))) :=
      flatMap_congr _ _ _ (fun b _ => rfl)
    rw [this]
    simp
  | node p c v =>
    rw [show entries (PNode.node p c v)
      = entriesF (depthC c + 1) (PNode.node p c v) from rfl]
    show ((match v with | some w => [(p, w)] | none => []) ++
      (List.finRange 256).flatMap (fun b =>
        match lookupC c b with
        | none => []
        | some ch => (entriesF (depthC c) ch).map
            (fun kv => (p ++ b :: kv.1, kv.2)))).map (fun kv => (π ++ kv.1, kv.2))
      = _
    rw [List.map_append]
    congr 1
    · rcases v with _ | w
      · rfl
      · rfl
    · rw [tailEmit, List.drop_zero, map_flatMap_comm]
      apply flatMap_congr
      intro b _
      rcases hl : lookupC c b with _ | ch
      · rw [show (PNode.node p c v).lookupN b = lookupC c b from rfl, hl]
        rfl
      · rw [show (PNode.node p c v).lookupN b = lookupC c b from rfl, hl]
        show ((entriesF (depthC c) ch).map (fun kv => (p ++ b :: kv.1, kv.2))).map
            (fun kv => (π ++ kv.1, kv.2))
          = (entries ch).map (fun kv => (((π ++ p) ++ [b]) ++ kv.1, kv.2))
        rw [List.map_map]
        rw [entriesF_congr (depthC c) (depthN ch) ch (depthC_lookup c b ch hl) le_rfl]
        apply List.map_congr_left
        intro kv _
        show (π ++ (p ++ b :: kv.1), kv.2) = (((π ++ p) ++ [b]) ++ kv.1, kv.2)
        simp

theorem tailCost_succ (t : PNode V) (i : Nat) (hi : i < 256) :
    tailCost t i = branchStep t ⟨i, hi⟩ + tailCost t (i + 1) := by
  rw [tailCost, tailCost, finRange_drop_cons i hi, List.map_cons, List.sum_cons]
  omega

theorem tailEmit_succ (t : PNode V) (π2 : List (Fin 256)) (i : Nat) (hi : i < 256) :
    tailEmit t π2 i
      = (match t.lookupN ⟨i, hi⟩ with
         | none => []
         | some ch => (entries ch).map (fun kv => ((π2 ++ [(⟨i, hi⟩ : Fin 256)]) ++ kv.1, kv.2)))
        ++ tailEmit t π2 (i + 1) := by
  rw [tailEmit, tailEmit, finRange_drop_cons i hi, List.flatMap_cons]

set_option maxRecDepth 8000 in
theorem iter_branches (t : PNode V) (π : List (Fin 256))
    (rest : List (PNode V × FrameState))
    (hA : ∀ (b : Fin 256) (ch : PNode V), t.lookupN b = some ch →
      ∀ (π2 : List (Fin 256)) (rest2 : List (PNode V × FrameState)),
        stepN (iterStepsF (depthN ch + 1) ch) ⟨π2, (ch, .start) :: rest2⟩
          = some ((entries ch).map (fun kv => (π2 ++ kv.1, kv.2)), ⟨π2, rest2⟩)) :
    ∀ (k i : Nat), i + k = 256 →
      stepN (tailCost t i) ⟨π ++ t.pfxOf, (t, .recurse (ixOpt i)) :: rest⟩
        = some (tailEmit t (π ++ t.pfxOf) i, ⟨π, rest⟩) := by
  intro k
  induction k with
  | zero =>
    intro i hik
    have hi : i = 256 := by omega
    subst hi
    have hdrop : (List.finRange 256).drop 256 = [] := by
      apply List.drop_eq_nil_of_le
      rw [List.length_finRange]
    have hkey : (π ++ t.pfxOf).take ((π ++ t.pfxOf).length - t.pfxOf.length) = π := by
      rw [List.length_append]
      have h2 : π.length + t.pfxOf.length - t.pfxOf.length = π.length := by omega
      rw [h2, List.take_left]
    have hstep : stepIter ⟨π ++ t.pfxOf, (t, .recurse (ixOpt 256)) :: rest⟩
        = some (⟨π, rest⟩, none) := by
      rw [show ixOpt 256 = (none : Option (Fin 256)) from rfl, stepIter_recurse_none, hkey]
    rw [tailCost, tailEmit, hdrop]
    rw [show ((([] : List (Fin 256)).map (branchStep t)).sum + 1) = 1 from rfl,
      stepN_one _ _ _ hstep]
    rfl
  | succ k ih =>
    intro i hik
    have hi : i < 256 := by omega
    rw [tailCost_succ t i hi, tailEmit_succ t (π ++ t.pfxOf) i hi]
    rcases hl : t.lookupN ⟨i, hi⟩ with _ | ch
    · have hbs : branchStep t ⟨i, hi⟩ = 1 := by
        rw [branchStep, hl]
      rw [hbs]
      have hstep : stepIter ⟨π ++ t.pfxOf, (t, .recurse (ixOpt i)) :: rest⟩
          = some (⟨π ++ t.pfxOf, (t, .recurse (ixOpt (i + 1))) :: rest⟩, none) := by
        rw [show ixOpt i = some (⟨i, hi⟩ : Fin 256) from dif_pos hi, stepIter_recurse, hl]
      rw [stepN_chain 1 (tailCost t (i + 1)) _ _ _ (stepN_one _ _ _ hstep)]
      rw [ih (i + 1) (by omega)]
      rfl
    · have hbs : branchStep t ⟨i, hi⟩ = iterStepsF (depthN ch + 1) ch + 2 := by
        rw [branchStep, hl]
      rw [hbs]
      rw [show iterStepsF (depthN ch + 1) ch + 2 + tailCost t (i + 1)
          = 1 + (iterStepsF (depthN ch + 1) ch + (1 + tailCost t (i + 1))) from by omega]
      have hstep : stepIter ⟨π ++ t.pfxOf, (t, .recurse (ixOpt i)) :: rest⟩
          = some (⟨(π ++ t.pfxOf) ++ [(⟨i, hi⟩ : Fin 256)],
              (ch, .start) :: (t, .popByte (ixOpt (i + 1))) :: rest⟩, none) := by
        rw [show ixOpt i = some (⟨i, hi⟩ : Fin 256) from dif_pos hi, stepIter_recurse, hl]
      rw [stepN_chain 1 _ _ _ _ (stepN_one _ _ _ hstep)]
      have hchild := hA ⟨i, hi⟩ ch hl ((π ++ t.pfxOf) ++ [(⟨i, hi⟩ : Fin 256)])
        ((t, FrameState.popByte (ixOpt (i + 1))) :: rest)
      rw [stepN_chain (iterStepsF (depthN ch + 1) ch) (1 + tailCost t (i + 1)) _ _ _ hchild]
      have hstep2 : stepIter ⟨(π ++ t.pfxOf) ++ [(⟨i, hi⟩ : Fin 256)],
          (t, .popByte (ixOpt (i + 1))) :: rest⟩
          = some (⟨π ++ t.pfxOf, (t, .recurse (ixOpt (i + 1))) :: rest⟩, none) := by
        rw [stepIter_popByte, List.dropLast_concat]
      rw [stepN_chain 1 (tailCost t (i + 1)) _ _ _ (stepN_one _ _ _ hstep2)]
      rw [ih (i + 1) (by omega)]
      rfl

/-- A frame for node t, entered at buffer π, runs for exactly its step
count, emits exactly the subtree's entries below π, and returns the
machine to the caller's state. -/
theorem iter_frame_run (t : PNode V) (π : List (Fin 256))
    (rest : List (PNode V × FrameState)) :
    stepN (iterStepsF (depthN t + 1) t) ⟨π, (t, .start) :: rest⟩
      = some ((entries t).map (fun kv => (π ++ kv.1, kv.2)), ⟨π, rest⟩) := by
  have hA : ∀ (b : Fin 256) (ch : PNode V), t.lookupN b = some ch →
      ∀ (π2 : List (Fin 256)) (rest2 : List (PNode V × FrameState)),
        stepN (iterStepsF (depthN ch + 1) ch) ⟨π2, (ch, .start) :: rest2⟩
          = some ((entries ch).map (fun kv => (π2 ++ kv.1, kv.2)), ⟨π2, rest2⟩) := by
    intro b ch hli π2 rest2
    exact iter_frame_run ch π2 rest2
  have hB := iter_branches t π rest hA 256 0 (by omega)
  have hB2 : stepN (tailCost t 0) ⟨π ++ t.pfxOf, (t, .recurse (some 0)) :: rest⟩
      = some (tailEmit t (π ++ t.pfxOf) 0, ⟨π, rest⟩) := hB
  have hstart := stepIter_start t π rest
  rw [iterSteps_decomp, stepN_chain 1 (tailCost t 0) _ _ _ (stepN_one _ _ _ hstart)]
  rw [hB2, entries_decomp t π]
  rcases t.valueOf with _ | v
  · rfl
  · rfl
termination_by depthN t
decreasing_by
  exact depthN_lookup t b ch hli

theorem runIter_chain : ∀ (n m : Nat) (s s' : MState V) (E : List (List (Fin 256) × V)),
    stepN n s = some (E, s') →
    runIter (n + m) s = (E ++ (runIter m s').1, (runIter m s').2)
  | 0, m, s, s', E, h => by
    rw [stepN] at h
    have h2 := Option.some.inj h
    have hE : E = [] := (congrArg Prod.fst h2).symm
    have hs : s = s' := congrArg Prod.snd h2
    subst hE
    subst hs
    rw [Nat.zero_add, List.nil_append]
  | n + 1, m, s, s', E, h => by
    have h0 : (match stepIter s with
      | none => none
      | some (s2, e2) =>
        match stepN n s2 with
        | none => none
        | some (r1, r2) => some (e2.toList ++ r1, r2)) = some (E, s') := h
    rcases hsi : stepIter s with _ | ⟨s1, e⟩
    · rw [hsi] at h0
      exact Option.noConfusion h0
    · rw [hsi] at h0
      have h1 : (match stepN n s1 with
        | none => none
        | some (r1, r2) => some (e.toList ++ r1, r2)) = some (E, s') := h0
      rcases hr : stepN n s1 with _ | ⟨E1, s1'⟩
      · rw [hr] at h1
        exact Option.noConfusion h1
      · rw [hr] at h1
        have h2 := Option.some.inj h1
        have hE : E = e.toList ++ E1 := (congrArg Prod.fst h2).symm
        have hs : s1' = s' := congrArg Prod.snd h2
        have hadd : n + 1 + m = (n + m) + 1 := by omega
        rw [hadd]
        show (match stepIter s with
          | none => ([], s)
          | some (s2, eOpt) =>
            let r := runIter (n + m) s2
            (eOpt.toList ++ r.1, r.2)) = _
        rw [hsi]
        show (e.toList ++ (runIter (n + m) s1).1, (runIter (n + m) s1).2) = _
        rw [runIter_chain n m s1 s1' E1 hr, hE, hs]
        rw [List.append_assoc]

theorem runIter_empty_stack (m : Nat) (π : List (Fin 256)) :
    runIter m (⟨π, []⟩ : MState V) = ([], ⟨π, []⟩) := by
  cases m with
  | zero => rfl
  | succ m => rfl

/-- The TreeIterator machine produces exactly the recursive entries
list. -/
theorem trieIter_eq_entries (t : PNode V) : trieIter t = entries t := by
  show (runIter (iterStepsF (depthN t + 1) t + 1)
    (⟨[], [(t, FrameState.start)]⟩ : MState V)).1 = entries t
  rw [runIter_chain (iterStepsF (depthN t + 1) t) 1 _ _ _ (iter_frame_run t [] [])]
  rw [runIter_empty_stack]
  show (entries t).map (fun kv => ([] ++ kv.1, kv.2)) ++ [] = entries t
  rw [List.append_nil]
  have : (entries t).map (fun kv => (([] : List (Fin 256)) ++ kv.1, kv.2))
      = (entries t).map id := List.map_congr_left (fun kv _ => rfl)
  rw [this, List.map_id]

/-! ## Properties of the entries list: exactness and ordering -/

/-- Strict byte-lexicographic order on keys (shorter prefixes first). -/
def lexLt (a b : List (Fin 256)) : Prop := List.Lex (· < ·) a b

theorem lex_append_cons (p : List (Fin 256)) (b : Fin 256) (k : List (Fin 256)) :
    lexLt p (p ++ b :: k) := by
  induction p with
  | nil => exact List.Lex.nil
  | cons a q ih => exact List.Lex.cons ih

theorem lex_append_lt (p : List (Fin 256)) (b1 b2 : Fin 256) (hb : b1 < b2)
    (k1 k2 : List (Fin 256)) : lexLt (p ++ b1 :: k1) (p ++ b2 :: k2) := by
  induction p with
  | nil => exact List.Lex.rel hb
  | cons a q ih => exact List.Lex.cons ih

theorem lex_append_left (q k1 k2 : List (Fin 256)) (h : lexLt k1 k2) :
    lexLt (q ++ k1) (q ++ k2) := by
  induction q with
  | nil => exact h
  | cons a r ih => exact List.Lex.cons ih

theorem lex_asymm : ∀ (a b : List (Fin 256)), lexLt a b → lexLt b a → False
  | _, _, List.Lex.nil, h2 => by cases h2
  | _, _, List.Lex.cons h1, List.Lex.cons h2 => lex_asymm _ _ h1 h2
  | _, _, List.Lex.cons h1, List.Lex.rel h2 => lt_irrefl _ h2
  | _, _, List.Lex.rel h1, List.Lex.cons h2 => lt_irrefl _ h1
  | _, _, List.Lex.rel h1, List.Lex.rel h2 => absurd h2 (Fin.lt_asymm h1)

/-- The entries list binds exactly the keys get finds, with get's
values. -/
theorem entries_get (t : PNode V) : ∀ (k : List (Fin 256)) (v : V),
    (k, v) ∈ entries t ↔ trieGet t k = some v := by
  intro k v
  cases t with
  | empty =>
    rw [trieGet_empty]
    show (k, v) ∈ ([] : List (List (Fin 256) × V)) ↔ _
    simp
  | node p c w =>
    show (k, v) ∈ ((match w with | some w2 => [(p, w2)] | none => []) ++
      (List.finRange 256).flatMap (fun b =>
        match lookupC c b with
        | none => []
        | some ch => (entriesF (depthC c) ch).map (fun kv => (p ++ b :: kv.1, kv.2)))) ↔ _
    rw [List.mem_append, List.mem_flatMap, trieGet_pfx]
    constructor
    · rintro (hv | ⟨b, hb, hm⟩)
      · rcases w with _ | w2
        · exact absurd hv (List.not_mem_nil _)
        · rw [List.mem_singleton] at hv
          injection hv with hk hv2
          subst hk
          subst hv2
          rw [stripPfx_self, Option.some_bind]
          rfl
      · rcases hl : lookupC c b with _ | ch
        · rw [hl] at hm
          exact absurd hm (List.not_mem_nil _)
        · rw [hl] at hm
          rw [List.mem_map] at hm
          obtain ⟨kv, hkv, hkv2⟩ := hm
          injection hkv2 with hk hv2
          subst hk
          subst hv2
          rw [stripPfx_append, Option.some_bind]
          have hch : trieGet ch kv.1 = some kv.2 := by
            rw [← entries_get ch kv.1 kv.2]
            rw [entries, ← entriesF_congr (depthC c) (depthN ch) ch
              (depthC_lookup c b ch hl) le_rfl]
            exact hkv
          show (match lookupC c b with
            | none => none
            | some ch2 => trieGet ch2 kv.1) = some kv.2
          rw [hl]
          exact hch
    · intro hg
      rcases hs : stripPfx p k with _ | r
      · rw [hs] at hg
        exact Option.noConfusion hg
      · rw [hs, Option.some_bind] at hg
        have hk := (stripPfx_eq_some_iff _ _ _).mp hs
        subst hk
        cases r with
        | nil =>
          left
          have hw : w = some v := hg
          rw [hw, List.append_nil]
          exact List.mem_singleton.mpr rfl
        | cons b ks =>
          right
          have hg2 : (match lookupC c b with
            | none => none
            | some ch => trieGet ch ks) = some v := hg
          rcases hl : lookupC c b with _ | ch
          · rw [hl] at hg2
            exact Option.noConfusion hg2
          · rw [hl] at hg2
            have hg3 : trieGet ch ks = some v := hg2
            refine ⟨b, List.mem_finRange b, ?_⟩
            rw [hl, List.mem_map]
            refine ⟨(ks, v), ?_, rfl⟩
            rw [entriesF_congr (depthC c) (depthN ch) ch (depthC_lookup c b ch hl) le_rfl,
              ← entries]
            exact (entries_get ch ks v).mpr hg3
termination_by depthN t
decreasing_by
  all_goals exact depthN_lookup _ b ch hl

theorem pairwise_flatMap {α β : Type} (R : β → β → Prop) :
    ∀ (l : List α) (f : α → List β),
    (∀ a ∈ l, (f a).Pairwise R) →
    l.Pairwise (fun a b => ∀ x ∈ f a, ∀ y ∈ f b, R x y) →
    (l.flatMap f).Pairwise R
  | [], _, _, _ => List.Pairwise.nil
  | a :: l, f, h1, h2 => by
    rw [List.flatMap_cons, List.pairwise_append]
    refine ⟨h1 a (List.mem_cons_self _ _),
      pairwise_flatMap R l f (fun x hx => h1 x (List.mem_cons_of_mem _ hx))
        (List.pairwise_cons.mp h2).2, ?_⟩
    intro x hx y hy
    rw [List.mem_flatMap] at hy
    obtain ⟨b2, hb2, hy2⟩ := hy
    exact (List.pairwise_cons.mp h2).1 b2 hb2 x hx y hy2

/-- The entries list is strictly ascending in byte-lexicographic key
order. -/
theorem entries_sorted (t : PNode V) :
    (entries t).Pairwise (fun a b => lexLt a.1 b.1) := by
  cases t with
  | empty => exact List.Pairwise.nil
  | node p c w =>
    show ((match w with | some w2 => [(p, w2)] | none => []) ++
      (List.finRange 256).flatMap (fun b =>
        match lookupC c b with
        | none => []
        | some ch => (entriesF (depthC c) ch).map
            (fun kv => (p ++ b :: kv.1, kv.2)))).Pairwise (fun a b => lexLt a.1 b.1)
    rw [List.pairwise_append]
    refine ⟨?_, ?_, ?_⟩
    · rcases w with _ | w2
      · exact List.Pairwise.nil
      · exact List.pairwise_singleton _ _
    · apply pairwise_flatMap
      · intro b _
        rcases hl : lookupC c b with _ | ch
        · exact List.Pairwise.nil
        · rw [List.pairwise_map]
          have hch := entries_sorted ch
          rw [entries, ← entriesF_congr (depthC c) (depthN ch) ch
            (depthC_lookup c b ch hl) le_rfl] at hch
          refine hch.imp (fun h => ?_)
          have h2 := lex_append_left (p ++ [b]) _ _ h
          simpa [List.append_assoc] using h2
      · have hfr := List.pairwise_lt_finRange 256
        apply hfr.imp
        intro b1 b2 hb x hx y hy
        rcases hl1 : lookupC c b1 with _ | ch1
        · rw [hl1] at hx
          exact absurd hx (List.not_mem_nil _)
        · rcases hl2 : lookupC c b2 with _ | ch2
          · rw [hl2] at hy
            exact absurd hy (List.not_mem_nil _)
          · rw [hl1] at hx
            rw [hl2] at hy
            rw [List.mem_map] at hx hy
            obtain ⟨kv1, _, hx2⟩ := hx
            obtain ⟨kv2, _, hy2⟩ := hy
            rw [← hx2, ← hy2]
            exact lex_append_lt p b1 b2 hb kv1.1 kv2.1
    · intro x hx y hy
      rcases w with _ | w2
      · exact absurd hx (List.not_mem_nil _)
      · rw [List.mem_singleton] at hx
        subst hx
        rw [List.mem_flatMap] at hy
        obtain ⟨b, _, hy2⟩ := hy
        rcases hl : lookupC c b with _ | ch
        · rw [hl] at hy2
          exact absurd hy2 (List.not_mem_nil _)
        · rw [hl] at hy2
          rw [List.mem_map] at hy2
          obtain ⟨kv, _, hy3⟩ := hy2
          rw [← hy3]
          exact lex_append_cons p b kv.1
termination_by depthN t
decreasing_by
  exact depthN_lookup _ b ch hl

/-! ## The ordered reference map: a key-sorted association list -/

/-- The public operations of the Trie API. -/
inductive QOp (V : Type) : Type where
  | ins (key : List (Fin 256)) (v : V)
  | del (key : List (Fin 256))
  | get (key : List (Fin 256))
  | iter

/-- What one operation returns to the caller. -/
inductive QOut (V : Type) : Type where
  | val (o : Option V)
  | list (l : List (List (Fin 256) × V))

/-- One operation against the trie. -/
def stepTrie : PNode V → QOp V → QOut V × PNode V
  | t, .ins k v => (.val (trieInsert t k v).1, (trieInsert t k v).2)
  | t, .del k => (.val (trieRemove t k).1, (trieRemove t k).2)
  | t, .get k => (.val (trieGet t k), t)
  | t, .iter => (.list (trieIter t), t)

/-- Trie states reachable from Trie::new() by inserts and removes. -/
def applyOps : PNode V → List (QOp V) → PNode V
  | t, [] => t
  | t, op :: ops => applyOps (stepTrie t op).2 ops

def Reachable (t : PNode V) : Prop := ∃ ops : List (QOp V), applyOps PNode.empty ops = t

theorem applyOps_wf : ∀ (ops : List (QOp V)) (t : PNode V), wfN t = true →
    wfN (applyOps t ops) = true
  | [], t, h => h
  | op :: ops, t, h => by
    rw [applyOps]
    cases op with
    | ins k v => exact applyOps_wf ops _ (insert_spec k t v h).2.2.1
    | del k => exact applyOps_wf ops _ (remove_spec k t h).2.1
    | get k => exact applyOps_wf ops t h
    | iter => exact applyOps_wf ops t h

theorem reachable_wf (t : PNode V) (h : Reachable t) : wfN t = true := by
  obtain ⟨ops, hops⟩ := h
  rw [← hops]
  exact applyOps_wf ops PNode.empty rfl

mutual
/-- Every stored node's prefix fits the 6-bit header field
(NodeHeader::new's assert). -/
def pfxOkN : PNode V → Bool
  | .empty => true
  | .node p c _ => decide (p.length < 64) && pfxOkC c
def pfxOkC : NodeChildren V → Bool
  | .emptyC => true
  | .pairs _ vs => pfxOkL vs
  | .sparse _ vs => pfxOkL vs
  | .dense tb => pfxOkL tb
def pfxOkL : PList V → Bool
  | .nil => true
  | .cons h t => pfxOkN h && pfxOkL t
end

/-- I2 at the root: a value-less node needs at least two children. -/
def i2Root : PNode V → Bool
  | .empty => true
  | .node _ c v => v.isSome || decide (2 ≤ (intoPairs c).length)

/-! ## The claims -/

/-- C3: after insert(k, v1), a second insert(k, v2) returns some v1,
and a subsequent get(k) returns v2. -/
theorem claim_C3 (t : PNode V) (k : List (Fin 256)) (v1 v2 : V)
    (hWF : wfN t = true) :
    (trieInsert (trieInsert t k v1).2 k v2).1 = some v1
    ∧ trieGet (trieInsert (trieInsert t k v1).2 k v2).2 k = some v2 := by
  obtain ⟨_, _, hwf1, hgets1⟩ := insert_spec k t v1 hWF
  obtain ⟨hret2, _, _, hgets2⟩ := insert_spec k (trieInsert t k v1).2 v2 hwf1
  constructor
  · rw [hret2, hgets1 k, if_pos rfl]
  · rw [hgets2 k, if_pos rfl]

theorem claim_C3_witness :
    wfN (PNode.empty : PNode Nat) = true
    ∧ ((trieInsert (trieInsert (PNode.empty : PNode Nat) [0] 1).2 [0] 2).1 = some 1
      ∧ trieGet (trieInsert (trieInsert (PNode.empty : PNode Nat) [0] 1).2 [0] 2).2 [0]
          = some 2) :=
  ⟨rfl, claim_C3 PNode.empty [0] 1 2 rfl⟩

/-- C4: on every reachable trie, iter() emits pairs whose keys are
strictly ascending in byte-lexicographic order (hence each key at most
once), and a pair is emitted exactly when get currently finds it. -/
theorem claim_C4 (t : PNode V) (hreach : Reachable t) :
    (trieIter t).Pairwise (fun a b => lexLt a.1 b.1)
    ∧ ∀ k v, ((k, v) ∈ trieIter t ↔ trieGet t k = some v) := by
  rw [trieIter_eq_entries]
  exact ⟨entries_sorted t, fun k v => entries_get t k v⟩

theorem claim_C4_witness :
    Reachable ((trieInsert (PNode.empty : PNode Nat) [0] 7).2)
    ∧ ((trieIter ((trieInsert (PNode.empty : PNode Nat) [0] 7).2)).Pairwise
        (fun a b => lexLt a.1 b.1)
      ∧ ∀ k v, ((k, v) ∈ trieIter ((trieInsert (PNode.empty : PNode Nat) [0] 7).2)
          ↔ trieGet ((trieInsert (PNode.empty : PNode Nat) [0] 7).2) k = some v)) :=
  ⟨⟨[QOp.ins [0] 7], rfl⟩, claim_C4 _ ⟨[QOp.ins [0] 7], rfl⟩⟩

/-- C5 (amended): after every insert or remove operation starting from
Trie::new(), the tree is well-formed; in particular every reachable
stored node satisfies I1 (it has a value or at least one child).  (I2
is not preserved: the original claim fails.) -/
theorem claim_C5 (t : PNode V) (hreach : Reachable t) : wfN t = true :=
  reachable_wf t hreach

theorem claim_C5_witness :
    Reachable ((trieInsert (PNode.empty : PNode Nat) [] 3).2)
    ∧ wfN ((trieInsert (PNode.empty : PNode Nat) [] 3).2) = true :=
  ⟨⟨[QOp.ins [] 3], rfl⟩, claim_C5 _ ⟨[QOp.ins [] 3], rfl⟩⟩

/-- C5, counterexample to I2 as claimed: one insert of a nonempty key
into an empty trie reaches a state whose root stores no value and has
exactly one child. -/
theorem claim_C5_counterexample :
    Reachable ((trieInsert (PNode.empty : PNode Nat) [0] 5).2)
    ∧ i2Root ((trieInsert (PNode.empty : PNode Nat) [0] 5).2) = false :=
  ⟨⟨[QOp.ins [0] 5], rfl⟩, rfl⟩

/-- C6: removing an absent key returns none and leaves the trie
structurally unchanged. -/
theorem claim_C6 (t : PNode V) (k : List (Fin 256)) (hWF : wfN t = true)
    (habs : trieGet t k = none) :
    (trieRemove t k).1 = none ∧ (trieRemove t k).2 = t := by
  obtain ⟨hret, _, hunch, _⟩ := remove_spec k t hWF
  have h1 : (trieRemove t k).1 = none := by rw [hret, habs]
  exact ⟨h1, hunch h1⟩

theorem claim_C6_witness :
    wfN ((trieInsert (PNode.empty : PNode Nat) [0] 7).2) = true
    ∧ trieGet ((trieInsert (PNode.empty : PNode Nat) [0] 7).2) [1] = none
    ∧ ((trieRemove ((trieInsert (PNode.empty : PNode Nat) [0] 7).2) [1]).1 = none
      ∧ (trieRemove ((trieInsert (PNode.empty : PNode Nat) [0] 7).2) [1]).2
          = (trieInsert (PNode.empty : PNode Nat) [0] 7).2) :=
  ⟨rfl, rfl, claim_C6 _ [1] rfl rfl⟩

set_option maxRecDepth 10000 in
/-- C7: inserting a 65-byte key into an empty trie stores a child node
whose prefix is 64 bytes long, which NodeHeader::new's
assert(prefix_len < 64) rejects when the node is packed; the claimed
chain of nodes is never built, so the operation aborts instead of
completing. -/
theorem claim_C7_bug :
    pfxOkN ((trieInsert (PNode.empty : PNode Nat) (List.replicate 65 0) 5).2) = false := by
  decide

/-- C8: for a bitset holding exactly the members of l, query(b) returns
the rank of b (the number of set bits strictly below b) when b is set,
and none when it is not; every one of the 256 inputs is answered. -/
theorem claim_C8 (l : List (Fin 256)) (b : Fin 256) :
    bsQuery (bsBuild l) b
      = if b ∈ l then
          some ((List.finRange 256).countP (fun x => decide (x ∈ l) && decide (x.val < b.val)))
        else none :=
  bsQuery_build l b

/-- C9: from_pairs picks the variant of the count bucket (0 Empty,
1..=32 Pairs, 33..=192 Sparse, 193..=256 Dense, the boundaries
included), and into_pairs (from_pairs m) returns exactly m. -/
theorem claim_C9 (m : List (Fin 256 × PNode V)) (hs : btSorted m)
    (hne : ∀ kv ∈ m, kv.2.isEmptyN = false) :
    some (structureTypeOf (fromPairs m)) = fromCount m.length
    ∧ intoPairs (fromPairs m) = m :=
  ⟨structureTypeOf_fromPairs m (btSorted_length_le m hs),
    intoPairs_fromPairs m hs hne⟩

def mC9 : List (Fin 256 × PNode Nat) := [(0, PNode.node [] NodeChildren.emptyC (some 5))]

theorem claim_C9_witness :
    btSorted mC9 ∧ (∀ kv ∈ mC9, kv.2.isEmptyN = false)
    ∧ (some (structureTypeOf (fromPairs mC9)) = fromCount mC9.length
      ∧ intoPairs (fromPairs mC9) = mC9) := by
  have h1 : btSorted mC9 := List.pairwise_singleton _ _
  have h2 : ∀ kv ∈ mC9, kv.2.isEmptyN = false := by
    intro kv hkv
    rcases List.mem_singleton.mp hkv with rfl
    rfl
  exact ⟨h1, h2, claim_C9 mC9 h1 h2⟩

/-! ## C10 development -/

def PList.countNonEmpty : PList V → Nat
  | .nil => 0
  | .cons h t => (if h.isEmptyN then 0 else 1) + t.countNonEmpty

/-- NodeChildren::len. -/
def NodeChildren.len : NodeChildren V → Nat
  | .emptyC => 0
  | .pairs keys _ => keys.length
  | .sparse _ values => values.length
  | .dense table => table.countNonEmpty

/-- One byte of a node's allocation, as the typed content the source
writes through pointer casts: a raw u8, the first byte of a child
handle, of a bitset, or of a value; ub is a byte never written. -/
inductive Cell (V : Type) : Type where
  | ub : Cell V
  | byteC (b : Nat) : Cell V
  | ptrC (p : PNode V) : Cell V
  | bitsC (bs : List Nat) : Cell V
  | valC (v : V) : Cell V

def Buffer (V : Type) : Type := Nat → Cell V

def updB (buf : Buffer V) (i : Nat) (c : Cell V) : Buffer V :=
  fun j => if j = i then c else buf j

structure NodeHeader : Type where
  prefix_byte : Nat
  children_byte : Nat
deriving DecidableEq

/-- NodeHeader::new; the assert(prefix_len < 64) is modeled as none,
the u8 casts as % 256. -/
def NodeHeader.new (prefix_len num_children : Nat) (has_value : Bool) :
    Option NodeHeader :=
  if prefix_len < 64 then
    some ⟨(prefix_len % 256 ||| (if num_children = 256 then 1 <<< 6 else 0))
            ||| (if has_value then 1 <<< 7 else 0),
          if num_children = 256 then 255 else num_children % 256⟩
  else none

def NodeHeader.prefix_len (h : NodeHeader) : Nat :=
  h.prefix_byte &&& ((1 <<< 6) - 1)

def NodeHeader.num_children (h : NodeHeader) : Nat :=
  if h.prefix_byte &&& (1 <<< 6) ≠ 0 then 256 else h.children_byte

def NodeHeader.has_value (h : NodeHeader) : Bool :=
  decide (h.prefix_byte &&& (1 <<< 7) ≠ 0)

/-- prefix_range().start; size_of::<NodeHeader<T>> = 2 (header.rs's
test_sizes). -/
def NodeHeader.prefix_end (h : NodeHeader) : Nat := 2 + h.prefix_len

/-- children_range().end, W = size_of::<PackedNode<T>>; none models the
from_count panic. -/
def NodeHeader.children_end (W : Nat) (h : NodeHeader) : Option Nat :=
  (fromCount h.num_children).map (fun ct =>
    h.prefix_end + match ct with
      | .Empty => 0
      | .Pairs => h.num_children + W * h.num_children
      | .Sparse => 32 + W * h.num_children
      | .Dense => W * 256)

/-- value_range(), sV/aV = size/align of T. -/
def NodeHeader.value_range (W sV aV : Nat) (h : NodeHeader) :
    Option (Nat × Nat) :=
  if h.has_value then
    (h.children_end W).map (fun ce =>
      ((ce + aV - 1) / aV * aV, (ce + aV - 1) / aV * aV + sV))
  else none

def writeBytes : Buffer V → Nat → List (Fin 256) → Buffer V
  | buf, _, [] => buf
  | buf, i, b :: rest => writeBytes (updB buf i (.byteC b.val)) (i + 1) rest

def writePtrs (W : Nat) : Buffer V → Nat → PList V → Buffer V
  | buf, _, .nil => buf
  | buf, i, .cons p rest => writePtrs W (updB buf i (.ptrC p)) (i + W) rest

/-- The children part of Node::pack; none models the keys/values length
assert. -/
def packChildren (W : Nat) (base : Nat) :
    NodeChildren V → Buffer V → Option (Buffer V)
  | .emptyC, buf => some buf
  | .pairs keys values, buf =>
    if keys.length = values.length then
      some (writePtrs W (writeBytes buf base keys) (base + keys.length) values)
    else none
  | .sparse bitset values, buf =>
    some (writePtrs W (updB buf base (.bitsC bitset)) (base + 32) values)
  | .dense table, buf => some (writePtrs W buf base table)

/-- Node::pack; none models the asserts and the value_range unwrap. -/
def pack (W sV aV : Nat) (h : NodeHeader) (p : List (Fin 256))
    (c : NodeChildren V) (v : Option V) (buf : Buffer V) : Option (Buffer V) :=
  if p.length = h.prefix_len then
    if fromCount h.num_children = some (structureTypeOf c) then
      match packChildren W h.prefix_end c
          (writeBytes (updB (updB buf 0 (Cell.byteC h.prefix_byte)) 1
            (Cell.byteC h.children_byte)) 2 p), v with
      | none, _ => none
      | some buf3, none => some buf3
      | some buf3, some value =>
        match h.value_range W sV aV with
        | none => none
        | some r => some (updB buf3 r.1 (Cell.valC value))
    else none
  else none

def readByte (buf : Buffer V) (i : Nat) : Option (Fin 256) :=
  match buf i with
  | .byteC b => if hb : b < 256 then some ⟨b, hb⟩ else none
  | _ => none

def readBytes (buf : Buffer V) : Nat → Nat → Option (List (Fin 256))
  | _, 0 => some []
  | i, n + 1 =>
    match readByte buf i with
    | none => none
    | some b => (readBytes buf (i + 1) n).map (fun rest => b :: rest)

def readPtrs (W : Nat) (buf : Buffer V) : Nat → Nat → Option (PList V)
  | _, 0 => some PList.nil
  | i, n + 1 =>
    match buf i with
    | .ptrC pn => (readPtrs W buf (i + W) n).map (.cons pn)
    | _ => none

/-- The children part of Node::unpack. -/
def unpackChildren (W : Nat) (h : NodeHeader) (buf : Buffer V) :
    Option (NodeChildren V) :=
  match fromCount h.num_children with
  | none => none
  | some .Empty => some .emptyC
  | some .Pairs =>
    match readBytes buf h.prefix_end h.num_children,
          readPtrs W buf (h.prefix_end + h.num_children) h.num_children with
    | some keys, some values => some (.pairs keys values)
    | _, _ => none
  | some .Sparse =>
    match buf h.prefix_end, readPtrs W buf (h.prefix_end + 32) h.num_children with
    | .bitsC bs, some values => some (.sparse bs values)
    | _, _ => none
  | some .Dense =>
    match readPtrs W buf h.prefix_end 256 with
    | some table => some (.dense table)
    | none => none

/-- Node::unpack; reading a byte that was never written with that type
yields none. -/
def unpack (W sV aV : Nat) (h : NodeHeader) (buf : Buffer V) :
    Option (List (Fin 256) × NodeChildren V × Option V) :=
  match readBytes buf 2 h.prefix_len with
  | none => none
  | some p =>
    match unpackChildren W h buf with
    | none => none
    | some c =>
      match h.value_range W sV aV with
      | none => some (p, c, none)
      | some r =>
        match buf r.1 with
        | .valC v => some (p, c, some v)
        | _ => none

/-! ## Lemmas -/

theorem updB_self (buf : Buffer V) (i : Nat) (c : Cell V) : updB buf i c i = c := by
  simp [updB]

theorem updB_ne (buf : Buffer V) (i j : Nat) (c : Cell V) (h : j ≠ i) :
    updB buf i c j = buf j := by
  simp [updB, h]

theorem writeBytes_outside : ∀ (l : List (Fin 256)) (buf : Buffer V) (i j : Nat),
    (j < i ∨ i + l.length ≤ j) → writeBytes buf i l j = buf j
  | [], _, _, _, _ => rfl
  | b :: rest, buf, i, j, h => by
    have h' : j < i ∨ i + rest.length + 1 ≤ j := by
      rcases h with h | h
      · exact Or.inl h
      · simp only [List.length_cons] at h
        right
        omega
    have hne : j ≠ i := by omega
    have hrec : j < i + 1 ∨ (i + 1) + rest.length ≤ j := by omega
    rw [writeBytes, writeBytes_outside rest _ (i + 1) j hrec]
    exact updB_ne buf i j _ hne

theorem writePtrs_outside (W : Nat) (hW : 1 ≤ W) :
    ∀ (vs : PList V) (buf : Buffer V) (i j : Nat),
    (j < i ∨ i + vs.length * W ≤ j) → writePtrs W buf i vs j = buf j
  | .nil, _, _, _, _ => rfl
  | .cons pn rest, buf, i, j, h => by
    have hlen : (PList.cons pn rest).length * W = rest.length * W + W := by
      show (rest.length + 1) * W = _
      rw [Nat.succ_mul]
    rw [hlen] at h
    rw [writePtrs, writePtrs_outside W hW rest _ (i + W) j
      (by rcases h with h | h
          · exact Or.inl (by omega)
          · exact Or.inr (by omega))]
    exact updB_ne buf i j _ (by rcases h with h | h <;> omega)

theorem readBytes_congr : ∀ (n : Nat) (buf buf' : Buffer V) (i : Nat),
    (∀ j, i ≤ j → j < i + n → buf j = buf' j) →
    readBytes buf i n = readBytes buf' i n
  | 0, _, _, _, _ => rfl
  | n + 1, buf, buf', i, h => by
    have h0 : buf i = buf' i := h i (le_refl i) (by omega)
    rw [readBytes, readBytes, readByte, readByte, h0,
      readBytes_congr n buf buf' (i + 1)
        (fun j hj1 hj2 => h j (by omega) (by omega))]

theorem readPtrs_congr (W : Nat) : ∀ (n : Nat) (buf buf' : Buffer V) (i : Nat),
    (∀ k, k < n → buf (i + k * W) = buf' (i + k * W)) →
    readPtrs W buf i n = readPtrs W buf' i n
  | 0, _, _, _, _ => rfl
  | n + 1, buf, buf', i, h => by
    have h0 : buf i = buf' i := by
      have := h 0 (Nat.succ_pos n)
      simpa using this
    rw [readPtrs, readPtrs, h0,
      readPtrs_congr W n buf buf' (i + W)
        (fun k hk => by
          have h2 := h (k + 1) (by omega)
          have heq : i + (k + 1) * W = i + W + k * W := by
            rw [Nat.succ_mul]; omega
          rw [heq] at h2
          exact h2)]

theorem readByte_byteC (buf : Buffer V) (i : Nat) (b : Fin 256)
    (h : buf i = Cell.byteC b.val) : readByte buf i = some b := by
  rw [readByte, h]
  show (if hb : b.val < 256 then some (⟨b.val, hb⟩ : Fin 256) else none) = some b
  rw [dif_pos b.isLt]

theorem readBytes_writeBytes : ∀ (l : List (Fin 256)) (buf : Buffer V) (i : Nat),
    readBytes (writeBytes buf i l) i l.length = some l
  | [], _, _ => rfl
  | b :: rest, buf, i => by
    simp only [List.length_cons]
    rw [writeBytes, readBytes]
    have h1 : writeBytes (updB buf i (Cell.byteC b.val)) (i + 1) rest i
        = Cell.byteC b.val := by
      rw [writeBytes_outside rest _ (i + 1) i (Or.inl (by omega))]
      exact updB_self buf i _
    rw [readByte_byteC _ i b h1]
    show (readBytes (writeBytes (updB buf i (Cell.byteC b.val)) (i + 1) rest)
        (i + 1) rest.length).map (fun r => b :: r) = some (b :: rest)
    rw [readBytes_writeBytes rest (updB buf i (Cell.byteC b.val)) (i + 1)]
    rfl

theorem readPtrs_writePtrs (W : Nat) (hW : 1 ≤ W) :
    ∀ (vs : PList V) (buf : Buffer V) (i : Nat),
    readPtrs W (writePtrs W buf i vs) i vs.length = some vs
  | .nil, _, _ => rfl
  | .cons pn rest, buf, i => by
    have h1 : writePtrs W (updB buf i (Cell.ptrC pn)) (i + W) rest i
        = Cell.ptrC pn := by
      rw [writePtrs_outside W hW rest _ (i + W) i (Or.inl (by omega))]
      exact updB_self buf i _
    show readPtrs W (writePtrs W (updB buf i (Cell.ptrC pn)) (i + W) rest)
        i (rest.length + 1) = some (PList.cons pn rest)
    rw [readPtrs, h1]
    show (readPtrs W (writePtrs W (updB buf i (Cell.ptrC pn)) (i + W) rest)
        (i + W) rest.length).map (PList.cons pn) = some (PList.cons pn rest)
    rw [readPtrs_writePtrs W hW rest (updB buf i (Cell.ptrC pn)) (i + W)]
    rfl

theorem le_alignUp (ce aV : Nat) (h : 1 ≤ aV) :
    ce ≤ (ce + aV - 1) / aV * aV := by
  have h1 := Nat.div_add_mod (ce + aV - 1) aV
  have h2 := Nat.mod_lt (ce + aV - 1) (show 0 < aV by omega)
  rw [Nat.mul_comm]
  omega

theorem fromCount_le {n : Nat} {ty : NodeChildrenType}
    (h : fromCount n = some ty) : n ≤ 256 := by
  unfold fromCount at h
  split_ifs at h with h1 h2 h3 h4
  all_goals omega

theorem hdr_facts (a b : Nat) (ha : a = 0 ∨ a = 1 <<< 6)
    (hb : b = 0 ∨ b = 1 <<< 7) : ∀ pl : Fin 64,
    (((pl.val ||| a) ||| b) &&& ((1 <<< 6) - 1) = pl.val)
    ∧ ((((pl.val ||| a) ||| b) &&& (1 <<< 6)) = a)
    ∧ ((((pl.val ||| a) ||| b) &&& (1 <<< 7)) = b) := by
  rcases ha with rfl | rfl <;> rcases hb with rfl | rfl <;> decide

theorem new_getters (pl n : Nat) (hv : Bool) (hpl : pl < 64) (hn : n ≤ 256)
    (h : NodeHeader) (hnew : NodeHeader.new pl n hv = some h) :
    h.prefix_len = pl ∧ h.num_children = n ∧ h.has_value = hv := by
  unfold NodeHeader.new at hnew
  rw [if_pos hpl, Nat.mod_eq_of_lt (show pl < 256 by omega)] at hnew
  by_cases h256 : n = 256
  · subst h256
    rw [if_pos rfl, if_pos rfl] at hnew
    cases hv
    · rw [if_neg (by decide)] at hnew
      injection hnew with hh
      subst hh
      have hfacts := hdr_facts (1 <<< 6) 0 (Or.inr rfl) (Or.inl rfl) ⟨pl, hpl⟩
      have h63 : ((pl ||| 1 <<< 6) ||| 0) &&& ((1 <<< 6) - 1) = pl := hfacts.1
      have h64 : ((pl ||| 1 <<< 6) ||| 0) &&& (1 <<< 6) = 1 <<< 6 := hfacts.2.1
      have h128 : ((pl ||| 1 <<< 6) ||| 0) &&& (1 <<< 7) = 0 := hfacts.2.2
      refine ⟨h63, ?_, ?_⟩
      · show (if ((pl ||| 1 <<< 6) ||| 0) &&& (1 <<< 6) ≠ 0 then 256 else 255) = 256
        rw [if_pos (show _ ≠ 0 by rw [h64]; decide)]
      · show decide (((pl ||| 1 <<< 6) ||| 0) &&& (1 <<< 7) ≠ 0) = false
        exact decide_eq_false (by rw [h128]; decide)
    · rw [if_pos rfl] at hnew
      injection hnew with hh
      subst hh
      have hfacts := hdr_facts (1 <<< 6) (1 <<< 7) (Or.inr rfl) (Or.inr rfl) ⟨pl, hpl⟩
      have h63 : ((pl ||| 1 <<< 6) ||| 1 <<< 7) &&& ((1 <<< 6) - 1) = pl := hfacts.1
      have h64 : ((pl ||| 1 <<< 6) ||| 1 <<< 7) &&& (1 <<< 6) = 1 <<< 6 := hfacts.2.1
      have h128 : ((pl ||| 1 <<< 6) ||| 1 <<< 7) &&& (1 <<< 7) = 1 <<< 7 := hfacts.2.2
      refine ⟨h63, ?_, ?_⟩
      · show (if ((pl ||| 1 <<< 6) ||| 1 <<< 7) &&& (1 <<< 6) ≠ 0 then 256 else 255) = 256
        rw [if_pos (show _ ≠ 0 by rw [h64]; decide)]
      · show decide (((pl ||| 1 <<< 6) ||| 1 <<< 7) &&& (1 <<< 7) ≠ 0) = true
        exact decide_eq_true (by rw [h128]; decide)
  · rw [if_neg h256, if_neg h256,
      Nat.mod_eq_of_lt (show n < 256 by omega)] at hnew
    cases hv
    · rw [if_neg (by decide)] at hnew
      injection hnew with hh
      subst hh
      have hfacts := hdr_facts 0 0 (Or.inl rfl) (Or.inl rfl) ⟨pl, hpl⟩
      have h63 : ((pl ||| 0) ||| 0) &&& ((1 <<< 6) - 1) = pl := hfacts.1
      have h64 : ((pl ||| 0) ||| 0) &&& (1 <<< 6) = 0 := hfacts.2.1
      have h128 : ((pl ||| 0) ||| 0) &&& (1 <<< 7) = 0 := hfacts.2.2
      refine ⟨h63, ?_, ?_⟩
      · show (if ((pl ||| 0) ||| 0) &&& (1 <<< 6) ≠ 0 then 256 else n) = n
        rw [if_neg (show ¬(_ ≠ 0) by rw [h64]; decide)]
      · show decide (((pl ||| 0) ||| 0) &&& (1 <<< 7) ≠ 0) = false
        exact decide_eq_false (by rw [h128]; decide)
    · rw [if_pos rfl] at hnew
      injection hnew with hh
      subst hh
      have hfacts := hdr_facts 0 (1 <<< 7) (Or.inl rfl) (Or.inr rfl) ⟨pl, hpl⟩
      have h63 : ((pl ||| 0) ||| 1 <<< 7) &&& ((1 <<< 6) - 1) = pl := hfacts.1
      have h64 : ((pl ||| 0) ||| 1 <<< 7) &&& (1 <<< 6) = 0 := hfacts.2.1
      have h128 : ((pl ||| 0) ||| 1 <<< 7) &&& (1 <<< 7) = 1 <<< 7 := hfacts.2.2
      refine ⟨h63, ?_, ?_⟩
      · show (if ((pl ||| 0) ||| 1 <<< 7) &&& (1 <<< 6) ≠ 0 then 256 else n) = n
        rw [if_neg (show ¬(_ ≠ 0) by rw [h64]; decide)]
      · show decide (((pl ||| 0) ||| 1 <<< 7) &&& (1 <<< 7) ≠ 0) = true
        exact decide_eq_true (by rw [h128]; decide)

theorem unpack_spec (W sV aV : Nat) (h : NodeHeader) (p : List (Fin 256))
    (c : NodeChildren V) (bufF : Buffer V)
    (hplen : h.prefix_len = p.length)
    (hpref : readBytes bufF 2 p.length = some p)
    (hchild : unpackChildren W h bufF = some c) :
    (h.value_range W sV aV = none → unpack W sV aV h bufF = some (p, c, none))
    ∧ (∀ r : Nat × Nat, ∀ value : V, h.value_range W sV aV = some r →
        bufF r.1 = Cell.valC value →
        unpack W sV aV h bufF = some (p, c, some value)) := by
  constructor
  · intro hvr
    rw [unpack, hplen, hpref]
    show (match unpackChildren W h bufF with
      | none => none
      | some c2 =>
        match h.value_range W sV aV with
        | none => some (p, c2, none)
        | some r =>
          match bufF r.1 with
          | .valC v2 => some (p, c2, some v2)
          | _ => none) = some (p, c, none)
    rw [hchild]
    show (match h.value_range W sV aV with
      | none => some (p, c, none)
      | some r =>
        match bufF r.1 with
        | .valC v2 => some (p, c, some v2)
        | _ => none) = some (p, c, none)
    rw [hvr]
  · intro r value hvr hread
    rw [unpack, hplen, hpref]
    show (match unpackChildren W h bufF with
      | none => none
      | some c2 =>
        match h.value_range W sV aV with
        | none => some (p, c2, none)
        | some r2 =>
          match bufF r2.1 with
          | .valC v2 => some (p, c2, some v2)
          | _ => none) = some (p, c, some value)
    rw [hchild]
    show (match h.value_range W sV aV with
      | none => some (p, c, none)
      | some r2 =>
        match bufF r2.1 with
        | .valC v2 => some (p, c, some v2)
        | _ => none) = some (p, c, some value)
    rw [hvr]
    show (match bufF r.1 with
      | .valC v2 => some (p, c, some v2)
      | _ => none) = some (p, c, some value)
    rw [hread]

/-- C10: for every logical node whose prefix is shorter than 64 bytes
and whose children variant matches its child-count bucket (and whose
pairs key/pointer arrays have equal length, resp. whose dense table has
256 slots, as the Rust types guarantee), packing the node into a buffer
with its own header and then unpacking with the same header
reconstructs an equal node: the same prefix bytes, the same value
presence and value, and the same children. -/
theorem claim_C10 (V : Type) (W sV aV : Nat) (hW : 1 ≤ W) (haV : 1 ≤ aV)
    (p : List (Fin 256)) (c : NodeChildren V) (v : Option V) (buf : Buffer V)
    (hpl : p.length < 64)
    (hbucket : fromCount (NodeChildren.len c) = some (structureTypeOf c))
    (hpairs : ∀ keys values, c = NodeChildren.pairs keys values →
        keys.length = PList.length values)
    (hdense : ∀ table, c = NodeChildren.dense table → PList.length table = 256) :
    (NodeHeader.new p.length (NodeChildren.len c) v.isSome).bind
      (fun h => (pack W sV aV h p c v buf).bind (unpack W sV aV h))
      = some (p, c, v) := by
  obtain ⟨h, hnew⟩ : ∃ h, NodeHeader.new p.length (NodeChildren.len c) v.isSome
      = some h := by
    unfold NodeHeader.new
    rw [if_pos hpl]
    exact ⟨_, rfl⟩
  rw [hnew]
  show (pack W sV aV h p c v buf).bind (unpack W sV aV h) = some (p, c, v)
  obtain ⟨hplen, hnc, hhv⟩ := new_getters p.length (NodeChildren.len c) v.isSome
    hpl (fromCount_le hbucket) h hnew
  have hbase : h.prefix_end = 2 + p.length := by rw [NodeHeader.prefix_end, hplen]
  unfold pack
  rw [if_pos hplen.symm,
    if_pos (show fromCount h.num_children = some (structureTypeOf c) by
      rw [hnc]; exact hbucket)]
  set bufH := updB (updB buf 0 (Cell.byteC h.prefix_byte)) 1
    (Cell.byteC h.children_byte) with hbufH
  set buf2 := writeBytes bufH 2 p with hbuf2
  have hpref2 : readBytes buf2 2 p.length = some p := by
    rw [hbuf2]
    exact readBytes_writeBytes p bufH 2
  cases c with
  | emptyC =>
    have hpc : packChildren W h.prefix_end NodeChildren.emptyC buf2 = some buf2 := rfl
    rw [hpc]
    have hchildF : unpackChildren W h buf2 = some (NodeChildren.emptyC (V := V)) := by
      rw [unpackChildren, hnc]
      rfl
    have hce : h.children_end W = some (h.prefix_end + 0) := by
      rw [NodeHeader.children_end, hnc]
      rfl
    cases v with
    | none =>
      have hvrn : h.value_range W sV aV = none := by
        rw [NodeHeader.value_range, show h.has_value = false from hhv]
        rfl
      show unpack W sV aV h buf2 = some (p, NodeChildren.emptyC, none)
      exact (unpack_spec W sV aV h p NodeChildren.emptyC buf2 hplen hpref2 hchildF).1 hvrn
    | some value =>
      have hvr : h.value_range W sV aV
          = some ((h.prefix_end + 0 + aV - 1) / aV * aV,
                  (h.prefix_end + 0 + aV - 1) / aV * aV + sV) := by
        rw [NodeHeader.value_range, show h.has_value = true from hhv, if_pos rfl, hce]
        rfl
      rw [hvr]
      show unpack W sV aV h
          (updB buf2 ((h.prefix_end + 0 + aV - 1) / aV * aV) (Cell.valC value))
        = some (p, NodeChildren.emptyC, some value)
      have hcevs : h.prefix_end + 0 ≤ (h.prefix_end + 0 + aV - 1) / aV * aV :=
        le_alignUp (h.prefix_end + 0) aV haV
      have hagree : ∀ j, j < h.prefix_end + 0 →
          updB buf2 ((h.prefix_end + 0 + aV - 1) / aV * aV) (Cell.valC value) j
            = buf2 j := by
        intro j hj
        exact updB_ne buf2 _ j _ (by omega)
      have hprefF : readBytes
          (updB buf2 ((h.prefix_end + 0 + aV - 1) / aV * aV) (Cell.valC value))
          2 p.length = some p := by
        rw [readBytes_congr p.length _ buf2 2 (fun j hj1 hj2 => hagree j (by omega))]
        exact hpref2
      have hchildF2 : unpackChildren W h
          (updB buf2 ((h.prefix_end + 0 + aV - 1) / aV * aV) (Cell.valC value))
          = some (NodeChildren.emptyC (V := V)) := by
        rw [unpackChildren, hnc]
        rfl
      refine (unpack_spec W sV aV h p NodeChildren.emptyC _ hplen hprefF hchildF2).2
        ((h.prefix_end + 0 + aV - 1) / aV * aV,
         (h.prefix_end + 0 + aV - 1) / aV * aV + sV) value hvr ?_
      exact updB_self buf2 _ _
  | pairs keys values =>
    set buf3 := writePtrs W (writeBytes buf2 h.prefix_end keys)
      (h.prefix_end + keys.length) values with hbuf3
    have hpc : packChildren W h.prefix_end (NodeChildren.pairs keys values) buf2
        = some buf3 := by
      rw [hbuf3, packChildren, if_pos (hpairs keys values rfl)]
    rw [hpc]
    have hlenkv : keys.length = PList.length values := hpairs keys values rfl
    have hlow : ∀ j, j < h.prefix_end → buf3 j = buf2 j := by
      intro j hj
      rw [hbuf3,
        writePtrs_outside W hW values _ (h.prefix_end + keys.length) j
          (Or.inl (by omega)),
        writeBytes_outside keys buf2 h.prefix_end j (Or.inl hj)]
    have hce : h.children_end W
        = some (h.prefix_end + (keys.length + W * keys.length)) := by
      rw [NodeHeader.children_end, hnc, hbucket]
      rfl
    have hprefF : ∀ bufF : Buffer V,
        (∀ j, j < h.prefix_end + (keys.length + W * keys.length) → bufF j = buf3 j) →
        readBytes bufF 2 p.length = some p := by
      intro bufF hagree
      rw [readBytes_congr p.length bufF buf2 2 (fun j hj1 hj2 =>
        (hagree j (by omega)).trans (hlow j (by omega)))]
      exact hpref2
    have hchildF : ∀ bufF : Buffer V,
        (∀ j, j < h.prefix_end + (keys.length + W * keys.length) → bufF j = buf3 j) →
        unpackChildren W h bufF = some (NodeChildren.pairs keys values) := by
      intro bufF hagree
      have hkeys : readBytes bufF h.prefix_end keys.length = some keys := by
        rw [readBytes_congr keys.length bufF (writeBytes buf2 h.prefix_end keys)
          h.prefix_end (fun j hj1 hj2 =>
            (hagree j (by omega)).trans (by
              rw [hbuf3]
              exact writePtrs_outside W hW values _ (h.prefix_end + keys.length) j
                (Or.inl hj2)))]
        exact readBytes_writeBytes keys buf2 h.prefix_end
      have hcnt : readPtrs W bufF (h.prefix_end + keys.length) keys.length
          = readPtrs W bufF (h.prefix_end + keys.length) (PList.length values) := by
        rw [hlenkv]
      have hvals : readPtrs W bufF (h.prefix_end + keys.length) keys.length
          = some values := by
        rw [hcnt, readPtrs_congr W (PList.length values) bufF buf3
          (h.prefix_end + keys.length) (fun k hk => hagree _ (by
            have h2 := Nat.mul_le_mul_right W (show k + 1 ≤ PList.length values by omega)
            rw [Nat.succ_mul] at h2
            have h3 : W * keys.length = PList.length values * W := by
              rw [hlenkv, Nat.mul_comm]
            omega))]
        rw [hbuf3]
        exact readPtrs_writePtrs W hW values (writeBytes buf2 h.prefix_end keys)
          (h.prefix_end + keys.length)
      rw [unpackChildren, hnc, hbucket]
      show (match readBytes bufF h.prefix_end keys.length,
              readPtrs W bufF (h.prefix_end + keys.length) keys.length with
        | some ks, some vls => some (NodeChildren.pairs ks vls)
        | _, _ => none) = some (NodeChildren.pairs keys values)
      rw [hkeys, hvals]
    cases v with
    | none =>
      have hvrn : h.value_range W sV aV = none := by
        rw [NodeHeader.value_range, show h.has_value = false from hhv]
        rfl
      show unpack W sV aV h buf3 = some (p, NodeChildren.pairs keys values, none)
      exact (unpack_spec W sV aV h p (NodeChildren.pairs keys values) buf3 hplen
        (hprefF buf3 (fun j hj => rfl)) (hchildF buf3 (fun j hj => rfl))).1 hvrn
    | some value =>
      have hvr : h.value_range W sV aV
          = some ((h.prefix_end + (keys.length + W * keys.length) + aV - 1) / aV * aV,
            (h.prefix_end + (keys.length + W * keys.length) + aV - 1) / aV * aV + sV) := by
        rw [NodeHeader.value_range, show h.has_value = true from hhv, if_pos rfl, hce]
        rfl
      rw [hvr]
      show unpack W sV aV h
          (updB buf3 ((h.prefix_end + (keys.length + W * keys.length) + aV - 1) / aV * aV)
            (Cell.valC value))
        = some (p, NodeChildren.pairs keys values, some value)
      have hcevs : h.prefix_end + (keys.length + W * keys.length)
          ≤ (h.prefix_end + (keys.length + W * keys.length) + aV - 1) / aV * aV :=
        le_alignUp (h.prefix_end + (keys.length + W * keys.length)) aV haV
      have hagree : ∀ j, j < h.prefix_end + (keys.length + W * keys.length) →
          updB buf3
            ((h.prefix_end + (keys.length + W * keys.length) + aV - 1) / aV * aV)
            (Cell.valC value) j = buf3 j := by
        intro j hj
        exact updB_ne buf3 _ j _ (by omega)
      refine (unpack_spec W sV aV h p (NodeChildren.pairs keys values) _ hplen
        (hprefF _ hagree) (hchildF _ hagree)).2
        ((h.prefix_end + (keys.length + W * keys.length) + aV - 1) / aV * aV,
         (h.prefix_end + (keys.length + W * keys.length) + aV - 1) / aV * aV + sV)
        value hvr ?_
      exact updB_self buf3 _ _
  | sparse bs values =>
    set buf3 := writePtrs W (updB buf2 h.prefix_end (Cell.bitsC bs))
      (h.prefix_end + 32) values with hbuf3
    have hpc : packChildren W h.prefix_end (NodeChildren.sparse bs values) buf2
        = some buf3 := by
      rw [hbuf3, packChildren]
    rw [hpc]
    have hlow : ∀ j, j < h.prefix_end → buf3 j = buf2 j := by
      intro j hj
      rw [hbuf3,
        writePtrs_outside W hW values _ (h.prefix_end + 32) j (Or.inl (by omega)),
        updB_ne buf2 h.prefix_end j _ (by omega)]
    have hce : h.children_end W
        = some (h.prefix_end + (32 + W * PList.length values)) := by
      rw [NodeHeader.children_end, hnc, hbucket]
      rfl
    have hprefF : ∀ bufF : Buffer V,
        (∀ j, j < h.prefix_end + (32 + W * PList.length values) → bufF j = buf3 j) →
        readBytes bufF 2 p.length = some p := by
      intro bufF hagree
      rw [readBytes_congr p.length bufF buf2 2 (fun j hj1 hj2 =>
        (hagree j (by omega)).trans (hlow j (by omega)))]
      exact hpref2
    have hchildF : ∀ bufF : Buffer V,
        (∀ j, j < h.prefix_end + (32 + W * PList.length values) → bufF j = buf3 j) →
        unpackChildren W h bufF = some (NodeChildren.sparse bs values) := by
      intro bufF hagree
      have hbits : bufF h.prefix_end = Cell.bitsC bs := by
        rw [hagree h.prefix_end (by omega), hbuf3,
          writePtrs_outside W hW values _ (h.prefix_end + 32) h.prefix_end
            (Or.inl (by omega))]
        exact updB_self buf2 h.prefix_end _
      have hvals : readPtrs W bufF (h.prefix_end + 32) (PList.length values)
          = some values := by
        rw [readPtrs_congr W (PList.length values) bufF buf3 (h.prefix_end + 32)
          (fun k hk => hagree _ (by
            have h2 := Nat.mul_le_mul_right W (show k + 1 ≤ PList.length values by omega)
            rw [Nat.succ_mul] at h2
            have h3 : W * PList.length values = PList.length values * W :=
              Nat.mul_comm W (PList.length values)
            omega))]
        rw [hbuf3]
        exact readPtrs_writePtrs W hW values (updB buf2 h.prefix_end (Cell.bitsC bs))
          (h.prefix_end + 32)
      rw [unpackChildren, hnc, hbucket]
      show (match bufF h.prefix_end,
              readPtrs W bufF (h.prefix_end + 32) (PList.length values) with
        | .bitsC bs2, some vls => some (NodeChildren.sparse bs2 vls)
        | _, _ => none) = some (NodeChildren.sparse bs values)
      rw [hbits, hvals]
    cases v with
    | none =>
      have hvrn : h.value_range W sV aV = none := by
        rw [NodeHeader.value_range, show h.has_value = false from hhv]
        rfl
      show unpack W sV aV h buf3 = some (p, NodeChildren.sparse bs values, none)
      exact (unpack_spec W sV aV h p (NodeChildren.sparse bs values) buf3 hplen
        (hprefF buf3 (fun j hj => rfl)) (hchildF buf3 (fun j hj => rfl))).1 hvrn
    | some value =>
      have hvr : h.value_range W sV aV
          = some ((h.prefix_end + (32 + W * PList.length values) + aV - 1) / aV * aV,
            (h.prefix_end + (32 + W * PList.length values) + aV - 1) / aV * aV + sV) := by
        rw [NodeHeader.value_range, show h.has_value = true from hhv, if_pos rfl, hce]
        rfl
      rw [hvr]
      show unpack W sV aV h
          (updB buf3
            ((h.prefix_end + (32 + W * PList.length values) + aV - 1) / aV * aV)
            (Cell.valC value))
        = some (p, NodeChildren.sparse bs values, some value)
      have hcevs : h.prefix_end + (32 + W * PList.length values)
          ≤ (h.prefix_end + (32 + W * PList.length values) + aV - 1) / aV * aV :=
        le_alignUp (h.prefix_end + (32 + W * PList.length values)) aV haV
      have hagree : ∀ j, j < h.prefix_end + (32 + W * PList.length values) →
          updB buf3
            ((h.prefix_end + (32 + W * PList.length values) + aV - 1) / aV * aV)
            (Cell.valC value) j = buf3 j := by
        intro j hj
        exact updB_ne buf3 _ j _ (by omega)
      refine (unpack_spec W sV aV h p (NodeChildren.sparse bs values) _ hplen
        (hprefF _ hagree) (hchildF _ hagree)).2
        ((h.prefix_end + (32 + W * PList.length values) + aV - 1) / aV * aV,
         (h.prefix_end + (32 + W * PList.length values) + aV - 1) / aV * aV + sV)
        value hvr ?_
      exact updB_self buf3 _ _
  | dense table =>
    set buf3 := writePtrs W buf2 h.prefix_end table with hbuf3
    have hpc : packChildren W h.prefix_end (NodeChildren.dense table) buf2
        = some buf3 := by
      rw [hbuf3, packChildren]
    rw [hpc]
    have htab : PList.length table = 256 := hdense table rfl
    have hlow : ∀ j, j < h.prefix_end → buf3 j = buf2 j := by
      intro j hj
      rw [hbuf3, writePtrs_outside W hW table _ h.prefix_end j (Or.inl hj)]
    have hce : h.children_end W = some (h.prefix_end + W * 256) := by
      rw [NodeHeader.children_end, hnc, hbucket]
      rfl
    have hprefF : ∀ bufF : Buffer V,
        (∀ j, j < h.prefix_end + W * 256 → bufF j = buf3 j) →
        readBytes bufF 2 p.length = some p := by
      intro bufF hagree
      rw [readBytes_congr p.length bufF buf2 2 (fun j hj1 hj2 =>
        (hagree j (by omega)).trans (hlow j (by omega)))]
      exact hpref2
    have hchildF : ∀ bufF : Buffer V,
        (∀ j, j < h.prefix_end + W * 256 → bufF j = buf3 j) →
        unpackChildren W h bufF = some (NodeChildren.dense table) := by
      intro bufF hagree
      have hcnt : readPtrs W bufF h.prefix_end 256
          = readPtrs W bufF h.prefix_end (PList.length table) := by
        rw [htab]
      have htabread : readPtrs W bufF h.prefix_end 256 = some table := by
        rw [hcnt, readPtrs_congr W (PList.length table) bufF buf3 h.prefix_end
          (fun k hk => hagree _ (by
            have h2 := Nat.mul_le_mul_right W (show k + 1 ≤ 256 by omega)
            rw [Nat.succ_mul] at h2
            have h3 : W * 256 = 256 * W := Nat.mul_comm W 256
            omega))]
        rw [hbuf3]
        exact readPtrs_writePtrs W hW table buf2 h.prefix_end
      rw [unpackChildren, hnc, hbucket]
      show (match readPtrs W bufF h.prefix_end 256 with
        | some t => some (NodeChildren.dense t)
        | none => none) = some (NodeChildren.dense table)
      rw [htabread]
    cases v with
    | none =>
      have hvrn : h.value_range W sV aV = none := by
        rw [NodeHeader.value_range, show h.has_value = false from hhv]
        rfl
      show unpack W sV aV h buf3 = some (p, NodeChildren.dense table, none)
      exact (unpack_spec W sV aV h p (NodeChildren.dense table) buf3 hplen
        (hprefF buf3 (fun j hj => rfl)) (hchildF buf3 (fun j hj => rfl))).1 hvrn
    | some value =>
      have hvr : h.value_range W sV aV
          = some ((h.prefix_end + W * 256 + aV - 1) / aV * aV,
            (h.prefix_end + W * 256 + aV - 1) / aV * aV + sV) := by
        rw [NodeHeader.value_range, show h.has_value = true from hhv, if_pos rfl, hce]
        rfl
      rw [hvr]
      show unpack W sV aV h
          (updB buf3 ((h.prefix_end + W * 256 + aV - 1) / aV * aV) (Cell.valC value))
        = some (p, NodeChildren.dense table, some value)
      have hcevs : h.prefix_end + W * 256
          ≤ (h.prefix_end + W * 256 + aV - 1) / aV * aV :=
        le_alignUp (h.prefix_end + W * 256) aV haV
      have hagree : ∀ j, j < h.prefix_end + W * 256 →
          updB buf3 ((h.prefix_end + W * 256 + aV - 1) / aV * aV)
            (Cell.valC value) j = buf3 j := by
        intro j hj
        exact updB_ne buf3 _ j _ (by omega)
      refine (unpack_spec W sV aV h p (NodeChildren.dense table) _ hplen
        (hprefF _ hagree) (hchildF _ hagree)).2
        ((h.prefix_end + W * 256 + aV - 1) / aV * aV,
         (h.prefix_end + W * 256 + aV - 1) / aV * aV + sV)
        value hvr ?_
      exact updB_self buf3 _ _


def cC10 : NodeChildren Nat :=
  NodeChildren.pairs [5] (PList.cons (PNode.node [] NodeChildren.emptyC (some 9)) PList.nil)

def bufC10 : Buffer Nat := fun _ => Cell.ub

theorem claim_C10_witness :
    (1 ≤ 8) ∧ (1 ≤ 8) ∧ ([(2 : Fin 256)].length < 64)
    ∧ fromCount (NodeChildren.len cC10) = some (structureTypeOf cC10)
    ∧ (∀ keys values, cC10 = NodeChildren.pairs keys values →
        keys.length = PList.length values)
    ∧ (∀ table, cC10 = NodeChildren.dense table → PList.length table = 256)
    ∧ (NodeHeader.new [(2 : Fin 256)].length (NodeChildren.len cC10)
          (some (7 : Nat)).isSome).bind
        (fun h => (pack 8 8 8 h [(2 : Fin 256)] cC10 (some 7) bufC10).bind
          (unpack 8 8 8 h))
        = some ([(2 : Fin 256)], cC10, some 7) := by
  have h1 : (1 : Nat) ≤ 8 := by decide
  have h3 : [(2 : Fin 256)].length < 64 := by decide
  have h4 : fromCount (NodeChildren.len cC10) = some (structureTypeOf cC10) := rfl
  have h5 : ∀ keys values, cC10 = NodeChildren.pairs keys values →
      keys.length = PList.length values := by
    intro keys values hEq
    have hEq2 : NodeChildren.pairs [5]
        (PList.cons (PNode.node [] NodeChildren.emptyC (some 9)) PList.nil)
        = NodeChildren.pairs keys values := hEq
    injection hEq2 with hk hv
    subst hk
    subst hv
    rfl
  have h6 : ∀ table, cC10 = NodeChildren.dense table → PList.length table = 256 := by
    intro table hEq
    have hEq2 : NodeChildren.pairs [5]
        (PList.cons (PNode.node [] NodeChildren.emptyC (some 9)) PList.nil)
        = NodeChildren.dense table := hEq
    exact NodeChildren.noConfusion hEq2
  exact ⟨h1, h1, h3, h4, h5, h6,
    claim_C10 Nat 8 8 8 h1 h1 [(2 : Fin 256)] cC10 (some 7) bufC10 h3 h4 h5 h6⟩

end Baobab
